import Mathlib

/-!
# Maximum-clique engine and recognizer of `bron_kerbosch`

A shallow embedding of `GraphUtilities.hpp` and of
`GraphBasedGeometricConsistencyRecognizer.cpp`.

* A `std::vector` is a `List`; `operator[]` is the checked `readAt` / `writeAt`, so that an
  index outside the container stops the computation with `Failure.outOfRange`.
* A failed glog `CHECK` stops the computation with `Failure.checkFailed`.
* `size_t` values are `Nat`: every `size_t` the engine computes is a position, a degree, a
  count of vertices or `min_clique_size - 1`, none of which can wrap. The one narrowing
  conversion of the sources, `static_cast<unsigned>` in `estimateRigidTransformation`, is
  kept as `toUnsigned`.
* The graph is a `boost::adjacency_list<vecS, vecS, undirectedS>`: vertex `v` owns the
  vector of the targets of its out-edges, in insertion order.
* The recursion of `findMaximumCliqueSubset` carries a bound on its nested calls and loop
  turns and stops with `Failure.outOfFuel` beyond it; `findMaximumClique` passes twice the
  number of candidates plus two, which is shown never to be exceeded.
* A vector that was moved from is empty.
* The collaborators the sources only call (`buildConsistencyGraph`, `pcl::umeyama`, the
  conversions between `float` and `double`) are parameters.
* `binSortVerticesByDegree` is declared to return `size_t` and its body has no `return`
  statement. The definition of that name embeds the body: the contents of the four vectors
  when control reaches the closing brace. `findMaximumClique` continues from those contents,
  which is the run of a build that hands control back to the caller there. What the C++
  language makes of the call, in which reaching the closing brace of a value-returning
  function is undefined behaviour, is `binSortVerticesByDegreeCall` and
  `findMaximumCliqueCall`: they stop with `Failure.flowedOffEnd`.
* The incremental builder, whose implementation file is not among the sources, appears only
  as the collaborator `buildConsistencyGraph`.
-/

namespace BronKerbosch

/-! ## The embedded code -/

/-- The ways a call can stop without producing its result. -/
inductive Failure where
  | checkFailed
  | outOfRange
  | outOfFuel
  | solverRaised
  | flowedOffEnd
  deriving DecidableEq, Repr

deriving instance DecidableEq for Except

/-- Checked `xs[i]` used as a value. -/
def readAt {α : Type} (xs : List α) (i : Nat) : Except Failure α :=
  match xs[i]? with
  | some x => .ok x
  | none => .error .outOfRange

/-- Checked `xs[i] = x`. -/
def writeAt {α : Type} (xs : List α) (i : Nat) (x : α) : Except Failure (List α) :=
  if i < xs.length then .ok (xs.set i x) else .error .outOfRange

/-- The entry `xs[i]` of a vector of `size_t`, as a plain value (zero outside the
vector); used to state properties, never by the embedded code. -/
def valueAt (xs : List Nat) (i : Nat) : Nat := xs.getD i 0

/-- The call `xs.resize(n)` on a vector of `size_t`: keeps the first `n` entries and fills
up with zeros. -/
def resize (xs : List Nat) (n : Nat) : List Nat :=
  xs.take n ++ List.replicate (n - xs.length) 0

/-- An adjacency-list graph over the vertices `0 .. adj.length - 1`. -/
structure Graph where
  adj : List (List Nat)
  deriving DecidableEq, Repr

namespace Graph

/-- The value of `boost::num_vertices`. -/
def numVertices (g : Graph) : Nat := g.adj.length

/-- The targets of `boost::out_edges(v, graph)`, in iteration order. -/
def outEdges (g : Graph) (v : Nat) : Except Failure (List Nat) := readAt g.adj v

/-- The value of `boost::out_degree(v, graph)`. -/
def outDegree (g : Graph) (v : Nat) : Except Failure Nat := do
  let es ← g.outEdges v
  pure es.length

/-- The flag `boost::edge(u, v, graph).second`: a search of the out-edges of `u`. -/
def edge (g : Graph) (u v : Nat) : Except Failure Bool := do
  let es ← g.outEdges u
  pure (decide (v ∈ es))

/-- The neighbours of `u` (no neighbours for a `u` that is not a vertex). -/
def neighbors (g : Graph) (u : Nat) : List Nat := g.adj.getD u []

/-- A simple undirected graph: every out-edge list is duplicate free, holds vertices of
the graph only, never the owner itself, and `v` is listed by `u` only if `u` is listed by
`v`. -/
def simpleUndirected (g : Graph) : Prop :=
  ∀ u < g.numVertices, (g.neighbors u).Nodup ∧
    ∀ v ∈ g.neighbors u, v < g.numVertices ∧ v ≠ u ∧ u ∈ g.neighbors v

instance (g : Graph) : Decidable g.simpleUndirected :=
  inferInstanceAs (Decidable (∀ u < g.numVertices, (g.neighbors u).Nodup ∧
    ∀ v ∈ g.neighbors u, v < g.numVertices ∧ v ≠ u ∧ u ∈ g.neighbors v))

/-- A clique: pairwise distinct vertices of the graph, every two joined by an edge. -/
def isClique (g : Graph) (c : List Nat) : Prop :=
  c.Nodup ∧ ∀ u ∈ c, u < g.numVertices ∧ ∀ v ∈ c, u ≠ v → v ∈ g.neighbors u

instance (g : Graph) (c : List Nat) : Decidable (g.isClique c) :=
  inferInstanceAs (Decidable (c.Nodup ∧
    ∀ u ∈ c, u < g.numVertices ∧ ∀ v ∈ c, u ≠ v → v ∈ g.neighbors u))

/-- The complete graph property: every two distinct vertices are joined. -/
def isComplete (g : Graph) : Prop :=
  ∀ u < g.numVertices, ∀ v < g.numVertices, u ≠ v → v ∈ g.neighbors u

instance (g : Graph) : Decidable g.isComplete :=
  inferInstanceAs (Decidable
    (∀ u < g.numVertices, ∀ v < g.numVertices, u ≠ v → v ∈ g.neighbors u))

end Graph

mutual
/-- The recursive helper `findMaximumCliqueSubset`; returns the size found together with
the accumulator `maximum_clique_tmp`. The first argument bounds the number of nested calls
and loop turns. -/
def findMaximumCliqueSubset (g : Graph) (vertex_degrees : List Nat) :
    Nat → List Nat → Nat → Nat → List Nat → Except Failure (Nat × List Nat)
  | 0, _, _, _, _ => .error .outOfFuel
  | fuel + 1, subset, clique_size, max_found_size, maximum_clique_tmp =>
    if subset.isEmpty then
      if clique_size > max_found_size then .ok (clique_size, [])
      else .ok (max_found_size, maximum_clique_tmp)
    else subsetLoop g vertex_degrees fuel subset clique_size max_found_size maximum_clique_tmp
/-- The `while (!subset.empty())` loop of `findMaximumCliqueSubset`. -/
def subsetLoop (g : Graph) (vertex_degrees : List Nat) :
    Nat → List Nat → Nat → Nat → List Nat → Except Failure (Nat × List Nat)
  | 0, _, _, _, _ => .error .outOfFuel
  | fuel + 1, subset, clique_size, max_found_size, maximum_clique_tmp =>
    match subset.getLast? with
    | none => .ok (max_found_size, maximum_clique_tmp)
    | some vertex =>
      if clique_size + subset.length ≤ max_found_size then
        .ok (max_found_size, maximum_clique_tmp)
      else do
        let rest := subset.dropLast
        let neighbors ← rest.foldlM (fun (nb : List Nat) candidate => do
          let d ← readAt vertex_degrees candidate
          if d ≥ max_found_size then
            let e ← g.edge vertex candidate
            if e then pure (nb ++ [candidate]) else pure nb
          else pure nb) []
        let (new_found_size, tmp) ←
          findMaximumCliqueSubset g vertex_degrees fuel neighbors (clique_size + 1)
            max_found_size maximum_clique_tmp
        if new_found_size > max_found_size then
          subsetLoop g vertex_degrees fuel rest clique_size new_found_size (tmp ++ [vertex])
        else
          subsetLoop g vertex_degrees fuel rest clique_size max_found_size tmp
end

/-- The four parallel arrays of the bin-sort. -/
structure SortState where
  bin_starts : List Nat
  sorted_vertices : List Nat
  vertex_positions : List Nat
  vertex_degrees : List Nat
  deriving DecidableEq, Repr

/-- The function `getVertexDegreesAndGraphMaxDegree`: the new contents of
`vertex_degrees` and the returned maximum degree. -/
def getVertexDegreesAndGraphMaxDegree (g : Graph) (_vertex_degrees : List Nat) :
    Except Failure (List Nat × Nat) :=
  (List.range g.numVertices).foldlM (fun (acc : List Nat × Nat) v => do
      let d ← g.outDegree v
      let degrees ← writeAt acc.1 v d
      let dv ← readAt degrees v
      pure (degrees, max acc.2 dv))
    (resize [] g.numVertices, 0)

/-- The body of the function `binSortVerticesByDegree`, from the contents the four vectors
have on entry to the contents they have when control reaches the closing brace. The source
declares the function `size_t` and the body holds no `return` statement, so this is not yet
the outcome of a call: that is `binSortVerticesByDegreeCall`. -/
def binSortVerticesByDegree (g : Graph) (s : SortState) : Except Failure SortState := do
  let (vertex_degrees, maximum_degree) ← getVertexDegreesAndGraphMaxDegree g s.vertex_degrees
  let bin_sizes ← vertex_degrees.foldlM (fun (sizes : List Nat) degree => do
      let c ← readAt sizes degree
      writeAt sizes degree (c + 1))
    (List.replicate (maximum_degree + 1) 0)
  let (bin_starts, _) ← (List.range bin_sizes.length).foldlM
    (fun (acc : List Nat × Nat) i => do
      let starts ← writeAt acc.1 i acc.2
      let sz ← readAt bin_sizes i
      pure (starts, acc.2 + sz))
    (resize s.bin_starts (maximum_degree + 1), 0)
  let (_, sorted_vertices, vertex_positions) ← (List.range g.numVertices).foldlM
    (fun (acc : List Nat × List Nat × List Nat) v => do
      let d ← readAt vertex_degrees v
      let p ← readAt acc.1 d
      let offsets ← writeAt acc.1 d (p + 1)
      let positions ← writeAt acc.2.2 v p
      let pv ← readAt positions v
      let sorted ← writeAt acc.2.1 pv v
      pure (offsets, sorted, positions))
    (bin_starts, resize s.sorted_vertices g.numVertices,
      resize s.vertex_positions g.numVertices)
  pure { bin_starts := bin_starts, sorted_vertices := sorted_vertices,
         vertex_positions := vertex_positions, vertex_degrees := vertex_degrees }

/-- One turn of the peel loop of `findMaximumClique`, for one neighbour of the vertex
that is being removed. -/
def peelNeighbor (vertex_degree : Nat) (s : SortState) (neighbor : Nat) :
    Except Failure SortState := do
  let neighbor_degree ← readAt s.vertex_degrees neighbor
  if neighbor_degree > vertex_degree then
    let neighbor_position ← readAt s.vertex_positions neighbor
    let swapped_neighbor_position ← readAt s.bin_starts neighbor_degree
    let swapped_neighbor ← readAt s.sorted_vertices swapped_neighbor_position
    let (positions, sorted) ←
      if neighbor ≠ swapped_neighbor then do
        let p1 ← writeAt s.vertex_positions neighbor swapped_neighbor_position
        let p2 ← writeAt p1 swapped_neighbor neighbor_position
        let s1 ← writeAt s.sorted_vertices neighbor_position swapped_neighbor
        let s2 ← writeAt s1 swapped_neighbor_position neighbor
        pure (p2, s2)
      else pure (s.vertex_positions, s.sorted_vertices)
    let b ← readAt s.bin_starts neighbor_degree
    let starts ← writeAt s.bin_starts neighbor_degree (b + 1)
    let d ← readAt s.vertex_degrees neighbor
    let degrees ← writeAt s.vertex_degrees neighbor (d - 1)
    pure { bin_starts := starts, sorted_vertices := sorted,
           vertex_positions := positions, vertex_degrees := degrees }
  else pure s

/-- The local variables of `findMaximumClique` that live across outer iterations. -/
structure SearchState where
  arrays : SortState
  max_found_size : Nat
  maximum_clique_tmp : List Nat
  maximum_clique : List Nat
  deriving DecidableEq, Repr

/-- The neighbour collection of the outer loop: the forward neighbours of `vertex` whose
degree entry reaches `max_found_size`. -/
def collectNeighbors (g : Graph) (s : SortState) (max_found_size vertex : Nat) :
    Except Failure (List Nat) := do
  let es ← g.outEdges vertex
  es.foldlM (fun (nb : List Nat) neighbor => do
      let pn ← readAt s.vertex_positions neighbor
      let pv ← readAt s.vertex_positions vertex
      if pn > pv then
        let dn ← readAt s.vertex_degrees neighbor
        if dn ≥ max_found_size then pure (nb ++ [neighbor]) else pure nb
      else pure nb) []

/-- The search half of one outer iteration: prune, collect, recurse, update. -/
def searchFrom (g : Graph) (st : SearchState) (vertex vertex_degree : Nat) :
    Except Failure SearchState :=
  if vertex_degree ≥ st.max_found_size then do
    let neighbors ← collectNeighbors g st.arrays st.max_found_size vertex
    let (new_found_size, tmp) ←
      findMaximumCliqueSubset g st.arrays.vertex_degrees (2 * neighbors.length + 2)
        neighbors 1 st.max_found_size st.maximum_clique_tmp
    if new_found_size > st.max_found_size then
      pure { st with max_found_size := new_found_size,
                     maximum_clique := tmp ++ [vertex], maximum_clique_tmp := [] }
    else pure { st with maximum_clique_tmp := [] }
  else pure st

/-- The peel half of one outer iteration. -/
def peel (g : Graph) (s : SortState) (i vertex_degree : Nat) : Except Failure SortState := do
  let v ← readAt s.sorted_vertices i
  let es ← g.outEdges v
  es.foldlM (peelNeighbor vertex_degree) s

/-- One iteration of the outer loop of `findMaximumClique`. -/
def outerIteration (g : Graph) (st : SearchState) (i : Nat) : Except Failure SearchState := do
  let vertex ← readAt st.arrays.sorted_vertices i
  let vertex_degree ← readAt st.arrays.vertex_degrees vertex
  let st1 ← searchFrom g st vertex vertex_degree
  let arrays ← peel g st1.arrays i vertex_degree
  pure { st1 with arrays := arrays }

/-- The state of `findMaximumClique` after the bin-sort, before the outer loop. -/
def initialSearchState (arrays : SortState) (min_clique_size : Nat) : SearchState :=
  { arrays := arrays, max_found_size := min_clique_size - 1,
    maximum_clique_tmp := [], maximum_clique := [] }

/-- The function `GraphUtilities::findMaximumClique`, in the run in which the call of
`binSortVerticesByDegree` hands control back with the vectors its body has filled. -/
def findMaximumClique (g : Graph) (min_clique_size : Nat) : Except Failure (List Nat) :=
  if min_clique_size ≥ 2 then do
    let arrays ← binSortVerticesByDegree g ⟨[], [], [], []⟩
    let st ← (List.range arrays.sorted_vertices.length).foldlM (outerIteration g)
      (initialSearchState arrays min_clique_size)
    pure st.maximum_clique
  else .error .checkFailed

/-- The call of `binSortVerticesByDegree` as the C++ language defines it. The function is
declared to return `size_t`; its body runs the three passes and then reaches the closing
brace without having met a `return` statement. Flowing off the end of a value-returning
function is undefined behaviour, so the call hands its caller neither the promised `size_t`
nor a defined state of the vectors. -/
def binSortVerticesByDegreeCall (g : Graph) (s : SortState) :
    Except Failure (SortState × Nat) := do
  let _arrays ← binSortVerticesByDegree g s
  .error .flowedOffEnd

/-- The function `GraphUtilities::findMaximumClique` with the call of
`binSortVerticesByDegree` as the C++ language defines it. -/
def findMaximumCliqueCall (g : Graph) (min_clique_size : Nat) : Except Failure (List Nat) :=
  if min_clique_size ≥ 2 then do
    let (arrays, _) ← binSortVerticesByDegreeCall g ⟨[], [], [], []⟩
    let st ← (List.range arrays.sorted_vertices.length).foldlM (outerIteration g)
      (initialSearchState arrays min_clique_size)
    pure st.maximum_clique
  else .error .checkFailed

/-! ## Notions used to state the properties -/

/-- The list `K` is a clique of `g` all of whose vertices are taken from `S`. -/
def cliqueIn (g : Graph) (S K : List Nat) : Prop :=
  K.Nodup ∧ (∀ x ∈ K, x ∈ S) ∧ ∀ x ∈ K, ∀ y ∈ K, x ≠ y → y ∈ g.neighbors x

instance (g : Graph) (S K : List Nat) : Decidable (cliqueIn g S K) :=
  inferInstanceAs (Decidable
    (K.Nodup ∧ (∀ x ∈ K, x ∈ S) ∧ ∀ x ∈ K, ∀ y ∈ K, x ≠ y → y ∈ g.neighbors x))

/-- The degree entries leave room for every clique of `S` on top of `c` committed
vertices. -/
def degreesAllow (g : Graph) (deg : List Nat) (S : List Nat) (c : Nat) : Prop :=
  ∀ K, cliqueIn g S K → ∀ u ∈ K, c + K.length ≤ valueAt deg u + 1

/-- What a call of the subset search promises about the size and the accumulator. -/
def subsetPost (g : Graph) (S : List Nat) (c m : Nat) (tmp : List Nat) (r : Nat)
    (tmp' : List Nat) : Prop :=
  m ≤ r ∧ (r = m → tmp' = tmp) ∧ (m < r → cliqueIn g S tmp' ∧ tmp'.length + c = r)

/-- Consistency of the four bin-sort arrays of a graph with `n` vertices and maximum
degree `dmax`. -/
structure ArraysOk (n dmax : Nat) (s : SortState) : Prop where
  len_sv : s.sorted_vertices.length = n
  len_pos : s.vertex_positions.length = n
  len_deg : s.vertex_degrees.length = n
  len_bs : s.bin_starts.length = dmax + 1
  pos_lt : ∀ v < n, valueAt s.vertex_positions v < n
  sv_pos : ∀ v < n, valueAt s.sorted_vertices (valueAt s.vertex_positions v) = v
  sv_lt : ∀ p < n, valueAt s.sorted_vertices p < n
  pos_sv : ∀ p < n, valueAt s.vertex_positions (valueAt s.sorted_vertices p) = p
  deg_le : ∀ v < n, valueAt s.vertex_degrees v ≤ dmax
  bin : ∀ d ≤ dmax, ∀ p < n,
    (p < valueAt s.bin_starts d ↔ valueAt s.vertex_degrees (valueAt s.sorted_vertices p) < d)
  bin_le : ∀ d ≤ dmax, valueAt s.bin_starts d ≤ n

/-- The arrays after moving `u` one bin down. -/
def moveDown (s : SortState) (u : Nat) : SortState :=
  let du := valueAt s.vertex_degrees u
  let pu := valueAt s.vertex_positions u
  let pw := valueAt s.bin_starts du
  let w := valueAt s.sorted_vertices pw
  { bin_starts := s.bin_starts.set du (pw + 1),
    sorted_vertices := (s.sorted_vertices.set pu w).set pw u,
    vertex_positions := (s.vertex_positions.set u pw).set w pu,
    vertex_degrees := s.vertex_degrees.set u (du - 1) }

/-- What a peel at position `i` leaves alone. -/
structure PeelFrame (n i : Nat) (s0 s : SortState) : Prop where
  sv_eq : ∀ p ≤ i, valueAt s.sorted_vertices p = valueAt s0.sorted_vertices p
  behind : ∀ x < n, valueAt s0.vertex_positions x ≤ i →
    valueAt s.vertex_positions x = valueAt s0.vertex_positions x ∧
    valueAt s.vertex_degrees x = valueAt s0.vertex_degrees x
  ahead : ∀ x < n, i < valueAt s0.vertex_positions x → i < valueAt s.vertex_positions x

/-- Every degree entry is at least the number of neighbours at position `i` or later. -/
def residualOk (g : Graph) (i : Nat) (s : SortState) : Prop :=
  ∀ u < g.numVertices,
    (g.neighbors u).countP (fun w => decide (i ≤ valueAt s.vertex_positions w)) ≤
      valueAt s.vertex_degrees u

/-- The invariant of the outer loop of `findMaximumClique` at the start of iteration `i`. -/
structure OuterInv (g : Graph) (k dmax i : Nat) (st : SearchState) : Prop where
  arrays : ArraysOk g.numVertices dmax st.arrays
  residual : residualOk g i st.arrays
  bound : k - 1 ≤ st.max_found_size
  best : (st.maximum_clique = [] ∧ st.max_found_size = k - 1) ∨
    (g.isClique st.maximum_clique ∧ st.maximum_clique.length = st.max_found_size ∧
      k ≤ st.max_found_size)
  complete : ∀ K, g.isClique K →
    (∃ w ∈ K, valueAt st.arrays.vertex_positions w < i) → K.length ≤ st.max_found_size

/-- The number of entries of `degs` below `d`. -/
def countBelow (degs : List Nat) (d : Nat) : Nat := degs.countP (fun x => decide (x < d))

/-- The position the bin-sort gives to vertex `v`: the start of the bin of its degree plus
the number of earlier vertices of the same degree. -/
def binSortPosition (degs : List Nat) (v : Nat) : Nat :=
  countBelow degs (valueAt degs v) + (degs.take v).count (valueAt degs v)

/-- A `pcl::PointXYZ`; `R` stands for `float`. -/
structure PclPoint (R : Type) where
  x : R
  y : R
  z : R
  deriving DecidableEq, Repr

/-- The class `PairwiseMatch`; `F` stands for the type of the feature matrices. -/
structure PairwiseMatch (R F : Type) where
  ids_ : Int × Int
  confidence_ : R
  features1_ : F
  features2_ : F
  centroids_ : PclPoint R × PclPoint R
  deriving DecidableEq, Repr

/-- An `Eigen::Matrix<double, 3, Eigen::Dynamic>`, given by its three rows; `D` stands for
`double`. -/
structure Matrix3X (D : Type) where
  row0 : List D
  row1 : List D
  row2 : List D
  deriving DecidableEq, Repr

/-- The constructor call `Matrix(3, cols)`: three rows of `cols` entries that hold
`uninit`, standing for memory that was never written. -/
def Matrix3X.create {D : Type} (uninit : D) (cols : Nat) : Matrix3X D :=
  ⟨List.replicate cols uninit, List.replicate cols uninit, List.replicate cols uninit⟩

/-- The number of columns. -/
def Matrix3X.cols {D : Type} (m : Matrix3X D) : Nat := m.row0.length

/-- Modelled from the spec: the parameter record of `parameter.h`, which is not among the
sources; only the fields the spec names are kept. -/
structure GeometricConsistencyParams (R : Type) where
  resolution : R
  min_cluster_size : Nat
  max_model_radius : R

/-- What the recognizer calls without defining it: the conversion from `float` to
`double`, the content of unwritten matrix entries, `pcl::umeyama`, the cast of its result
to `Eigen::Matrix4f`, and the virtual `buildConsistencyGraph` acting on the cache `C` of
the subclass. -/
structure Collaborators (R D F U T C : Type) where
  toDouble : R → D
  uninit : D
  umeyama : Matrix3X D → Matrix3X D → Bool → Except Failure U
  castFloat : U → T
  buildConsistencyGraph : C → List (PairwiseMatch R F) → Except Failure (Graph × C)

/-- The data members of `GraphBasedGeometricConsistencyRecognizer`, with the cache of the
subclass that builds the graph. -/
structure Recognizer (R F T C : Type) where
  params_ : GeometricConsistencyParams R
  cache : C
  candidate_transfomations_ : List T
  candidate_matches_ : List (List (PairwiseMatch R F))

/-- The conversion `static_cast<unsigned>` of a `size_t`, for an `unsigned` of 32 bits. -/
def toUnsigned (n : Nat) : Nat := n % 2 ^ 32

/-- The matrix whose columns are the given points, converted entry by entry. -/
def columnsOf {R D : Type} (toDouble : R → D) (points : List (PclPoint R)) : Matrix3X D :=
  ⟨points.map (fun p => toDouble p.x), points.map (fun p => toDouble p.y),
    points.map (fun p => toDouble p.z)⟩

/-- The body of the filling loop of `estimateRigidTransformation` for column `i`. -/
def fillColumn {R D F : Type} (toDouble : R → D) (true_matches : List (PairwiseMatch R F))
    (acc : Matrix3X D × Matrix3X D) (i : Nat) : Except Failure (Matrix3X D × Matrix3X D) := do
  let m ← readAt true_matches i
  let s0 ← writeAt acc.1.row0 i (toDouble m.centroids_.1.x)
  let m ← readAt true_matches i
  let s1 ← writeAt acc.1.row1 i (toDouble m.centroids_.1.y)
  let m ← readAt true_matches i
  let s2 ← writeAt acc.1.row2 i (toDouble m.centroids_.1.z)
  let m ← readAt true_matches i
  let t0 ← writeAt acc.2.row0 i (toDouble m.centroids_.2.x)
  let m ← readAt true_matches i
  let t1 ← writeAt acc.2.row1 i (toDouble m.centroids_.2.y)
  let m ← readAt true_matches i
  let t2 ← writeAt acc.2.row2 i (toDouble m.centroids_.2.z)
  pure (⟨s0, s1, s2⟩, ⟨t0, t1, t2⟩)

/-- The two matrices `estimateRigidTransformation` hands to the solver. -/
def solverInput {R D F : Type} (toDouble : R → D) (uninit : D)
    (true_matches : List (PairwiseMatch R F)) : Except Failure (Matrix3X D × Matrix3X D) :=
  let n_matches_to_consider := min (toUnsigned true_matches.length) 8
  (List.range n_matches_to_consider).foldlM (fillColumn toDouble true_matches)
    (Matrix3X.create uninit n_matches_to_consider, Matrix3X.create uninit n_matches_to_consider)

/-- The member function `estimateRigidTransformation`. -/
def estimateRigidTransformation {R D F U T C : Type} (env : Collaborators R D F U T C)
    (true_matches : List (PairwiseMatch R F)) : Except Failure T := do
  let (source, target) ← solverInput env.toDouble env.uninit true_matches
  let transformation ← env.umeyama source target false
  pure (env.castFloat transformation)

/-- The statement `candidate_matches_.back().push_back(m)`. -/
def pushToBack {M : Type} (clusters : List (List M)) (m : M) : Except Failure (List (List M)) :=
  match clusters.getLast? with
  | none => .error .outOfRange
  | some back => .ok (clusters.dropLast ++ [back ++ [m]])

/-- The loop of `recognize` that stores the clique; on a failure the clusters are left as
they were when it happened. -/
def storeClique {M : Type} (predicted_matches : List M) :
    List Nat → List (List M) → Except Failure Unit × List (List M)
  | [], clusters => (.ok (), clusters)
  | match_index :: rest, clusters =>
    match readAt predicted_matches match_index with
    | .error e => (.error e, clusters)
    | .ok m =>
      match pushToBack clusters m with
      | .error e => (.error e, clusters)
      | .ok clusters' => storeClique predicted_matches rest clusters'

/-- The member function `recognize`: the outcome of the call and the recognizer it leaves. -/
def recognize {R D F U T C : Type} (env : Collaborators R D F U T C)
    (self : Recognizer R F T C) (predicted_matches : List (PairwiseMatch R F)) :
    Except Failure Unit × Recognizer R F T C :=
  let self := { self with candidate_transfomations_ := [], candidate_matches_ := [] }
  if predicted_matches.isEmpty then (.ok (), self) else
  match env.buildConsistencyGraph self.cache predicted_matches with
  | .error e => (.error e, self)
  | .ok (consistency_graph, cache) =>
    let self := { self with cache := cache }
    match findMaximumClique consistency_graph self.params_.min_cluster_size with
    | .error e => (.error e, self)
    | .ok maximum_clique =>
      if maximum_clique.isEmpty then (.ok (), self) else
      let stored := storeClique predicted_matches maximum_clique (self.candidate_matches_ ++ [[]])
      let self := { self with candidate_matches_ := stored.2 }
      match stored.1 with
      | .error e => (.error e, self)
      | .ok () =>
        match self.candidate_matches_.getLast? with
        | none => (.error .outOfRange, self)
        | some back =>
          match estimateRigidTransformation env back with
          | .error e => (.error e, self)
          | .ok transformation =>
            (.ok (), { self with
              candidate_transfomations_ := self.candidate_transfomations_ ++ [transformation] })

/-- The member function `recognize` with the call of `findMaximumClique` as the C++ language
defines it (`findMaximumCliqueCall`): the same statements in the same order. -/
def recognizeCall {R D F U T C : Type} (env : Collaborators R D F U T C)
    (self : Recognizer R F T C) (predicted_matches : List (PairwiseMatch R F)) :
    Except Failure Unit × Recognizer R F T C :=
  let self := { self with candidate_transfomations_ := [], candidate_matches_ := [] }
  if predicted_matches.isEmpty then (.ok (), self) else
  match env.buildConsistencyGraph self.cache predicted_matches with
  | .error e => (.error e, self)
  | .ok (consistency_graph, cache) =>
    let self := { self with cache := cache }
    match findMaximumCliqueCall consistency_graph self.params_.min_cluster_size with
    | .error e => (.error e, self)
    | .ok maximum_clique =>
      if maximum_clique.isEmpty then (.ok (), self) else
      let stored := storeClique predicted_matches maximum_clique (self.candidate_matches_ ++ [[]])
      let self := { self with candidate_matches_ := stored.2 }
      match stored.1 with
      | .error e => (.error e, self)
      | .ok () =>
        match self.candidate_matches_.getLast? with
        | none => (.error .outOfRange, self)
        | some back =>
          match estimateRigidTransformation env back with
          | .error e => (.error e, self)
          | .ok transformation =>
            (.ok (), { self with
              candidate_transfomations_ := self.candidate_transfomations_ ++ [transformation] })

/-! ## Concrete inputs -/

/-- Two disjoint triangles (Scenario D). -/
def twoTriangles : Graph := ⟨[[1, 2], [0, 2], [0, 1], [4, 5], [3, 5], [3, 4]]⟩

/-- Three mutually adjacent vertices (Scenario C). -/
def triangle : Graph := ⟨[[1, 2], [0, 2], [0, 1]]⟩

/-- Four mutually adjacent vertices (the consistency graph of Scenario A). -/
def completeFour : Graph := ⟨[[1, 2, 3], [0, 2, 3], [0, 1, 3], [0, 1, 2]]⟩

/-- A graph whose only out-edge leads to a vertex that does not exist. -/
def danglingEdge : Graph := ⟨[[5]]⟩

/-- A match whose two centroids are the same point. -/
def matchAt (id : Int) (x y z : Int) : PairwiseMatch Int Unit :=
  ⟨(id, id + 10), 1, (), (), (⟨x, y, z⟩, ⟨x, y, z⟩)⟩

/-- The four matches of Scenario A. -/
def scenarioA : List (PairwiseMatch Int Unit) :=
  [matchAt 1 0 0 0, matchAt 2 1 0 0, matchAt 3 0 1 0, matchAt 4 0 0 1]

/-- Nine matches, numbered by the first coordinate of their centroids. -/
def nineMatches : List (PairwiseMatch Int Unit) :=
  [matchAt 1 0 0 0, matchAt 2 1 0 0, matchAt 3 2 0 0, matchAt 4 3 0 0, matchAt 5 4 0 0,
    matchAt 6 5 0 0, matchAt 7 6 0 0, matchAt 8 7 0 0, matchAt 9 8 0 0]

/-- Collaborators for the concrete runs: the solver returns the two matrices it is handed,
and the builder returns the given graph and counts its calls in the cache. -/
def recordingEnv (g : Graph) :
    Collaborators Int Int Unit (Matrix3X Int × Matrix3X Int) (Matrix3X Int × Matrix3X Int) Nat :=
  { toDouble := id, uninit := 0, umeyama := fun s t _ => .ok (s, t), castFloat := id,
    buildConsistencyGraph := fun calls _ => .ok (g, calls + 1) }

/-- Collaborators whose builder and solver fail whenever they are called. -/
def failingEnv :
    Collaborators Int Int Unit (Matrix3X Int × Matrix3X Int) (Matrix3X Int × Matrix3X Int) Nat :=
  { toDouble := id, uninit := 0, umeyama := fun _ _ _ => .error .solverRaised, castFloat := id,
    buildConsistencyGraph := fun _ _ => .error .checkFailed }

/-- A recognizer with the given minimum cluster size and no candidates. -/
def freshRecognizer (min_cluster_size : Nat) :
    Recognizer Int Unit (Matrix3X Int × Matrix3X Int) Nat :=
  { params_ := ⟨0, min_cluster_size, 0⟩, cache := 0, candidate_transfomations_ := [],
    candidate_matches_ := [] }

/-! ## Further notions: degrees, loop prefixes, cores -/

/-- The maximum degree of the graph (0 for a graph without vertices). -/
def Graph.maxDegree (g : Graph) : Nat := (g.adj.map List.length).foldl max 0

/-- The state of `findMaximumClique` after the bin-sort and the first `i` iterations of its
outer loop. -/
def outerLoop (g : Graph) (min_clique_size i : Nat) : Except Failure SearchState := do
  let arrays ← binSortVerticesByDegree g ⟨[], [], [], []⟩
  (List.range i).foldlM (outerIteration g) (initialSearchState arrays min_clique_size)

/-- The number `w` is the size of a largest clique of `g` contained in `S`. -/
def largestCliqueSize (g : Graph) (S : List Nat) (w : Nat) : Prop :=
  (∃ K, cliqueIn g S K ∧ K.length = w) ∧ ∀ K, cliqueIn g S K → K.length ≤ w

/-- A graph on six vertices with degrees 1, 4, 3, 4, 3, 1. -/
def kite : Graph := ⟨[[1], [0, 2, 3, 4], [1, 3, 4], [1, 2, 4, 5], [1, 2, 3], [3]]⟩

/-- Two vertices joined by an edge. -/
def singleEdge : Graph := ⟨[[1], [0]]⟩

/-! ## Further notions: array consistency in words, bins, cores, nesting -/

/-- Consistency of the four arrays as one states it without reference to positions of
bins: `sorted_vertices` is a permutation of `[0, n)`, `vertex_positions` is its inverse,
the degree entries are non-decreasing along `sorted_vertices`, and `bin_starts[d]` counts
the vertices whose degree entry is below `d`. -/
def arraysConsistent (n dmax : Nat) (s : SortState) : Prop :=
  s.sorted_vertices.Perm (List.range n) ∧
  s.vertex_positions.length = n ∧
  (∀ v < n, valueAt s.sorted_vertices (valueAt s.vertex_positions v) = v) ∧
  (∀ p < n, valueAt s.vertex_positions (valueAt s.sorted_vertices p) = p) ∧
  s.vertex_degrees.length = n ∧
  (∀ p q, p ≤ q → q < n →
    valueAt s.vertex_degrees (valueAt s.sorted_vertices p) ≤
      valueAt s.vertex_degrees (valueAt s.sorted_vertices q)) ∧
  s.bin_starts.length = dmax + 1 ∧
  ∀ d ≤ dmax, valueAt s.bin_starts d = countBelow s.vertex_degrees d

/-- The slice `sorted_vertices[bin_starts[d] : bin_starts[d + 1])`, which ends at `n` for
`d = dmax`. -/
def binSlice (s : SortState) (n dmax d : Nat) : List Nat :=
  (s.sorted_vertices.take (if d < dmax then valueAt s.bin_starts (d + 1) else n)).drop
    (valueAt s.bin_starts d)

/-- The number of neighbours `x` has inside `H`. -/
def inducedDegree (g : Graph) (H : List Nat) (x : Nat) : Nat :=
  (g.neighbors x).countP (fun w => decide (w ∈ H))

/-- The subgraph induced by the vertices `H` has minimum degree at least `k`. -/
def hasMinDegree (g : Graph) (H : List Nat) (k : Nat) : Prop :=
  ∀ x ∈ H, x < g.numVertices ∧ k ≤ inducedDegree g H x

/-- The vertex `v` lies in a subgraph of minimum degree at least `k`. -/
def coreAtLeast (g : Graph) (v k : Nat) : Prop := ∃ H, v ∈ H ∧ hasMinDegree g H k

/-- The core number of `v` is `d`: the largest `k` such that `v` lies in a subgraph of
minimum degree at least `k`. -/
def isCoreNumber (g : Graph) (v d : Nat) : Prop :=
  coreAtLeast g v d ∧ ∀ k, coreAtLeast g v k → k ≤ d

/-- Every non-empty induced subgraph has a vertex of degree at most `D`. -/
def isDegenerate (g : Graph) (D : Nat) : Prop :=
  ∀ H : List Nat, H ≠ [] → (∀ x ∈ H, x < g.numVertices) → ∃ x ∈ H, inducedDegree g H x ≤ D

/-- The degeneracy of the graph is `D`: the smallest number such that every non-empty
subgraph has a vertex of degree at most that number. -/
def isDegeneracy (g : Graph) (D : Nat) : Prop :=
  isDegenerate g D ∧ ∀ D', isDegenerate g D' → D ≤ D'

/-- The degree entry read for the vertex the previous iteration visited (0 before the
first iteration). -/
def level (i : Nat) (s : SortState) : Nat :=
  if i = 0 then 0 else valueAt s.vertex_degrees (valueAt s.sorted_vertices (i - 1))

/-- The degree entry the outer loop reads at iteration `i` for the vertex it visits (0 if
the loop does not get that far). -/
def visitDegree (g : Graph) (min_clique_size i : Nat) : Nat :=
  match outerLoop g min_clique_size i with
  | .ok st => valueAt st.arrays.vertex_degrees (valueAt st.arrays.sorted_vertices i)
  | .error _ => 0

/-- What the peel has achieved at the start of iteration `i`: a degree entry of a vertex
not yet visited is at most the larger of its number of unvisited neighbours and the level;
the unvisited vertices lie in a subgraph of minimum degree at least the level; and a
subgraph that contains a visited vertex has minimum degree at most the level. -/
structure CoreInv (g : Graph) (i : Nat) (s : SortState) : Prop where
  up : ∀ u < g.numVertices, i ≤ valueAt s.vertex_positions u →
    valueAt s.vertex_degrees u ≤
      max ((g.neighbors u).countP (fun w => decide (i ≤ valueAt s.vertex_positions w)))
        (level i s)
  low : ∀ u < g.numVertices, i ≤ valueAt s.vertex_positions u → coreAtLeast g u (level i s)
  cap : ∀ H k, hasMinDegree g H k → (∃ x ∈ H, valueAt s.vertex_positions x < i) →
    k ≤ level i s

/-- What the traced subset search records besides its result: `depth` is the number of
calls on the longest chain of nested calls, and `calls` lists, for every nested call made,
the length of the list of the caller when it starts the turn that makes the call and the
length of the list it hands over. -/
structure CallTrace where
  depth : Nat
  calls : List (Nat × Nat)
  deriving DecidableEq, Repr

mutual
/-- The helper `findMaximumCliqueSubset` with its nesting recorded: the same code, the
result paired with the trace of the call (depth counts the call itself). -/
def findMaximumCliqueSubsetTraced (g : Graph) (vertex_degrees : List Nat) :
    Nat → List Nat → Nat → Nat → List Nat → Except Failure ((Nat × List Nat) × CallTrace)
  | 0, _, _, _, _ => .error .outOfFuel
  | fuel + 1, subset, clique_size, max_found_size, maximum_clique_tmp =>
    if subset.isEmpty then
      if clique_size > max_found_size then .ok ((clique_size, []), ⟨1, []⟩)
      else .ok ((max_found_size, maximum_clique_tmp), ⟨1, []⟩)
    else do
      let (r, t) ← subsetLoopTraced g vertex_degrees fuel subset clique_size max_found_size
        maximum_clique_tmp
      pure (r, ⟨t.depth + 1, t.calls⟩)
/-- The loop of `findMaximumCliqueSubset` with the nesting recorded (depth counts the
calls nested inside the loop only). -/
def subsetLoopTraced (g : Graph) (vertex_degrees : List Nat) :
    Nat → List Nat → Nat → Nat → List Nat → Except Failure ((Nat × List Nat) × CallTrace)
  | 0, _, _, _, _ => .error .outOfFuel
  | fuel + 1, subset, clique_size, max_found_size, maximum_clique_tmp =>
    match subset.getLast? with
    | none => .ok ((max_found_size, maximum_clique_tmp), ⟨0, []⟩)
    | some vertex =>
      if clique_size + subset.length ≤ max_found_size then
        .ok ((max_found_size, maximum_clique_tmp), ⟨0, []⟩)
      else do
        let rest := subset.dropLast
        let neighbors ← rest.foldlM (fun (nb : List Nat) candidate => do
          let d ← readAt vertex_degrees candidate
          if d ≥ max_found_size then
            let e ← g.edge vertex candidate
            if e then pure (nb ++ [candidate]) else pure nb
          else pure nb) []
        let ((new_found_size, tmp), t1) ←
          findMaximumCliqueSubsetTraced g vertex_degrees fuel neighbors (clique_size + 1)
            max_found_size maximum_clique_tmp
        let (r, t2) ←
          if new_found_size > max_found_size then
            subsetLoopTraced g vertex_degrees fuel rest clique_size new_found_size
              (tmp ++ [vertex])
          else
            subsetLoopTraced g vertex_degrees fuel rest clique_size max_found_size tmp
        pure (r, ⟨max t1.depth t2.depth,
          (subset.length, neighbors.length) :: (t1.calls ++ t2.calls)⟩)
end

/-! ## The hash of an id pair, and a solver that raises -/

/-- The conversion `static_cast<uint64_t>` of an `int64_t`. -/
def toUInt64 (a : Int) : Nat := (a % 2 ^ 64).toNat

/-- The value `IdPairHash::operator()` passes to `std::hash<uint64_t>`. The source writes
`static_cast<uint64_t>(pair.first) << 1 + static_cast<uint64_t>(pair.second)`, in which
`+` binds tighter than `<<`: the first id is shifted left by `1 + uint64(second)` bits,
the sum and the shift taken in 64 bits. A shift by 64 bits or more has no defined value
in C++ and gives `none`. -/
def idPairHashArgument (pair : Int × Int) : Option Nat :=
  let shift := (1 + toUInt64 pair.2) % 2 ^ 64
  if shift < 64 then some (toUInt64 pair.1 * 2 ^ shift % 2 ^ 64) else none

/-- The value `(uint64(first) << 1) + uint64(second)` that the comment of the source
describes, in 64 bits. -/
def shiftThenAdd (pair : Int × Int) : Nat :=
  (toUInt64 pair.1 * 2 % 2 ^ 64 + toUInt64 pair.2) % 2 ^ 64

/-- Collaborators for the concrete runs: the builder returns the given graph and the
solver raises whenever it is called. -/
def raisingEnv (g : Graph) :
    Collaborators Int Int Unit (Matrix3X Int × Matrix3X Int) (Matrix3X Int × Matrix3X Int) Nat :=
  { toDouble := id, uninit := 0, umeyama := fun _ _ _ => .error .solverRaised, castFloat := id,
    buildConsistencyGraph := fun calls _ => .ok (g, calls + 1) }

/-- A triangle on the vertices 1, 3, 4 with a path 0, 2, 3 attached: the first peel has to
swap two vertices. -/
def tailedTriangle : Graph := ⟨[[2], [3, 4], [0, 3], [2, 1, 4], [1, 3]]⟩

/-! ## Proofs -/

/-! ## Checked vector access -/

theorem readAt_ok {xs : List Nat} {i : Nat} (h : i < xs.length) :
    readAt xs i = .ok (valueAt xs i) := by
  simp [readAt, valueAt, h]

theorem readAt_eq_ok_iff {α : Type} {xs : List α} {i : Nat} {x : α} :
    readAt xs i = .ok x ↔ xs[i]? = some x := by
  unfold readAt
  cases h : xs[i]? <;> simp

theorem writeAt_ok {α : Type} {xs : List α} {i : Nat} (x : α) (h : i < xs.length) :
    writeAt xs i x = .ok (xs.set i x) := by
  simp [writeAt, h]

theorem valueAt_set {xs : List Nat} {i : Nat} (j x : Nat) (h : i < xs.length) :
    valueAt (xs.set i x) j = if j = i then x else valueAt xs j := by
  simp only [valueAt, List.getD_eq_getElem?_getD, List.getElem?_set, h, if_true]
  by_cases hij : i = j
  · subst hij; simp
  · have : ¬ j = i := fun e => hij e.symm
    simp [hij, this]

theorem valueAt_set_self {xs : List Nat} {i : Nat} (x : Nat) (h : i < xs.length) :
    valueAt (xs.set i x) i = x := by
  rw [valueAt_set i x h]; simp

theorem valueAt_set_ne {xs : List Nat} {i j : Nat} (x : Nat) (h : j ≠ i) :
    valueAt (xs.set i x) j = valueAt xs j := by
  simp only [valueAt, List.getD_eq_getElem?_getD, List.getElem?_set]
  have : ¬ i = j := fun e => h e.symm
  simp [this]

theorem outEdges_ok {g : Graph} {v : Nat} (h : v < g.numVertices) :
    g.outEdges v = .ok (g.neighbors v) := by
  unfold Graph.outEdges Graph.neighbors readAt
  have h' : v < g.adj.length := h
  simp [List.getD_eq_getElem?_getD, h']

theorem length_resize (xs : List Nat) (n : Nat) : (resize xs n).length = n := by
  simp [resize]; omega

/-! ## Loops -/

theorem foldlM_inv_aux {σ α : Type} (f : σ → α → Except Failure σ) (P : List α → σ → Prop) :
    ∀ (rest pre : List α) (s : σ), P pre s →
      (∀ p x t s', pre ++ rest = p ++ x :: t → P p s' →
        ∃ s'', f s' x = .ok s'' ∧ P (p ++ [x]) s'') →
      ∃ s', rest.foldlM f s = .ok s' ∧ P (pre ++ rest) s' := by
  intro rest
  induction rest with
  | nil =>
    intro pre s h _
    exact ⟨s, by simp [pure, Except.pure], by simpa using h⟩
  | cons x t ih =>
    intro pre s h hstep
    obtain ⟨s'', hf, hP⟩ := hstep pre x t s rfl h
    have := ih (pre ++ [x]) s'' hP (by
      intro p y t' s' heq hp
      exact hstep p y t' s' (by simpa using heq) hp)
    obtain ⟨s', hs', hP'⟩ := this
    refine ⟨s', ?_, by simpa using hP'⟩
    simp [List.foldlM_cons, hf, bind, Except.bind, hs']

/-- Invariant rule for a loop over a vector. -/
theorem foldlM_inv {σ α : Type} (f : σ → α → Except Failure σ) (P : List α → σ → Prop)
    (l : List α) (s : σ) (h0 : P [] s)
    (hstep : ∀ p x t s', l = p ++ x :: t → P p s' →
      ∃ s'', f s' x = .ok s'' ∧ P (p ++ [x]) s'') :
    ∃ s', l.foldlM f s = .ok s' ∧ P l s' := by
  have := foldlM_inv_aux f P l [] s h0 (by simpa using hstep)
  simpa using this

theorem range_split {n : Nat} {p t : List Nat} {x : Nat} (h : List.range n = p ++ x :: t) :
    p = List.range x ∧ x < n := by
  have hlen : n = p.length + (t.length + 1) := by
    have := congrArg List.length h
    simpa using this
  have hx : x = p.length := by
    have h1 : (List.range n)[p.length]? = some x := by
      rw [h, List.getElem?_append_right (Nat.le_refl _)]; simp
    rw [List.getElem?_range (by omega)] at h1
    exact (Option.some.inj h1).symm
  have hp : p = List.range p.length := by
    have h2 : (List.range n).take p.length = p := by
      rw [h]; simp
    rw [← h2, List.take_range]
    simp
  subst hx
  exact ⟨hp, by omega⟩

/-- Invariant rule for a counting loop. -/
theorem foldlM_range_inv {σ : Type} (f : σ → Nat → Except Failure σ) (P : Nat → σ → Prop)
    (n : Nat) (s : σ) (h0 : P 0 s)
    (hstep : ∀ i s', i < n → P i s' → ∃ s'', f s' i = .ok s'' ∧ P (i + 1) s'') :
    ∃ s', (List.range n).foldlM f s = .ok s' ∧ P n s' := by
  have := foldlM_inv f (fun pre s => P pre.length s) (List.range n) s (by simpa using h0) (by
    intro p x t s' heq hp
    obtain ⟨hp', hx⟩ := range_split heq
    have hl : p.length = x := by rw [hp']; simp
    rw [hl] at hp
    obtain ⟨s'', h1, h2⟩ := hstep x s' hx hp
    exact ⟨s'', h1, by simpa [hl] using h2⟩)
  simpa using this

theorem findMaximumCliqueSubset_succ (g : Graph) (deg : List Nat) (fuel : Nat) (S : List Nat)
    (c m : Nat) (tmp : List Nat) :
    findMaximumCliqueSubset g deg (fuel + 1) S c m tmp =
      if S.isEmpty then
        if c > m then .ok (c, []) else .ok (m, tmp)
      else subsetLoop g deg fuel S c m tmp := by
  rw [findMaximumCliqueSubset]

theorem subsetLoop_nil (g : Graph) (deg : List Nat) (fuel : Nat)
    (c m : Nat) (tmp : List Nat) :
    subsetLoop g deg (fuel + 1) [] c m tmp = .ok (m, tmp) := by
  rw [subsetLoop]; simp

theorem subsetLoop_snoc (g : Graph) (deg : List Nat) (fuel : Nat) (rest : List Nat) (v : Nat)
    (c m : Nat) (tmp : List Nat) :
    subsetLoop g deg (fuel + 1) (rest ++ [v]) c m tmp =
      (if c + (rest.length + 1) ≤ m then .ok (m, tmp) else do
        let neighbors ← rest.foldlM (fun (nb : List Nat) candidate => do
          let d ← readAt deg candidate
          if d ≥ m then
            let e ← g.edge v candidate
            if e then pure (nb ++ [candidate]) else pure nb
          else pure nb) []
        let (new_found_size, t) ←
          findMaximumCliqueSubset g deg fuel neighbors (c + 1) m tmp
        if new_found_size > m then
          subsetLoop g deg fuel rest c new_found_size (t ++ [v])
        else
          subsetLoop g deg fuel rest c m t) := by
  rw [subsetLoop]; simp

/-! ## Graph facts -/

theorem neighbors_symm {g : Graph} (hg : g.simpleUndirected) {x y : Nat}
    (hx : x < g.numVertices) (h : y ∈ g.neighbors x) :
    x ∈ g.neighbors y ∧ y < g.numVertices ∧ y ≠ x := by
  obtain ⟨_, h2⟩ := hg x hx
  obtain ⟨a, b, c⟩ := h2 y h
  exact ⟨c, a, b⟩

theorem neighbors_nodup {g : Graph} (hg : g.simpleUndirected) {x : Nat}
    (hx : x < g.numVertices) : (g.neighbors x).Nodup := (hg x hx).1

theorem edge_ok {g : Graph} {v : Nat} (hv : v < g.numVertices) (u : Nat) :
    g.edge v u = .ok (decide (u ∈ g.neighbors v)) := by
  simp [Graph.edge, outEdges_ok hv, bind, Except.bind, pure, Except.pure]

theorem cliqueIn_mono {g : Graph} {S S' K : List Nat} (h : ∀ x ∈ S, x ∈ S')
    (hK : cliqueIn g S K) : cliqueIn g S' K :=
  ⟨hK.1, fun x hx => h x (hK.2.1 x hx), hK.2.2⟩

theorem cliqueIn_nil (g : Graph) (S : List Nat) : cliqueIn g S [] :=
  ⟨List.nodup_nil, by simp, by simp⟩

theorem cliqueIn_length_le {g : Graph} {S K : List Nat} (hK : cliqueIn g S K) :
    K.length ≤ S.length :=
  (List.Nodup.subperm hK.1 (fun x hx => hK.2.1 x hx)).length_le

/-- Adding a vertex adjacent to a whole candidate list to a clique of that list. -/
theorem cliqueIn_snoc {g : Graph} (hg : g.simpleUndirected) {N S K : List Nat} {v : Nat}
    (hv : v < g.numVertices) (hN : ∀ x ∈ N, x ∈ g.neighbors v) (hvN : v ∉ N)
    (hNS : ∀ x ∈ N, x ∈ S) (hvS : v ∈ S) (hK : cliqueIn g N K) :
    cliqueIn g S (K ++ [v]) := by
  obtain ⟨hnd, hsub, hadj⟩ := hK
  refine ⟨?_, ?_, ?_⟩
  · rw [List.nodup_append]
    refine ⟨hnd, by simp, ?_⟩
    intro a ha hb
    simp at hb
    subst hb
    exact hvN (hsub a ha)
  · intro x hx
    simp at hx
    rcases hx with hx | hx
    · exact hNS x (hsub x hx)
    · subst hx; exact hvS
  · intro x hx y hy hne
    simp at hx hy
    rcases hx with hx | hx <;> rcases hy with hy | hy
    · exact hadj x hx y hy hne
    · subst hy
      exact (neighbors_symm hg hv (hN x (hsub x hx))).1
    · subst hx
      exact hN y (hsub y hy)
    · subst hx; subst hy; exact absurd rfl hne

/-- Removing a vertex from a clique leaves a clique inside its neighbourhood. -/
theorem cliqueIn_erase {g : Graph} {S K : List Nat} {v : Nat} (hK : cliqueIn g S K)
    (hv : v ∈ K) :
    (K.erase v).Nodup ∧ (K.erase v).length + 1 = K.length ∧
      (∀ x ∈ K.erase v, x ∈ K ∧ x ≠ v ∧ x ∈ g.neighbors v) ∧
      (∀ x ∈ K.erase v, ∀ y ∈ K.erase v, x ≠ y → y ∈ g.neighbors x) := by
  obtain ⟨hnd, hsub, hadj⟩ := hK
  have hmem : ∀ x, x ∈ K.erase v ↔ x ≠ v ∧ x ∈ K := fun x => hnd.mem_erase_iff
  refine ⟨hnd.erase v, ?_, ?_, ?_⟩
  · rw [List.length_erase_of_mem hv]
    have : 0 < K.length := List.length_pos_of_mem hv
    omega
  · intro x hx
    obtain ⟨h1, h2⟩ := (hmem x).1 hx
    exact ⟨h2, h1, hadj v hv x h2 (fun e => h1 e.symm)⟩
  · intro x hx y hy hne
    exact hadj x ((hmem x).1 hx).2 y ((hmem y).1 hy).2 hne

/-- The candidate filter of the subset search. -/
theorem subset_neighbors_ok {g : Graph} {deg : List Nat} {v m : Nat} (hv : v < g.numVertices)
    (rest : List Nat) (hrest : ∀ x ∈ rest, x < deg.length) :
    rest.foldlM (fun (nb : List Nat) candidate => do
          let d ← readAt deg candidate
          if d ≥ m then
            let e ← g.edge v candidate
            if e then pure (nb ++ [candidate]) else pure nb
          else pure nb) [] =
      .ok (rest.filter (fun u => decide (m ≤ valueAt deg u) && decide (u ∈ g.neighbors v))) := by
  have := foldlM_inv (fun (nb : List Nat) candidate => do
          let d ← readAt deg candidate
          if d ≥ m then
            let e ← g.edge v candidate
            if e then pure (nb ++ [candidate]) else pure nb
          else pure nb)
    (fun pre nb => nb = pre.filter
      (fun u => decide (m ≤ valueAt deg u) && decide (u ∈ g.neighbors v)))
    rest [] (by simp) (by
      intro p x t s' heq hp
      have hx : x < deg.length := hrest x (by rw [heq]; simp)
      subst hp
      simp only [readAt_ok hx, edge_ok hv, bind, Except.bind, pure, Except.pure,
        List.filter_append]
      by_cases h1 : m ≤ valueAt deg x <;> by_cases h2 : x ∈ g.neighbors v <;>
        simp [h1, h2, List.filter_cons])
  obtain ⟨s', h1, h2⟩ := this
  rw [h1, h2]

theorem degreesAllow_mono {g : Graph} {deg S S' : List Nat} {c : Nat}
    (h : ∀ x ∈ S', x ∈ S) (hS : degreesAllow g deg S c) : degreesAllow g deg S' c :=
  fun K hK u hu => hS K (cliqueIn_mono h hK) u hu

/-- Correctness of the subset search, for the entry point and for its loop. -/
theorem subset_correct (g : Graph) (hg : g.simpleUndirected) (deg : List Nat)
    (hdeg : deg.length = g.numVertices) :
    ∀ fuel,
      (∀ S c m tmp, 2 * S.length + 2 ≤ fuel → S.Nodup → (∀ x ∈ S, x < g.numVertices) →
        degreesAllow g deg S c →
        ∃ r tmp', findMaximumCliqueSubset g deg fuel S c m tmp = .ok (r, tmp') ∧
          subsetPost g S c m tmp r tmp' ∧ ∀ K, cliqueIn g S K → c + K.length ≤ r) ∧
      (∀ S c m tmp, 2 * S.length + 1 ≤ fuel → S.Nodup → (∀ x ∈ S, x < g.numVertices) →
        degreesAllow g deg S c →
        ∃ r tmp', subsetLoop g deg fuel S c m tmp = .ok (r, tmp') ∧
          subsetPost g S c m tmp r tmp' ∧ ∀ K, cliqueIn g S K → K ≠ [] → c + K.length ≤ r) := by
  intro fuel
  induction fuel with
  | zero =>
    constructor <;> intro S c m tmp h <;> omega
  | succ fuel ih =>
    obtain ⟨ihE, ihL⟩ := ih
    constructor
    · intro S c m tmp hfuel hnd hlt hallow
      rw [findMaximumCliqueSubset_succ]
      by_cases hS : S = []
      · subst hS
        by_cases hc : c > m
        · refine ⟨c, [], by simp [hc], ⟨by omega, by omega, fun _ => ⟨cliqueIn_nil g [], by simp⟩⟩, ?_⟩
          intro K hK
          have h0 := cliqueIn_length_le hK
          rw [List.length_nil] at h0
          omega
        · refine ⟨m, tmp, by simp [hc], ⟨le_refl _, fun _ => rfl, by omega⟩, ?_⟩
          intro K hK
          have h0 := cliqueIn_length_le hK
          rw [List.length_nil] at h0
          omega
      · obtain ⟨r, tmp', h1, h2, h3⟩ := ihL S c m tmp (by omega) hnd hlt hallow
        refine ⟨r, tmp', by simp [hS, h1], h2, ?_⟩
        intro K hK
        by_cases hKn : K = []
        · subst hKn
          obtain ⟨a, ha⟩ := List.exists_mem_of_ne_nil S hS
          have := h3 [a] ⟨by simp, by simpa using ha, by simp⟩ (by simp)
          simp at this ⊢
          omega
        · exact h3 K hK hKn
    · intro S c m tmp hfuel hnd hlt hallow
      rcases List.eq_nil_or_concat S with hS | ⟨rest, v, hS⟩
      · subst hS
        refine ⟨m, tmp, subsetLoop_nil g deg fuel c m tmp, ⟨le_refl _, fun _ => rfl, by omega⟩, ?_⟩
        intro K hK hKn
        have := cliqueIn_length_le hK
        have : K = [] := by simpa using this
        exact absurd this hKn
      · rw [List.concat_eq_append] at hS
        subst hS
        rw [subsetLoop_snoc]
        by_cases hbreak : c + (rest.length + 1) ≤ m
        · refine ⟨m, tmp, by simp [hbreak], ⟨le_refl _, fun _ => rfl, by omega⟩, ?_⟩
          intro K hK _
          have := cliqueIn_length_le hK
          simp at this
          omega
        · have hv : v < g.numVertices := hlt v (by simp)
          have hrest_lt : ∀ x ∈ rest, x < g.numVertices := fun x hx => hlt x (by simp [hx])
          have hnd' : rest.Nodup ∧ v ∉ rest := by
            rw [List.nodup_append] at hnd
            refine ⟨hnd.1, fun hmem => hnd.2.2 hmem (by simp)⟩
          have hfilter := subset_neighbors_ok (m := m) hv rest (fun x hx => hdeg ▸ hrest_lt x hx)
          set nbrs := rest.filter
            (fun u => decide (m ≤ valueAt deg u) && decide (u ∈ g.neighbors v)) with hnbrs
          have hn_mem : ∀ x ∈ nbrs, x ∈ rest ∧ m ≤ valueAt deg x ∧ x ∈ g.neighbors v := by
            intro x hx
            rw [hnbrs, List.mem_filter] at hx
            simpa using hx
          have hn_len : nbrs.length ≤ rest.length := List.length_filter_le _ _
          have hvn : v ∉ nbrs := fun h => hnd'.2 (hn_mem v h).1
          have hallowN : degreesAllow g deg nbrs (c + 1) := by
            intro K hK u hu
            have hKv : cliqueIn g (rest ++ [v]) (K ++ [v]) :=
              cliqueIn_snoc hg hv (fun x hx => (hn_mem x hx).2.2) hvn
                (fun x hx => by simp [(hn_mem x hx).1]) (by simp) hK
            have := hallow (K ++ [v]) hKv u (by simp [hu])
            simp at this
            omega
          obtain ⟨r1, t1, hE, hpost1, hcomp1⟩ := ihE nbrs (c + 1) m tmp
            (by simp at hfuel; omega) (hnd'.1.filter _) (fun x hx => hrest_lt x (hn_mem x hx).1)
            hallowN
          have hallowR : degreesAllow g deg rest c :=
            degreesAllow_mono (fun x hx => by simp [hx]) hallow
          -- completeness for the cliques through `v`
          have hthrough : ∀ K, cliqueIn g (rest ++ [v]) K → v ∈ K → c + K.length ≤ max m r1 := by
            intro K hK hvK
            by_cases hsmall : c + K.length ≤ m
            · exact le_trans hsmall (le_max_left _ _)
            · obtain ⟨e1, e2, e3, e4⟩ := cliqueIn_erase hK hvK
              have hKe : cliqueIn g nbrs (K.erase v) := by
                refine ⟨e1, ?_, e4⟩
                intro x hx
                obtain ⟨xK, xne, xadj⟩ := e3 x hx
                rw [hnbrs, List.mem_filter]
                have hxS := hK.2.1 x xK
                simp at hxS
                rcases hxS with hxS | hxS
                · refine ⟨hxS, ?_⟩
                  have := hallow K hK x xK
                  simp
                  exact ⟨by omega, xadj⟩
                · exact absurd hxS xne
              have := hcomp1 (K.erase v) hKe
              exact le_trans (by omega) (le_max_right _ _)
          rw [if_neg hbreak, hfilter]
          simp only [bind, Except.bind]
          rw [hE]
          simp only []
          by_cases himp : r1 > m
          · rw [if_pos himp]
            obtain ⟨hc1, hl1⟩ := hpost1.2.2 himp
            obtain ⟨r, tmp', hL, hpost, hcomp⟩ := ihL rest c r1 (t1 ++ [v])
              (by simp at hfuel; omega) hnd'.1 hrest_lt hallowR
            refine ⟨r, tmp', hL, ?_, ?_⟩
            · have hnew : cliqueIn g (rest ++ [v]) (t1 ++ [v]) :=
                cliqueIn_snoc hg hv (fun x hx => (hn_mem x hx).2.2) hvn
                  (fun x hx => by simp [(hn_mem x hx).1]) (by simp) hc1
              refine ⟨by have := hpost.1; omega, fun h => by have := hpost.1; omega, fun _ => ?_⟩
              by_cases hr : r = r1
              · have := hpost.2.1 hr
                subst this
                exact ⟨hnew, by simp; omega⟩
              · have hlt' : r1 < r := by have := hpost.1; omega
                obtain ⟨a, b⟩ := hpost.2.2 hlt'
                exact ⟨cliqueIn_mono (fun x hx => by simp [hx]) a, b⟩
            · intro K hK hKn
              by_cases hvK : v ∈ K
              · have := hthrough K hK hvK
                have := hpost.1
                have : max m r1 = r1 := max_eq_right (le_of_lt himp)
                omega
              · have hKr : cliqueIn g rest K := by
                  refine ⟨hK.1, ?_, hK.2.2⟩
                  intro x hx
                  have := hK.2.1 x hx
                  simp at this
                  rcases this with h | h
                  · exact h
                  · subst h; exact absurd hx hvK
                exact hcomp K hKr hKn
          · rw [if_neg himp]
            have hr1 : r1 = m := by have := hpost1.1; omega
            have ht1 : t1 = tmp := hpost1.2.1 hr1
            subst ht1
            obtain ⟨r, tmp', hL, hpost, hcomp⟩ := ihL rest c m t1
              (by simp at hfuel; omega) hnd'.1 hrest_lt hallowR
            refine ⟨r, tmp', hL, ?_, ?_⟩
            · refine ⟨hpost.1, hpost.2.1, fun h => ?_⟩
              obtain ⟨a, b⟩ := hpost.2.2 h
              exact ⟨cliqueIn_mono (fun x hx => by simp [hx]) a, b⟩
            · intro K hK hKn
              by_cases hvK : v ∈ K
              · have := hthrough K hK hvK
                have := hpost.1
                have : max m r1 = m := by rw [hr1]; simp
                omega
              · have hKr : cliqueIn g rest K := by
                  refine ⟨hK.1, ?_, hK.2.2⟩
                  intro x hx
                  have := hK.2.1 x hx
                  simp at this
                  rcases this with h | h
                  · exact h
                  · subst h; exact absurd hx hvK
                exact hcomp K hKr hKn

theorem set_valueAt_self {xs : List Nat} {i : Nat} (h : i < xs.length) :
    xs.set i (valueAt xs i) = xs := by
  apply List.ext_getElem?
  intro j
  rw [List.getElem?_set]
  by_cases hij : i = j
  · subst hij
    simp [valueAt, h]
  · simp [hij]

/-- Vertices are sorted by degree entry. -/
theorem ArraysOk.sorted {n dmax : Nat} {s : SortState} (h : ArraysOk n dmax s)
    {p q : Nat} (hpq : p ≤ q) (hq : q < n) :
    valueAt s.vertex_degrees (valueAt s.sorted_vertices p) ≤
      valueAt s.vertex_degrees (valueAt s.sorted_vertices q) := by
  by_contra hlt
  push_neg at hlt
  have hp : p < n := by omega
  have hd := h.deg_le _ (h.sv_lt p hp)
  have h1 := (h.bin _ hd q hq).2 hlt
  have h2 := (h.bin _ hd p hp).1 (by omega)
  omega

/-- Facts about the vertex that heads the bin of `u`. -/
theorem ArraysOk.head_facts {n dmax : Nat} {s : SortState} (h : ArraysOk n dmax s)
    {u : Nat} (hu : u < n) :
    valueAt s.bin_starts (valueAt s.vertex_degrees u) ≤ valueAt s.vertex_positions u ∧
    valueAt s.vertex_degrees
      (valueAt s.sorted_vertices (valueAt s.bin_starts (valueAt s.vertex_degrees u))) =
        valueAt s.vertex_degrees u := by
  have hdu := h.deg_le u hu
  have hpu := h.pos_lt u hu
  have h1 := h.bin _ hdu _ hpu
  rw [h.sv_pos u hu] at h1
  have hle : valueAt s.bin_starts (valueAt s.vertex_degrees u) ≤ valueAt s.vertex_positions u := by
    by_contra hc
    push_neg at hc
    have := h1.1 hc
    omega
  refine ⟨hle, ?_⟩
  have hpw : valueAt s.bin_starts (valueAt s.vertex_degrees u) < n := by omega
  have h2 := h.bin _ hdu _ hpw
  have hge : valueAt s.vertex_degrees u ≤ valueAt s.vertex_degrees
      (valueAt s.sorted_vertices (valueAt s.bin_starts (valueAt s.vertex_degrees u))) := by
    by_contra hc
    push_neg at hc
    have := h2.2 hc
    omega
  have hle2 := h.sorted hle hpu
  rw [h.sv_pos u hu] at hle2
  omega

section MoveDown

variable {n dmax : Nat} {s : SortState}

theorem moveDown_bs (h : ArraysOk n dmax s) {u : Nat} (hu : u < n) (d : Nat) :
    valueAt (moveDown s u).bin_starts d =
      if d = valueAt s.vertex_degrees u then
        valueAt s.bin_starts (valueAt s.vertex_degrees u) + 1
      else valueAt s.bin_starts d := by
  have hdu := h.deg_le u hu
  unfold moveDown
  simp only
  rw [valueAt_set _ _ (by rw [h.len_bs]; omega)]

theorem moveDown_deg (h : ArraysOk n dmax s) {u : Nat} (hu : u < n) (x : Nat) :
    valueAt (moveDown s u).vertex_degrees x =
      if x = u then valueAt s.vertex_degrees u - 1 else valueAt s.vertex_degrees x := by
  unfold moveDown
  simp only
  rw [valueAt_set _ _ (by rw [h.len_deg]; omega)]

theorem moveDown_sv (h : ArraysOk n dmax s) {u : Nat} (hu : u < n) (p : Nat) :
    valueAt (moveDown s u).sorted_vertices p =
      if p = valueAt s.bin_starts (valueAt s.vertex_degrees u) then u
      else if p = valueAt s.vertex_positions u then
        valueAt s.sorted_vertices (valueAt s.bin_starts (valueAt s.vertex_degrees u))
      else valueAt s.sorted_vertices p := by
  have hpu := h.pos_lt u hu
  have hle := (h.head_facts hu).1
  unfold moveDown
  simp only
  rw [valueAt_set _ _ (by rw [List.length_set, h.len_sv]; omega),
    valueAt_set _ _ (by rw [h.len_sv]; omega)]

theorem moveDown_pos (h : ArraysOk n dmax s) {u : Nat} (hu : u < n) (x : Nat) :
    valueAt (moveDown s u).vertex_positions x =
      if x = valueAt s.sorted_vertices (valueAt s.bin_starts (valueAt s.vertex_degrees u)) then
        valueAt s.vertex_positions u
      else if x = u then valueAt s.bin_starts (valueAt s.vertex_degrees u)
      else valueAt s.vertex_positions x := by
  have hpu := h.pos_lt u hu
  have hle := (h.head_facts hu).1
  have hw := h.sv_lt (valueAt s.bin_starts (valueAt s.vertex_degrees u)) (by omega)
  unfold moveDown
  simp only
  rw [valueAt_set _ _ (by rw [List.length_set, h.len_pos]; omega),
    valueAt_set _ _ (by rw [h.len_pos]; omega)]

/-- Moving a vertex of positive degree entry one bin down keeps the arrays consistent. -/
theorem moveDown_ok (h : ArraysOk n dmax s) {u : Nat} (hu : u < n)
    (hpos : 0 < valueAt s.vertex_degrees u) : ArraysOk n dmax (moveDown s u) := by
  have hdu := h.deg_le u hu
  have hpu := h.pos_lt u hu
  obtain ⟨hle, hdw⟩ := h.head_facts hu
  have hpw : valueAt s.bin_starts (valueAt s.vertex_degrees u) < n := by omega
  have hw := h.sv_lt _ hpw
  have hposw := h.pos_sv _ hpw
  have hsvu := h.sv_pos u hu
  refine ⟨?_, ?_, ?_, ?_, ?_, ?_, ?_, ?_, ?_, ?_, ?_⟩
  · simp [moveDown, h.len_sv]
  · simp [moveDown, h.len_pos]
  · simp [moveDown, h.len_deg]
  · simp [moveDown, h.len_bs]
  · intro v hv
    rw [moveDown_pos h hu]
    have := h.pos_lt v hv
    split_ifs <;> omega
  · intro v hv
    rw [moveDown_pos h hu, moveDown_sv h hu]
    have e1 := h.sv_pos v hv
    by_cases c1 : v = valueAt s.sorted_vertices (valueAt s.bin_starts (valueAt s.vertex_degrees u))
    · rw [if_pos c1]
      by_cases c2 : valueAt s.vertex_positions u = valueAt s.bin_starts (valueAt s.vertex_degrees u)
      · rw [if_pos c2, c1, ← c2, hsvu]
      · rw [if_neg c2, if_pos rfl, c1]
    · rw [if_neg c1]
      by_cases c2 : v = u
      · rw [if_pos c2, if_pos rfl, c2]
      · rw [if_neg c2]
        have n1 : valueAt s.vertex_positions v ≠
            valueAt s.bin_starts (valueAt s.vertex_degrees u) := by
          intro e; apply c1; rw [← e, e1]
        have n2 : valueAt s.vertex_positions v ≠ valueAt s.vertex_positions u := by
          intro e; apply c2; rw [← e1, e, hsvu]
        rw [if_neg n1, if_neg n2, e1]
  · intro p hp
    rw [moveDown_sv h hu]
    have := h.sv_lt p hp
    split_ifs <;> omega
  · intro p hp
    rw [moveDown_sv h hu, moveDown_pos h hu]
    have e1 := h.pos_sv p hp
    by_cases c1 : p = valueAt s.bin_starts (valueAt s.vertex_degrees u)
    · rw [if_pos c1]
      by_cases c2 : u = valueAt s.sorted_vertices (valueAt s.bin_starts (valueAt s.vertex_degrees u))
      · rw [if_pos c2, c1]
        conv_lhs => rw [c2]
        exact hposw
      · rw [if_neg c2, if_pos rfl, c1]
    · rw [if_neg c1]
      by_cases c2 : p = valueAt s.vertex_positions u
      · rw [if_pos c2, if_pos rfl, c2]
      · rw [if_neg c2]
        have n1 : valueAt s.sorted_vertices p ≠
            valueAt s.sorted_vertices (valueAt s.bin_starts (valueAt s.vertex_degrees u)) := by
          intro e; apply c1; rw [← e1, e, hposw]
        have n2 : valueAt s.sorted_vertices p ≠ u := by
          intro e; apply c2; rw [← e1, e]
        rw [if_neg n1, if_neg n2, e1]
  · intro v hv
    rw [moveDown_deg h hu]
    have := h.deg_le v hv
    split_ifs <;> omega
  · intro d hd p hp
    rw [moveDown_bs h hu, moveDown_sv h hu, moveDown_deg h hu]
    have hb := h.bin d hd p hp
    have hbw := h.bin d hd _ hpw
    have hbu := h.bin d hd _ hpu
    rw [hsvu] at hbu
    rw [hdw] at hbw
    have hbdu := h.bin _ hdu p hp
    by_cases c1 : p = valueAt s.bin_starts (valueAt s.vertex_degrees u)
    · rw [if_pos c1, if_pos rfl]
      by_cases c0 : d = valueAt s.vertex_degrees u
      · rw [if_pos c0]; omega
      · rw [if_neg c0]; omega
    · rw [if_neg c1]
      by_cases c2 : p = valueAt s.vertex_positions u
      · rw [if_pos c2]
        have hwu : valueAt s.sorted_vertices (valueAt s.bin_starts (valueAt s.vertex_degrees u))
            ≠ u := by
          intro e
          apply c1
          rw [c2, ← hposw, e]
        rw [if_neg hwu, hdw]
        by_cases c0 : d = valueAt s.vertex_degrees u
        · rw [if_pos c0]; omega
        · rw [if_neg c0]; omega
      · rw [if_neg c2]
        have n2 : valueAt s.sorted_vertices p ≠ u := by
          intro e; apply c2; rw [← h.pos_sv p hp, e]
        rw [if_neg n2]
        by_cases c0 : d = valueAt s.vertex_degrees u
        · rw [if_pos c0]
          rw [c0] at hb
          omega
        · rw [if_neg c0]; exact hb
  · intro d hd
    rw [moveDown_bs h hu]
    have := h.bin_le d hd
    split_ifs <;> omega

end MoveDown

/-- One turn of the peel loop either leaves the arrays alone or moves the neighbour one
bin down. -/
theorem peelNeighbor_eq {n dmax : Nat} {s : SortState} (h : ArraysOk n dmax s) {u : Nat}
    (hu : u < n) (dv : Nat) :
    peelNeighbor dv s u =
      .ok (if valueAt s.vertex_degrees u > dv then moveDown s u else s) := by
  have hdu := h.deg_le u hu
  have hpu := h.pos_lt u hu
  obtain ⟨hle, hdw⟩ := h.head_facts hu
  have hpw : valueAt s.bin_starts (valueAt s.vertex_degrees u) < n := by omega
  have hw := h.sv_lt _ hpw
  have hposw := h.pos_sv _ hpw
  have hsvu := h.sv_pos u hu
  have l1 : u < s.vertex_degrees.length := by rw [h.len_deg]; exact hu
  have l2 : u < s.vertex_positions.length := by rw [h.len_pos]; exact hu
  have l3 : valueAt s.vertex_degrees u < s.bin_starts.length := by rw [h.len_bs]; omega
  have l4 : valueAt s.bin_starts (valueAt s.vertex_degrees u) < s.sorted_vertices.length := by
    rw [h.len_sv]; exact hpw
  have l5 : valueAt s.sorted_vertices (valueAt s.bin_starts (valueAt s.vertex_degrees u)) <
      (s.vertex_positions.set u (valueAt s.bin_starts (valueAt s.vertex_degrees u))).length := by
    rw [List.length_set, h.len_pos]; exact hw
  have l6 : valueAt s.vertex_positions u < s.sorted_vertices.length := by
    rw [h.len_sv]; exact hpu
  have l7 : valueAt s.bin_starts (valueAt s.vertex_degrees u) <
      (s.sorted_vertices.set (valueAt s.vertex_positions u)
        (valueAt s.sorted_vertices (valueAt s.bin_starts (valueAt s.vertex_degrees u)))).length := by
    rw [List.length_set, h.len_sv]; exact hpw
  unfold peelNeighbor
  by_cases hgt : valueAt s.vertex_degrees u > dv
  · by_cases hne : u ≠ valueAt s.sorted_vertices
        (valueAt s.bin_starts (valueAt s.vertex_degrees u))
    · simp only [readAt_ok l1, readAt_ok l2, readAt_ok l3, readAt_ok l4, writeAt_ok _ l1,
        writeAt_ok _ l2, writeAt_ok _ l3, writeAt_ok _ l5, writeAt_ok _ l6, writeAt_ok _ l7,
        bind, Except.bind, pure, Except.pure, if_pos hgt, if_pos hne, moveDown, ne_eq]
    · simp only [readAt_ok l1, readAt_ok l2, readAt_ok l3, readAt_ok l4, writeAt_ok _ l1,
        writeAt_ok _ l3,
        bind, Except.bind, pure, Except.pure, if_pos hgt, if_neg hne, moveDown]
      push_neg at hne
      have hpp : valueAt s.vertex_positions u =
          valueAt s.bin_starts (valueAt s.vertex_degrees u) := by
        conv_lhs => rw [hne]
        exact hposw
      have e1 : (s.sorted_vertices.set (valueAt s.vertex_positions u)
          (valueAt s.sorted_vertices (valueAt s.bin_starts (valueAt s.vertex_degrees u)))).set
            (valueAt s.bin_starts (valueAt s.vertex_degrees u)) u = s.sorted_vertices := by
        rw [← hpp, set_valueAt_self l6]
        have := set_valueAt_self l6
        rw [hsvu] at this
        exact this
      have e2 : (s.vertex_positions.set u
          (valueAt s.bin_starts (valueAt s.vertex_degrees u))).set
            (valueAt s.sorted_vertices (valueAt s.bin_starts (valueAt s.vertex_degrees u)))
            (valueAt s.vertex_positions u) = s.vertex_positions := by
        rw [← hne, ← hpp, set_valueAt_self l2, set_valueAt_self l2]
      rw [e1, e2]
  · simp only [readAt_ok l1, bind, Except.bind, pure, Except.pure, if_neg hgt]

theorem PeelFrame.refl (n i : Nat) (s : SortState) : PeelFrame n i s s :=
  ⟨fun _ _ => rfl, fun _ _ _ => ⟨rfl, rfl⟩, fun _ _ h => h⟩

/-- One move of the peel at position `i` respects the frame. -/
theorem moveDown_frame {n dmax i : Nat} {s0 s : SortState} (h0 : ArraysOk n dmax s0)
    (h : ArraysOk n dmax s) (hf : PeelFrame n i s0 s) (hi : i < n) {u : Nat} (hu : u < n)
    (hgt : valueAt s.vertex_degrees u >
      valueAt s0.vertex_degrees (valueAt s0.sorted_vertices i)) :
    PeelFrame n i s0 (moveDown s u) := by
  have hdu := h.deg_le u hu
  have hpu := h.pos_lt u hu
  obtain ⟨hle, hdw⟩ := h.head_facts hu
  have hpw : valueAt s.bin_starts (valueAt s.vertex_degrees u) < n := by omega
  have hposw := h.pos_sv _ hpw
  have hv := h0.sv_lt i hi
  have hposv := h0.pos_sv i hi
  have hb := hf.behind _ hv (le_of_eq hposv)
  have hipw : i < valueAt s.bin_starts (valueAt s.vertex_degrees u) := by
    rw [h.bin _ hdu i hi, hf.sv_eq i (le_refl _), hb.2]
    exact hgt
  refine ⟨?_, ?_, ?_⟩
  · intro p hp
    rw [moveDown_sv h hu, if_neg (by omega), if_neg (by omega)]
    exact hf.sv_eq p hp
  · intro x hx hxi
    obtain ⟨b1, b2⟩ := hf.behind x hx hxi
    have n1 : x ≠ valueAt s.sorted_vertices
        (valueAt s.bin_starts (valueAt s.vertex_degrees u)) := by
      intro e
      have e' : valueAt s.vertex_positions x =
          valueAt s.bin_starts (valueAt s.vertex_degrees u) := by
        rw [e]; exact hposw
      omega
    have n2 : x ≠ u := by
      intro e
      have e' : valueAt s.vertex_positions x = valueAt s.vertex_positions u := by
        rw [e]
      omega
    rw [moveDown_pos h hu, moveDown_deg h hu, if_neg n1, if_neg n2, if_neg n2]
    exact ⟨b1, b2⟩
  · intro x hx hxi
    have := hf.ahead x hx hxi
    rw [moveDown_pos h hu]
    split_ifs <;> omega

/-- The peel of the vertex at position `i`: it succeeds, keeps the arrays consistent,
touches nothing at or behind position `i`, and lowers a degree entry by at most one, and
only for a neighbour of the peeled vertex. -/
theorem peel_spec {g : Graph} (hg : g.simpleUndirected) {n dmax i : Nat} {s0 : SortState}
    (hn : g.numVertices = n) (h0 : ArraysOk n dmax s0) (hi : i < n) :
    ∃ s', peel g s0 i (valueAt s0.vertex_degrees (valueAt s0.sorted_vertices i)) = .ok s' ∧
      ArraysOk n dmax s' ∧ PeelFrame n i s0 s' ∧
      ∀ x < n, valueAt s0.vertex_degrees x ≤ valueAt s'.vertex_degrees x +
        (if x ∈ g.neighbors (valueAt s0.sorted_vertices i) then 1 else 0) := by
  have hv := h0.sv_lt i hi
  have hvg : valueAt s0.sorted_vertices i < g.numVertices := by rw [hn]; exact hv
  have hnd := neighbors_nodup hg hvg
  have key := foldlM_inv
    (peelNeighbor (valueAt s0.vertex_degrees (valueAt s0.sorted_vertices i)))
    (fun pre s => ArraysOk n dmax s ∧ PeelFrame n i s0 s ∧
      ∀ x < n, valueAt s0.vertex_degrees x ≤ valueAt s.vertex_degrees x +
        (if x ∈ pre then 1 else 0))
    (g.neighbors (valueAt s0.sorted_vertices i)) s0
    ⟨h0, PeelFrame.refl n i s0, fun x _ => by simp⟩ (by
      intro p u t s heq ⟨hs, hf, hd⟩
      have humem : u ∈ g.neighbors (valueAt s0.sorted_vertices i) := by rw [heq]; simp
      have hu : u < n := by
        rw [← hn]; exact (neighbors_symm hg hvg humem).2.1
      have hup : u ∉ p := by
        rw [heq] at hnd
        have := (List.nodup_append.1 hnd).2.2
        intro hmem
        exact this hmem (by simp)
      refine ⟨_, peelNeighbor_eq hs hu _, ?_⟩
      by_cases hgt : valueAt s.vertex_degrees u >
          valueAt s0.vertex_degrees (valueAt s0.sorted_vertices i)
      · rw [if_pos hgt]
        refine ⟨moveDown_ok hs hu (by omega), moveDown_frame h0 hs hf hi hu hgt, ?_⟩
        intro x hx
        rw [moveDown_deg hs hu]
        have := hd x hx
        by_cases hxu : x = u
        · subst hxu
          simp [hup] at this
          simp
          omega
        · rw [if_neg hxu]
          have e : (x ∈ p ++ [u]) ↔ x ∈ p := by simp [hxu]
          simp only [e]
          exact this
      · rw [if_neg hgt]
        refine ⟨hs, hf, ?_⟩
        intro x hx
        have := hd x hx
        by_cases hxp : x ∈ p
        · simp [hxp] at this ⊢
          exact this
        · simp [hxp] at this
          split_ifs <;> omega)
  obtain ⟨s', e1, e2, e3, e4⟩ := key
  refine ⟨s', ?_, e2, e3, e4⟩
  unfold peel
  rw [readAt_ok (by rw [h0.len_sv]; exact hi)]
  simp only [bind, Except.bind]
  rw [outEdges_ok hvg]
  exact e1

theorem length_le_countP {L M : List Nat} (p : Nat → Bool) (hnd : L.Nodup)
    (h : ∀ x ∈ L, x ∈ M ∧ p x = true) : L.length ≤ M.countP p := by
  rw [List.countP_eq_length_filter]
  apply List.Subperm.length_le
  apply List.Nodup.subperm hnd
  intro x hx
  rw [List.mem_filter]
  exact h x hx

/-- A clique all of whose vertices are still ahead fits the degree entry of each of its
vertices. -/
theorem clique_le_degree {g : Graph} {i : Nat} {s : SortState} (hr : residualOk g i s)
    {K : List Nat} (hK : g.isClique K)
    (hpos : ∀ w ∈ K, i ≤ valueAt s.vertex_positions w) {x : Nat} (hx : x ∈ K) :
    K.length ≤ valueAt s.vertex_degrees x + 1 := by
  obtain ⟨hnd, hadj⟩ := hK
  have hxn := (hadj x hx).1
  have hmem : ∀ y, y ∈ K.erase x ↔ y ≠ x ∧ y ∈ K := fun y => hnd.mem_erase_iff
  have h1 : (K.erase x).length ≤
      (g.neighbors x).countP (fun w => decide (i ≤ valueAt s.vertex_positions w)) := by
    apply length_le_countP _ (hnd.erase x)
    intro y hy
    obtain ⟨a, b⟩ := (hmem y).1 hy
    exact ⟨(hadj x hx).2 y b (fun e => a e.symm), by simpa using hpos y b⟩
  have h2 := hr x hxn
  rw [List.length_erase_of_mem hx] at h1
  omega

theorem isClique_of_cliqueIn {g : Graph} {S K : List Nat} (hS : ∀ x ∈ S, x < g.numVertices)
    (hK : cliqueIn g S K) : g.isClique K :=
  ⟨hK.1, fun u hu => ⟨hS u (hK.2.1 u hu), fun v hv hne => hK.2.2 u hu v hv hne⟩⟩

theorem cliqueIn_of_isClique {g : Graph} {S K : List Nat} (hK : g.isClique K)
    (hS : ∀ x ∈ K, x ∈ S) : cliqueIn g S K :=
  ⟨hK.1, hS, fun u hu v hv hne => (hK.2 u hu).2 v hv hne⟩

/-- The neighbour collection of the outer loop is a filter of the out-edges. -/
theorem collectNeighbors_ok {g : Graph} {dmax : Nat} {s : SortState}
    (hg : g.simpleUndirected) (h : ArraysOk g.numVertices dmax s) (m : Nat) {v : Nat}
    (hv : v < g.numVertices) :
    collectNeighbors g s m v = .ok ((g.neighbors v).filter (fun w =>
      decide (valueAt s.vertex_positions w > valueAt s.vertex_positions v) &&
        decide (valueAt s.vertex_degrees w ≥ m))) := by
  unfold collectNeighbors
  rw [outEdges_ok hv]
  simp only [bind, Except.bind]
  have := foldlM_inv (fun (nb : List Nat) neighbor => do
      let pn ← readAt s.vertex_positions neighbor
      let pv ← readAt s.vertex_positions v
      if pn > pv then
        let dn ← readAt s.vertex_degrees neighbor
        if dn ≥ m then pure (nb ++ [neighbor]) else pure nb
      else pure nb)
    (fun pre nb => nb = pre.filter (fun w =>
      decide (valueAt s.vertex_positions w > valueAt s.vertex_positions v) &&
        decide (valueAt s.vertex_degrees w ≥ m)))
    (g.neighbors v) [] (by simp) (by
      intro p x t s' heq hp
      have hxm : x ∈ g.neighbors v := by rw [heq]; simp
      have hx : x < g.numVertices := (neighbors_symm hg hv hxm).2.1
      subst hp
      simp only [readAt_ok (show x < s.vertex_positions.length by rw [h.len_pos]; exact hx),
        readAt_ok (show v < s.vertex_positions.length by rw [h.len_pos]; exact hv),
        readAt_ok (show x < s.vertex_degrees.length by rw [h.len_deg]; exact hx),
        bind, Except.bind, pure, Except.pure, List.filter_append]
      by_cases h1 : valueAt s.vertex_positions x > valueAt s.vertex_positions v <;>
        by_cases h2 : valueAt s.vertex_degrees x ≥ m <;>
        simp [h1, h2, List.filter_cons])
  obtain ⟨s', h1, h2⟩ := this
  simp only [bind, Except.bind] at h1
  rw [h1, h2]

/-- A vertex is determined by its position. -/
theorem ArraysOk.eq_of_pos {n dmax : Nat} {s : SortState} (h : ArraysOk n dmax s)
    {x : Nat} (hx : x < n) {p : Nat} (hp : valueAt s.vertex_positions x = p) :
    x = valueAt s.sorted_vertices p := by
  rw [← hp, h.sv_pos x hx]

/-- The search half of an outer iteration. -/
theorem searchFrom_spec {g : Graph} (hg : g.simpleUndirected) {k dmax i : Nat}
    {st : SearchState} (hinv : OuterInv g k dmax i st) (hi : i < g.numVertices) :
    ∃ st1, searchFrom g st (valueAt st.arrays.sorted_vertices i)
        (valueAt st.arrays.vertex_degrees (valueAt st.arrays.sorted_vertices i)) = .ok st1 ∧
      st1.arrays = st.arrays ∧ k - 1 ≤ st1.max_found_size ∧
      ((st1.maximum_clique = [] ∧ st1.max_found_size = k - 1) ∨
        (g.isClique st1.maximum_clique ∧ st1.maximum_clique.length = st1.max_found_size ∧
          k ≤ st1.max_found_size)) ∧
      ∀ K, g.isClique K →
        (∃ w ∈ K, valueAt st.arrays.vertex_positions w < i + 1) →
        K.length ≤ st1.max_found_size := by
  obtain ⟨harr, hres, hbound, hbest, hcomp⟩ := hinv
  have hv := harr.sv_lt i hi
  have hposv := harr.pos_sv i hi
  -- a clique through the current vertex with nothing behind it
  have hcase : ∀ K, g.isClique K →
      (∃ w ∈ K, valueAt st.arrays.vertex_positions w < i + 1) →
      K.length ≤ st.max_found_size ∨
        (valueAt st.arrays.sorted_vertices i ∈ K ∧
          ∀ w ∈ K, i ≤ valueAt st.arrays.vertex_positions w) := by
    intro K hK ⟨w, hw, hwi⟩
    by_cases hb : ∃ w ∈ K, valueAt st.arrays.vertex_positions w < i
    · exact Or.inl (hcomp K hK hb)
    · push_neg at hb
      refine Or.inr ⟨?_, hb⟩
      have hwp : valueAt st.arrays.vertex_positions w = i := by
        have := hb w hw
        omega
      have := harr.eq_of_pos (hK.2 w hw).1 hwp
      rw [← this]
      exact hw
  unfold searchFrom
  by_cases hdv : valueAt st.arrays.vertex_degrees (valueAt st.arrays.sorted_vertices i) ≥
      st.max_found_size
  · rw [if_pos hdv, collectNeighbors_ok hg harr _ hv]
    simp only [bind, Except.bind]
    set S := (g.neighbors (valueAt st.arrays.sorted_vertices i)).filter (fun w =>
      decide (valueAt st.arrays.vertex_positions w >
          valueAt st.arrays.vertex_positions (valueAt st.arrays.sorted_vertices i)) &&
        decide (valueAt st.arrays.vertex_degrees w ≥ st.max_found_size)) with hS
    have hS_mem : ∀ x ∈ S, x ∈ g.neighbors (valueAt st.arrays.sorted_vertices i) ∧
        i < valueAt st.arrays.vertex_positions x ∧
        st.max_found_size ≤ valueAt st.arrays.vertex_degrees x := by
      intro x hx
      rw [hS, List.mem_filter, hposv] at hx
      simpa using hx
    have hS_lt : ∀ x ∈ S, x < g.numVertices :=
      fun x hx => (neighbors_symm hg hv (hS_mem x hx).1).2.1
    have hS_nd : S.Nodup := (neighbors_nodup hg hv).filter _
    have hvS : valueAt st.arrays.sorted_vertices i ∉ S := by
      intro hmem
      have := (hS_mem _ hmem).2.1
      rw [hposv] at this
      omega
    have hext : ∀ K, cliqueIn g S K →
        g.isClique (K ++ [valueAt st.arrays.sorted_vertices i]) ∧
        ∀ w ∈ K ++ [valueAt st.arrays.sorted_vertices i],
          i ≤ valueAt st.arrays.vertex_positions w := by
      intro K hK
      have hc : cliqueIn g (S ++ [valueAt st.arrays.sorted_vertices i])
          (K ++ [valueAt st.arrays.sorted_vertices i]) :=
        cliqueIn_snoc hg hv (fun x hx => (hS_mem x hx).1) hvS
          (fun x hx => by simp [hx]) (by simp) hK
      refine ⟨isClique_of_cliqueIn (fun x hx => ?_) hc, ?_⟩
      · simp at hx
        rcases hx with hx | hx
        · exact hS_lt x hx
        · rw [hx]; exact hv
      · intro w hw
        simp at hw
        rcases hw with hw | hw
        · exact le_of_lt (hS_mem w (hK.2.1 w hw)).2.1
        · rw [hw, hposv]
    have hallow : degreesAllow g st.arrays.vertex_degrees S 1 := by
      intro K hK u hu
      obtain ⟨e1, e2⟩ := hext K hK
      have := clique_le_degree hres e1 e2 (x := u) (by simp [hu])
      simp at this
      omega
    obtain ⟨r, tmp', hE, hpost, hcompS⟩ :=
      (subset_correct g hg st.arrays.vertex_degrees harr.len_deg (2 * S.length + 2)).1
        S 1 st.max_found_size st.maximum_clique_tmp (le_refl _) hS_nd hS_lt hallow
    rw [hE]
    simp only []
    have hcomplete : ∀ K, g.isClique K →
        (∃ w ∈ K, valueAt st.arrays.vertex_positions w < i + 1) → K.length ≤ r := by
      intro K hK hw
      rcases hcase K hK hw with h | ⟨hvK, hall⟩
      · exact le_trans h hpost.1
      · by_cases hsmall : K.length ≤ st.max_found_size
        · exact le_trans hsmall hpost.1
        · obtain ⟨e1, e2, e3, e4⟩ :=
            cliqueIn_erase (cliqueIn_of_isClique (S := K) hK (fun _ h => h)) hvK
          have hKe : cliqueIn g S (K.erase (valueAt st.arrays.sorted_vertices i)) := by
            refine ⟨e1, ?_, e4⟩
            intro x hx
            obtain ⟨xK, xne, xadj⟩ := e3 x hx
            rw [hS, List.mem_filter, hposv]
            refine ⟨xadj, ?_⟩
            have hxi := hall x xK
            have hxn := (hK.2 x xK).1
            have hne : valueAt st.arrays.vertex_positions x ≠ i :=
              fun e => xne (harr.eq_of_pos hxn e)
            have hdx := clique_le_degree hres hK hall xK
            simp
            exact ⟨by omega, by omega⟩
          have := hcompS _ hKe
          omega
    by_cases himp : r > st.max_found_size
    · rw [if_pos himp]
      refine ⟨_, rfl, rfl, by simp only []; omega, Or.inr ?_, hcomplete⟩
      obtain ⟨hc1, hl1⟩ := hpost.2.2 himp
      refine ⟨(hext tmp' hc1).1, by simp; omega, by simp only []; omega⟩
    · rw [if_neg himp]
      have hr : r = st.max_found_size := by have := hpost.1; omega
      refine ⟨_, rfl, rfl, hbound, hbest, ?_⟩
      intro K hK hw
      have := hcomplete K hK hw
      simp only []
      omega
  · rw [if_neg hdv]
    refine ⟨st, rfl, rfl, hbound, hbest, ?_⟩
    intro K hK hw
    rcases hcase K hK hw with h | ⟨hvK, hall⟩
    · exact h
    · have := clique_le_degree hres hK hall hvK
      omega

theorem countP_succ_le {L : List Nat} (p q : Nat → Bool) (hnd : L.Nodup) {v : Nat}
    (hv : v ∈ L) (hpv : p v = false) (hqv : q v = true)
    (hpq : ∀ x ∈ L, p x = true → q x = true) : L.countP p + 1 ≤ L.countP q := by
  have h := length_le_countP (L := v :: L.filter p) (M := L) q (by
      rw [List.nodup_cons]
      refine ⟨?_, hnd.filter _⟩
      intro hmem
      rw [List.mem_filter] at hmem
      rw [hpv] at hmem
      exact absurd hmem.2 (by simp)) (by
      intro x hx
      rw [List.mem_cons] at hx
      rcases hx with hx | hx
      · subst hx; exact ⟨hv, hqv⟩
      · rw [List.mem_filter] at hx
        exact ⟨hx.1, hpq x hx.1 hx.2⟩)
  rw [List.length_cons, ← List.countP_eq_length_filter] at h
  omega

/-- After the peel at position `i` the degree entries bound the neighbours from position
`i + 1` on. -/
theorem residual_step {g : Graph} (hg : g.simpleUndirected) {dmax i : Nat}
    {s0 s' : SortState} (h0 : ArraysOk g.numVertices dmax s0) (hr : residualOk g i s0)
    (hi : i < g.numVertices) (hf : PeelFrame g.numVertices i s0 s')
    (hd : ∀ x < g.numVertices, valueAt s0.vertex_degrees x ≤ valueAt s'.vertex_degrees x +
        (if x ∈ g.neighbors (valueAt s0.sorted_vertices i) then 1 else 0)) :
    residualOk g (i + 1) s' := by
  intro u hu
  have hv := h0.sv_lt i hi
  have hposv := h0.pos_sv i hi
  have hcongr : (g.neighbors u).countP (fun w => decide (i + 1 ≤ valueAt s'.vertex_positions w))
      = (g.neighbors u).countP (fun w => decide (i + 1 ≤ valueAt s0.vertex_positions w)) := by
    apply List.countP_congr
    intro w hw
    have hwn := (neighbors_symm hg hu hw).2.1
    simp only [decide_eq_true_eq]
    constructor
    · intro h
      by_contra hc
      have := (hf.behind w hwn (by omega)).1
      omega
    · intro h
      have := hf.ahead w hwn (by omega)
      omega
  rw [hcongr]
  have h1 := hr u hu
  have h2 := hd u hu
  by_cases hadj : valueAt s0.sorted_vertices i ∈ g.neighbors u
  · have hu' : u ∈ g.neighbors (valueAt s0.sorted_vertices i) := (neighbors_symm hg hu hadj).1
    rw [if_pos hu'] at h2
    have := countP_succ_le
      (fun w => decide (i + 1 ≤ valueAt s0.vertex_positions w))
      (fun w => decide (i ≤ valueAt s0.vertex_positions w))
      (neighbors_nodup hg hu) hadj (by simp [hposv]) (by simp [hposv]) (by
        intro x _ hx
        simp only [decide_eq_true_eq] at hx ⊢
        omega)
    omega
  · have hu' : u ∉ g.neighbors (valueAt s0.sorted_vertices i) :=
      fun h => hadj (neighbors_symm hg hv h).1
    rw [if_neg hu'] at h2
    have : (g.neighbors u).countP (fun w => decide (i + 1 ≤ valueAt s0.vertex_positions w)) ≤
        (g.neighbors u).countP (fun w => decide (i ≤ valueAt s0.vertex_positions w)) := by
      apply List.countP_mono_left
      intro x _ hx
      simp only [decide_eq_true_eq] at hx ⊢
      omega
    omega

/-- One outer iteration succeeds and re-establishes the invariant. -/
theorem outerIteration_spec {g : Graph} (hg : g.simpleUndirected) {k dmax i : Nat}
    {st : SearchState} (hinv : OuterInv g k dmax i st) (hi : i < g.numVertices) :
    ∃ st', outerIteration g st i = .ok st' ∧ OuterInv g k dmax (i + 1) st' := by
  obtain ⟨st1, hsearch, harr1, hb1, hbest1, hcomp1⟩ := searchFrom_spec hg hinv hi
  obtain ⟨s', hpeel, hok, hframe, hdeg⟩ := peel_spec hg rfl hinv.arrays hi
  have hv := hinv.arrays.sv_lt i hi
  refine ⟨{ st1 with arrays := s' }, ?_, ⟨hok, ?_, hb1, hbest1, ?_⟩⟩
  · unfold outerIteration
    rw [readAt_ok (by rw [hinv.arrays.len_sv]; exact hi)]
    simp only [bind, Except.bind]
    rw [readAt_ok (by rw [hinv.arrays.len_deg]; exact hv)]
    simp only []
    rw [hsearch]
    simp only []
    rw [harr1, hpeel]
    rfl
  · exact residual_step hg hinv.arrays hinv.residual hi hframe hdeg
  · intro K hK ⟨w, hw, hwi⟩
    apply hcomp1 K hK
    refine ⟨w, hw, ?_⟩
    by_contra hc
    have := hframe.ahead w (hK.2 w hw).1 (by omega)
    simp only [] at hwi
    omega

theorem valueAt_replicate (n i : Nat) : valueAt (List.replicate n 0) i = 0 := by
  unfold valueAt
  rw [List.getD_eq_getElem?_getD, List.getElem?_replicate]
  split_ifs <;> rfl

theorem valueAt_eq_getElem {xs : List Nat} {i : Nat} (h : i < xs.length) :
    valueAt xs i = xs[i] := by
  simp [valueAt, h]

theorem countBelow_succ (degs : List Nat) (d : Nat) :
    countBelow degs (d + 1) = countBelow degs d + degs.count d := by
  unfold countBelow
  induction degs with
  | nil => simp
  | cons a t ih =>
    simp only [List.countP_cons, List.count_cons, ih]
    by_cases h1 : a < d
    · have h2 : a < d + 1 := by omega
      have h3 : ¬ a = d := by omega
      simp [h1, h2, h3]
      omega
    · by_cases h3 : a = d
      · simp [h3]
        omega
      · have h2 : ¬ a < d + 1 := by omega
        simp [h1, h2, h3]

theorem countBelow_mono (degs : List Nat) {d d' : Nat} (h : d ≤ d') :
    countBelow degs d ≤ countBelow degs d' := by
  unfold countBelow
  apply List.countP_mono_left
  intro x _ hx
  simp only [decide_eq_true_eq] at hx ⊢
  omega

theorem countBelow_le (degs : List Nat) (d : Nat) : countBelow degs d ≤ degs.length :=
  List.countP_le_length _

theorem count_take_succ {degs : List Nat} {v : Nat} (hv : v < degs.length) (d : Nat) :
    (degs.take (v + 1)).count d =
      (degs.take v).count d + (if valueAt degs v = d then 1 else 0) := by
  rw [List.take_succ, List.count_append, valueAt_eq_getElem hv]
  simp [List.getElem?_eq_getElem hv, List.count_cons]

theorem count_take_le {degs : List Nat} {v w : Nat} (h : v ≤ w) (d : Nat) :
    (degs.take v).count d ≤ (degs.take w).count d := by
  apply List.Sublist.count_le
  exact List.take_sublist_take_left _ h

theorem count_take_lt {degs : List Nat} {v w : Nat} (h : v < w) (hw : w ≤ degs.length) :
    (degs.take v).count (valueAt degs v) < (degs.take w).count (valueAt degs v) := by
  have h1 := count_take_succ (show v < degs.length by omega) (valueAt degs v)
  rw [if_pos rfl] at h1
  have h2 := @count_take_le degs (v + 1) w (by omega) (valueAt degs v)
  omega

theorem count_take_all_le (degs : List Nat) (v d : Nat) :
    (degs.take v).count d ≤ degs.count d :=
  List.Sublist.count_le (List.take_sublist _ _) _

theorem binSortPosition_lt_next {degs : List Nat} {v : Nat} (hv : v < degs.length) :
    binSortPosition degs v < countBelow degs (valueAt degs v + 1) := by
  unfold binSortPosition
  rw [countBelow_succ]
  have := @count_take_lt degs v degs.length hv (le_refl _)
  rw [List.take_length] at this
  omega

theorem binSortPosition_lt {degs : List Nat} {v : Nat} (hv : v < degs.length) :
    binSortPosition degs v < degs.length :=
  lt_of_lt_of_le (binSortPosition_lt_next hv) (countBelow_le _ _)

theorem binSortPosition_ge (degs : List Nat) (v : Nat) :
    countBelow degs (valueAt degs v) ≤ binSortPosition degs v := by
  unfold binSortPosition
  omega

theorem binSortPosition_ne {degs : List Nat} {v w : Nat} (hvw : v < w)
    (hw : w < degs.length) : binSortPosition degs v ≠ binSortPosition degs w := by
  have hv : v < degs.length := by omega
  rcases Nat.lt_trichotomy (valueAt degs v) (valueAt degs w) with h | h | h
  · have h1 := binSortPosition_lt_next hv
    have h2 := countBelow_mono degs (show valueAt degs v + 1 ≤ valueAt degs w by omega)
    have h3 := binSortPosition_ge degs w
    omega
  · have := count_take_lt hvw (le_of_lt hw)
    unfold binSortPosition
    rw [← h]
    omega
  · have h1 := binSortPosition_lt_next hw
    have h2 := countBelow_mono degs (show valueAt degs w + 1 ≤ valueAt degs v by omega)
    have h3 := binSortPosition_ge degs v
    omega

theorem binSortPosition_inj {degs : List Nat} {v w : Nat} (hv : v < degs.length)
    (hw : w < degs.length) (h : binSortPosition degs v = binSortPosition degs w) : v = w := by
  rcases Nat.lt_trichotomy v w with h1 | h1 | h1
  · exact absurd h (binSortPosition_ne h1 hw)
  · exact h1
  · exact absurd h.symm (binSortPosition_ne h1 hv)

/-- Every position is the bin-sort position of some vertex. -/
theorem binSortPosition_surj (degs : List Nat) {p : Nat} (hp : p < degs.length) :
    ∃ v, v < degs.length ∧ binSortPosition degs v = p := by
  let f : Fin degs.length → Fin degs.length :=
    fun v => ⟨binSortPosition degs v.1, binSortPosition_lt v.2⟩
  have hinj : Function.Injective f := by
    intro a b hab
    apply Fin.ext
    exact binSortPosition_inj a.2 b.2 (by simpa [f] using congrArg Fin.val hab)
  obtain ⟨v, hv⟩ := (Finite.injective_iff_surjective.1 hinj) ⟨p, hp⟩
  exact ⟨v.1, v.2, by simpa [f] using congrArg Fin.val hv⟩

theorem outDegree_ok {g : Graph} {v : Nat} (h : v < g.numVertices) :
    g.outDegree v = .ok (g.neighbors v).length := by
  simp [Graph.outDegree, outEdges_ok h, bind, Except.bind, pure, Except.pure]

/-- The degree vector and its maximum. -/
theorem getVertexDegrees_spec (g : Graph) (old : List Nat) :
    ∃ degs dmax, getVertexDegreesAndGraphMaxDegree g old = .ok (degs, dmax) ∧
      degs.length = g.numVertices ∧
      (∀ v < g.numVertices, valueAt degs v = (g.neighbors v).length) ∧
      (∀ v < g.numVertices, valueAt degs v ≤ dmax) ∧
      (dmax = 0 ∨ ∃ v < g.numVertices, valueAt degs v = dmax) := by
  have key := foldlM_range_inv (fun (acc : List Nat × Nat) v => do
      let d ← g.outDegree v
      let degrees ← writeAt acc.1 v d
      let dv ← readAt degrees v
      pure (degrees, max acc.2 dv))
    (fun i acc => acc.1.length = g.numVertices ∧
      (∀ v < i, valueAt acc.1 v = (g.neighbors v).length) ∧
      (∀ v < i, (g.neighbors v).length ≤ acc.2) ∧
      (acc.2 = 0 ∨ ∃ v < i, (g.neighbors v).length = acc.2))
    g.numVertices (resize [] g.numVertices, 0)
    ⟨length_resize _ _, by simp, by simp, Or.inl rfl⟩ (by
      intro i acc hi ⟨h1, h2, h3, h4⟩
      have hl : i < acc.1.length := by rw [h1]; exact hi
      have hl' : i < (acc.1.set i (g.neighbors i).length).length := by
        rw [List.length_set]; exact hl
      refine ⟨(acc.1.set i (g.neighbors i).length, max acc.2 (g.neighbors i).length), ?_, ?_⟩
      · simp only [outDegree_ok hi, writeAt_ok _ hl, readAt_ok hl', valueAt_set_self _ hl,
          bind, Except.bind, pure, Except.pure]
      · refine ⟨by simp [h1], ?_, ?_, ?_⟩
        · intro v hv
          rw [valueAt_set _ _ hl]
          by_cases e : v = i
          · rw [if_pos e, e]
          · rw [if_neg e]; exact h2 v (by omega)
        · intro v hv
          by_cases e : v = i
          · rw [e]; exact le_max_right _ _
          · exact le_trans (h3 v (by omega)) (le_max_left _ _)
        · simp only []
          rcases le_total acc.2 (g.neighbors i).length with hm | hm
          · rw [max_eq_right hm]
            exact Or.inr ⟨i, by omega, rfl⟩
          · rw [max_eq_left hm]
            rcases h4 with h4 | ⟨v, hv, h4⟩
            · exact Or.inl h4
            · exact Or.inr ⟨v, by omega, h4⟩)
  obtain ⟨⟨degs, dmax⟩, e1, e2, e3, e4, e5⟩ := key
  refine ⟨degs, dmax, e1, e2, e3, ?_, ?_⟩
  · intro v hv
    rw [e3 v hv]; exact e4 v hv
  · rcases e5 with e5 | ⟨v, hv, e5⟩
    · exact Or.inl e5
    · exact Or.inr ⟨v, hv, by rw [e3 v hv]; exact e5⟩

/-- The sizes of the bins. -/
theorem binSizes_spec (degs : List Nat) (dmax : Nat) (h : ∀ d ∈ degs, d ≤ dmax) :
    ∃ sizes, degs.foldlM (fun (sizes : List Nat) degree => do
        let c ← readAt sizes degree
        writeAt sizes degree (c + 1)) (List.replicate (dmax + 1) 0) = .ok sizes ∧
      sizes.length = dmax + 1 ∧ ∀ d, valueAt sizes d = degs.count d := by
  have key := foldlM_inv (fun (sizes : List Nat) degree => do
        let c ← readAt sizes degree
        writeAt sizes degree (c + 1))
    (fun pre sizes => sizes.length = dmax + 1 ∧ ∀ d, valueAt sizes d = pre.count d)
    degs (List.replicate (dmax + 1) 0)
    ⟨by simp, fun d => by rw [valueAt_replicate]; simp⟩ (by
      intro p x t sizes heq ⟨h1, h2⟩
      have hx : x ≤ dmax := h x (by rw [heq]; simp)
      have hl : x < sizes.length := by rw [h1]; omega
      refine ⟨sizes.set x (valueAt sizes x + 1), ?_, by simp [h1], ?_⟩
      · simp only [readAt_ok hl, writeAt_ok _ hl, bind, Except.bind]
      · intro d
        rw [valueAt_set _ _ hl, List.count_append, List.count_singleton]
        by_cases e : d = x
        · subst e; simp [h2]
        · have e' : ¬ x = d := fun h => e h.symm
          simp [e, e', h2])
  exact key

/-- The starts of the bins. -/
theorem binStarts_spec (degs sizes init : List Nat) (hl : init.length = sizes.length)
    (hs : ∀ d, valueAt sizes d = degs.count d) :
    ∃ starts next, (List.range sizes.length).foldlM
        (fun (acc : List Nat × Nat) i => do
          let starts ← writeAt acc.1 i acc.2
          let sz ← readAt sizes i
          pure (starts, acc.2 + sz)) (init, 0) = .ok (starts, next) ∧
      starts.length = sizes.length ∧
      ∀ d < sizes.length, valueAt starts d = countBelow degs d := by
  have key := foldlM_range_inv (fun (acc : List Nat × Nat) i => do
          let starts ← writeAt acc.1 i acc.2
          let sz ← readAt sizes i
          pure (starts, acc.2 + sz))
    (fun i acc => acc.1.length = sizes.length ∧ acc.2 = countBelow degs i ∧
      ∀ d < i, valueAt acc.1 d = countBelow degs d)
    sizes.length (init, 0) ⟨hl, by simp [countBelow], by simp⟩ (by
      intro i acc hi ⟨h1, h2, h3⟩
      have hl1 : i < acc.1.length := by rw [h1]; exact hi
      refine ⟨(acc.1.set i acc.2, acc.2 + valueAt sizes i), ?_, by simp [h1], ?_, ?_⟩
      · simp only [readAt_ok hi, writeAt_ok _ hl1, bind, Except.bind, pure, Except.pure]
      · simp only []
        rw [countBelow_succ, h2, hs]
      · intro d hd
        rw [valueAt_set _ _ hl1]
        by_cases e : d = i
        · rw [if_pos e, h2, e]
        · rw [if_neg e]; exact h3 d (by omega))
  obtain ⟨⟨starts, next⟩, e1, e2, _, e4⟩ := key
  exact ⟨starts, next, e1, e2, e4⟩

/-- The placement loop of the bin-sort. -/
theorem binSortLoop_spec (degs : List Nat) (dmax : Nat)
    (hd : ∀ v < degs.length, valueAt degs v ≤ dmax) (bs sv0 pos0 : List Nat)
    (hbl : bs.length = dmax + 1) (hbs : ∀ d ≤ dmax, valueAt bs d = countBelow degs d)
    (hsl : sv0.length = degs.length) (hpl : pos0.length = degs.length) :
    ∃ off sv pos, (List.range degs.length).foldlM
        (fun (acc : List Nat × List Nat × List Nat) v => do
          let d ← readAt degs v
          let p ← readAt acc.1 d
          let offsets ← writeAt acc.1 d (p + 1)
          let positions ← writeAt acc.2.2 v p
          let pv ← readAt positions v
          let sorted ← writeAt acc.2.1 pv v
          pure (offsets, sorted, positions)) (bs, sv0, pos0) = .ok (off, sv, pos) ∧
      sv.length = degs.length ∧ pos.length = degs.length ∧
      (∀ v < degs.length, valueAt pos v = binSortPosition degs v) ∧
      (∀ v < degs.length, valueAt sv (binSortPosition degs v) = v) := by
  have key := foldlM_range_inv
    (fun (acc : List Nat × List Nat × List Nat) v => do
          let d ← readAt degs v
          let p ← readAt acc.1 d
          let offsets ← writeAt acc.1 d (p + 1)
          let positions ← writeAt acc.2.2 v p
          let pv ← readAt positions v
          let sorted ← writeAt acc.2.1 pv v
          pure (offsets, sorted, positions))
    (fun i acc => acc.1.length = dmax + 1 ∧ acc.2.1.length = degs.length ∧
      acc.2.2.length = degs.length ∧
      (∀ d ≤ dmax, valueAt acc.1 d = countBelow degs d + (degs.take i).count d) ∧
      (∀ v < i, valueAt acc.2.2 v = binSortPosition degs v) ∧
      (∀ v < i, valueAt acc.2.1 (binSortPosition degs v) = v))
    degs.length (bs, sv0, pos0)
    ⟨hbl, hsl, hpl, fun d hd' => by simp [hbs d hd'], by simp, by simp⟩ (by
      intro i acc hi ⟨h1, h2, h3, h4, h5, h6⟩
      have hdi := hd i hi
      have l1 : valueAt degs i < acc.1.length := by rw [h1]; omega
      have l2 : i < acc.2.2.length := by rw [h3]; exact hi
      have hp : valueAt acc.1 (valueAt degs i) = binSortPosition degs i := by
        rw [h4 _ hdi]; rfl
      have l3 : i < (acc.2.2.set i (valueAt acc.1 (valueAt degs i))).length := by
        rw [List.length_set]; exact l2
      have l4 : valueAt acc.1 (valueAt degs i) < acc.2.1.length := by
        rw [h2, hp]; exact binSortPosition_lt hi
      refine ⟨(acc.1.set (valueAt degs i) (valueAt acc.1 (valueAt degs i) + 1),
          acc.2.1.set (valueAt acc.1 (valueAt degs i)) i,
          acc.2.2.set i (valueAt acc.1 (valueAt degs i))), ?_, ?_⟩
      · simp only [readAt_ok hi, readAt_ok l1, writeAt_ok _ l1, writeAt_ok _ l2, readAt_ok l3,
          valueAt_set_self _ l2, writeAt_ok _ l4, bind, Except.bind, pure, Except.pure]
      · refine ⟨by simp [h1], by simp [h2], by simp [h3], ?_, ?_, ?_⟩
        · intro d hd'
          simp only []
          rw [valueAt_set _ _ l1, count_take_succ hi]
          by_cases e : d = valueAt degs i
          · rw [if_pos e, if_pos e.symm, h4 _ hdi, e]
            omega
          · have e' : ¬ valueAt degs i = d := fun h => e h.symm
            rw [if_neg e, if_neg e', h4 d hd']
            omega
        · intro v hv
          simp only []
          rw [valueAt_set _ _ l2]
          by_cases e : v = i
          · rw [if_pos e, hp, e]
          · rw [if_neg e]; exact h5 v (by omega)
        · intro v hv
          simp only []
          rw [valueAt_set _ _ l4, hp]
          by_cases e : v = i
          · rw [e, if_pos rfl]
          · have hvi : v < i := by omega
            rw [if_neg (binSortPosition_ne hvi hi)]
            exact h6 v hvi)
  obtain ⟨⟨off, sv, pos⟩, e1, _, e3, e4, _, e6, e7⟩ := key
  exact ⟨off, sv, pos, e1, e3, e4, e6, e7⟩

/-- The bin-sort succeeds and leaves consistent arrays whose degree entries are the
degrees of the graph and whose positions are the bin-sort positions. -/
theorem binSort_spec (g : Graph) (s : SortState) :
    ∃ arrays dmax, binSortVerticesByDegree g s = .ok arrays ∧
      ArraysOk g.numVertices dmax arrays ∧
      (∀ v < g.numVertices, valueAt arrays.vertex_degrees v = (g.neighbors v).length) ∧
      (dmax = 0 ∨ ∃ v < g.numVertices, valueAt arrays.vertex_degrees v = dmax) ∧
      (∀ d ≤ dmax, valueAt arrays.bin_starts d = countBelow arrays.vertex_degrees d) ∧
      (∀ v < g.numVertices,
        valueAt arrays.vertex_positions v = binSortPosition arrays.vertex_degrees v) := by
  obtain ⟨degs, dmax, hE1, hlen, hdeg, hle, hmax⟩ := getVertexDegrees_spec g s.vertex_degrees
  have hmem : ∀ d ∈ degs, d ≤ dmax := by
    intro d hd
    obtain ⟨i, hi, e⟩ := List.mem_iff_getElem.1 hd
    have := hle i (by rw [← hlen]; exact hi)
    rw [valueAt_eq_getElem hi, e] at this
    exact this
  obtain ⟨sizes, hE2, hsl, hsizes⟩ := binSizes_spec degs dmax hmem
  obtain ⟨starts, next, hE3, hstl, hstarts⟩ := binStarts_spec degs sizes
    (resize s.bin_starts (dmax + 1)) (by rw [length_resize, hsl]) hsizes
  obtain ⟨off, sv, pos, hE4, hsvl, hposl, hpos, hsv⟩ := binSortLoop_spec degs dmax
    (fun v hv => hle v (by rw [← hlen]; exact hv)) starts
    (resize s.sorted_vertices g.numVertices) (resize s.vertex_positions g.numVertices)
    (by rw [hstl, hsl]) (fun d hd => hstarts d (by rw [hsl]; omega))
    (by rw [length_resize, hlen]) (by rw [length_resize, hlen])
  rw [hlen] at hE4
  refine ⟨⟨starts, sv, pos, degs⟩, dmax, ?_, ?_, hdeg, hmax,
    fun d hd => hstarts d (by rw [hsl]; omega), fun v hv => hpos v (by rw [hlen]; exact hv)⟩
  · unfold binSortVerticesByDegree
    rw [hE1]
    simp only [bind, Except.bind] at hE2 hE3 hE4 ⊢
    rw [hE2]
    simp only []
    rw [hE3]
    simp only []
    rw [hE4]
    rfl
  · have hbin : ∀ v < g.numVertices, ∀ d ≤ dmax,
        (binSortPosition degs v < valueAt starts d ↔ valueAt degs v < d) := by
      intro v hv d hd
      rw [hstarts d (by rw [hsl]; omega)]
      constructor
      · intro h
        by_contra hc
        have h1 := countBelow_mono degs (show d ≤ valueAt degs v by omega)
        have h2 := binSortPosition_ge degs v
        omega
      · intro h
        have h1 := @binSortPosition_lt_next degs v (by rw [hlen]; exact hv)
        have h2 := countBelow_mono degs (show valueAt degs v + 1 ≤ d by omega)
        omega
    have hsurj : ∀ p < g.numVertices, ∃ v < g.numVertices,
        binSortPosition degs v = p ∧ valueAt sv p = v := by
      intro p hp
      obtain ⟨v, hv, e⟩ := binSortPosition_surj degs (p := p) (by rw [hlen]; exact hp)
      refine ⟨v, by rw [← hlen]; exact hv, e, ?_⟩
      rw [← e]; exact hsv v hv
    refine ⟨by simp only []; rw [hsvl, hlen], by simp only []; rw [hposl, hlen], hlen,
      by simp only []; rw [hstl, hsl], ?_, ?_, ?_, ?_, hle, ?_, ?_⟩
    · intro v hv
      simp only []
      rw [hpos v (by rw [hlen]; exact hv), ← hlen]
      exact binSortPosition_lt (by rw [hlen]; exact hv)
    · intro v hv
      simp only []
      rw [hpos v (by rw [hlen]; exact hv)]
      exact hsv v (by rw [hlen]; exact hv)
    · intro p hp
      obtain ⟨v, hv, _, e⟩ := hsurj p hp
      simp only []
      rw [e]; exact hv
    · intro p hp
      obtain ⟨v, hv, e1, e2⟩ := hsurj p hp
      simp only []
      rw [e2, hpos v (by rw [hlen]; exact hv), e1]
    · intro d hd p hp
      obtain ⟨v, hv, e1, e2⟩ := hsurj p hp
      simp only []
      rw [e2, ← e1]
      exact hbin v hv d hd
    · intro d hd
      simp only []
      rw [hstarts d (by rw [hsl]; omega), ← hlen]
      exact countBelow_le _ _

/-- The engine on a simple undirected graph: it returns, and the returned list is either
empty or a clique of at least `k` vertices, of a size no clique of the graph exceeds; it is
empty only if every clique has fewer than `k` vertices. -/
theorem findMaximumClique_spec (g : Graph) (hg : g.simpleUndirected) (k : Nat) (hk : 2 ≤ k) :
    ∃ r M, findMaximumClique g k = .ok r ∧ k - 1 ≤ M ∧
      ((r = [] ∧ M = k - 1) ∨ (g.isClique r ∧ r.length = M ∧ k ≤ M)) ∧
      ∀ K, g.isClique K → K ≠ [] → K.length ≤ M := by
  obtain ⟨arrays, dmax, hE, hok, hdeg, _, _, _⟩ := binSort_spec g ⟨[], [], [], []⟩
  have hinit : OuterInv g k dmax 0 (initialSearchState arrays k) := by
    refine ⟨hok, ?_, le_refl _, Or.inl ⟨rfl, rfl⟩, ?_⟩
    · intro u hu
      show _ ≤ valueAt arrays.vertex_degrees u
      rw [hdeg u hu]
      exact List.countP_le_length _
    · intro K _ ⟨w, _, hw⟩
      exact absurd hw (Nat.not_lt_zero _)
  obtain ⟨st, hloop, hfinal⟩ := foldlM_range_inv (outerIteration g)
    (fun i st => OuterInv g k dmax i st) g.numVertices (initialSearchState arrays k) hinit
    (fun i st hi hinv => outerIteration_spec hg hinv hi)
  refine ⟨st.maximum_clique, st.max_found_size, ?_, hfinal.bound, hfinal.best, ?_⟩
  · unfold findMaximumClique
    rw [if_pos hk, hE]
    simp only [bind, Except.bind]
    rw [hok.len_sv, hloop]
    rfl
  · intro K hK hne
    obtain ⟨w, hw⟩ := List.exists_mem_of_ne_nil K hne
    exact hfinal.complete K hK ⟨w, hw, hfinal.arrays.pos_lt w (hK.2 w hw).1⟩

theorem pushToBack_snoc {M : Type} (pre : List (List M)) (back : List M) (m : M) :
    pushToBack (pre ++ [back]) m = .ok (pre ++ [back ++ [m]]) := by
  simp [pushToBack]

/-- With every index in range the storing loop appends the indexed matches in order. -/
theorem storeClique_ok {M : Type} (ms : List M) :
    ∀ (c : List Nat) (pre : List (List M)) (back : List M), (∀ i ∈ c, i < ms.length) →
      storeClique ms c (pre ++ [back]) =
        (.ok (), pre ++ [back ++ c.filterMap (fun i => ms[i]?)]) := by
  intro c
  induction c with
  | nil => intro pre back _; simp [storeClique]
  | cons i rest ih =>
    intro pre back h
    have hi : i < ms.length := h i (by simp)
    have hr : readAt ms i = .ok ms[i] := by
      rw [readAt_eq_ok_iff]; exact List.getElem?_eq_getElem hi
    rw [storeClique, hr]
    simp only []
    rw [pushToBack_snoc]
    simp only []
    rw [ih pre (back ++ [ms[i]]) (fun j hj => h j (by simp [hj]))]
    simp [List.filterMap_cons, List.getElem?_eq_getElem hi]

/-- The storing loop never changes the number of clusters. -/
theorem storeClique_length {M : Type} (ms : List M) :
    ∀ (c : List Nat) (clusters : List (List M)),
      (storeClique ms c clusters).2.length = clusters.length := by
  intro c
  induction c with
  | nil => intro clusters; simp [storeClique]
  | cons i rest ih =>
    intro clusters
    rw [storeClique]
    cases hr : readAt ms i with
    | error e => simp
    | ok m =>
      simp only []
      cases hp : pushToBack clusters m with
      | error e => simp
      | ok clusters' =>
        simp only []
        rw [ih clusters']
        unfold pushToBack at hp
        cases hl : clusters.getLast? with
        | none => rw [hl] at hp; simp at hp
        | some back =>
          rw [hl] at hp
          simp only [Except.ok.injEq] at hp
          rw [← hp]
          have hne : clusters ≠ [] := by
            intro e; rw [e] at hl; simp at hl
          simp [List.length_dropLast]
          have := List.length_pos.2 hne
          omega

theorem filterMap_index_related {M : Type} (ms : List M) :
    ∀ (c : List Nat), (∀ i ∈ c, i < ms.length) →
      List.Forall₂ (fun i m => ms[i]? = some m) c (c.filterMap (fun i => ms[i]?)) := by
  intro c
  induction c with
  | nil => intro _; simp
  | cons i rest ih =>
    intro h
    have hi : i < ms.length := h i (by simp)
    rw [List.filterMap_cons]
    simp only [List.getElem?_eq_getElem hi]
    exact List.Forall₂.cons (List.getElem?_eq_getElem hi) (ih (fun j hj => h j (by simp [hj])))

theorem filterMap_index_range {M : Type} (ms : List M) :
    (List.range ms.length).filterMap (fun i => ms[i]?) = ms := by
  induction ms using List.reverseRecOn with
  | nil => simp
  | append_singleton l a ih =>
    rw [List.length_append, List.length_singleton, List.range_succ, List.filterMap_append]
    have h1 : (List.range l.length).filterMap (fun i => (l ++ [a])[i]?) =
        (List.range l.length).filterMap (fun i => l[i]?) := by
      apply List.filterMap_congr
      intro i hi
      rw [List.mem_range] at hi
      rw [List.getElem?_append_left hi]
    rw [h1, ih]
    simp

theorem set_append_replicate {α : Type} (A : List α) (u x : α) (n i : Nat)
    (hA : A.length = i) (h : i < n) :
    (A ++ List.replicate (n - i) u).set i x =
      (A ++ [x]) ++ List.replicate (n - (i + 1)) u := by
  subst hA
  have e : n - A.length = (n - (A.length + 1)) + 1 := by omega
  rw [e, List.replicate_succ, List.set_append_right _ _ (le_refl _)]
  simp

/-- A row of a matrix after `i` turns of the filling loop. -/
theorem fill_row {R D F : Type} (f : PairwiseMatch R F → D) (ms : List (PairwiseMatch R F))
    (u : D) (n i : Nat) (hi : i < n) (him : i < ms.length) :
    writeAt ((ms.take i).map f ++ List.replicate (n - i) u) i (f ms[i]) =
      .ok ((ms.take (i + 1)).map f ++ List.replicate (n - (i + 1)) u) := by
  have hl : ((ms.take i).map f).length = i := by
    rw [List.length_map, List.length_take]; omega
  have h1 : i < ((ms.take i).map f ++ List.replicate (n - i) u).length := by
    rw [List.length_append, hl, List.length_replicate]; omega
  rw [writeAt_ok _ h1]
  rw [set_append_replicate ((ms.take i).map f) u (f ms[i]) n i hl hi,
    List.take_succ, List.map_append]
  simp [List.getElem?_eq_getElem him]

/-- The matrices handed to the solver: one column per match among the first
`min (toUnsigned m) 8`, the model centroid in `source` and the scene centroid in `target`. -/
theorem solverInput_eq {R D F : Type} (toDouble : R → D) (uninit : D)
    (ms : List (PairwiseMatch R F)) :
    solverInput toDouble uninit ms =
      .ok (columnsOf toDouble
            ((ms.take (min (toUnsigned ms.length) 8)).map (fun m => m.centroids_.1)),
          columnsOf toDouble
            ((ms.take (min (toUnsigned ms.length) 8)).map (fun m => m.centroids_.2))) := by
  have hn : min (toUnsigned ms.length) 8 ≤ ms.length := by
    have : toUnsigned ms.length ≤ ms.length := Nat.mod_le _ _
    omega
  unfold solverInput
  simp only []
  generalize min (toUnsigned ms.length) 8 = n at hn ⊢
  have key := foldlM_range_inv (fillColumn toDouble ms)
    (fun i acc => acc =
      (⟨(ms.take i).map (fun m => toDouble m.centroids_.1.x) ++ List.replicate (n - i) uninit,
        (ms.take i).map (fun m => toDouble m.centroids_.1.y) ++ List.replicate (n - i) uninit,
        (ms.take i).map (fun m => toDouble m.centroids_.1.z) ++ List.replicate (n - i) uninit⟩,
       ⟨(ms.take i).map (fun m => toDouble m.centroids_.2.x) ++ List.replicate (n - i) uninit,
        (ms.take i).map (fun m => toDouble m.centroids_.2.y) ++ List.replicate (n - i) uninit,
        (ms.take i).map (fun m => toDouble m.centroids_.2.z) ++ List.replicate (n - i) uninit⟩))
    n (Matrix3X.create uninit n, Matrix3X.create uninit n) (by simp [Matrix3X.create]) (by
      intro i acc hi hacc
      subst hacc
      have him : i < ms.length := by omega
      have hr : readAt ms i = .ok ms[i] := by
        rw [readAt_eq_ok_iff]; exact List.getElem?_eq_getElem him
      refine ⟨_, ?_, rfl⟩
      unfold fillColumn
      simp only [hr, bind, Except.bind, pure, Except.pure]
      rw [fill_row (fun m => toDouble m.centroids_.1.x) ms uninit n i hi him]
      simp only []
      rw [fill_row (fun m => toDouble m.centroids_.1.y) ms uninit n i hi him]
      simp only []
      rw [fill_row (fun m => toDouble m.centroids_.1.z) ms uninit n i hi him]
      simp only []
      rw [fill_row (fun m => toDouble m.centroids_.2.x) ms uninit n i hi him]
      simp only []
      rw [fill_row (fun m => toDouble m.centroids_.2.y) ms uninit n i hi him]
      simp only []
      rw [fill_row (fun m => toDouble m.centroids_.2.z) ms uninit n i hi him])
  obtain ⟨acc, h1, h2⟩ := key
  rw [h1, h2]
  simp [columnsOf, List.map_map, Function.comp_def]

/-- C1. On a simple undirected graph and for `k ≥ 2`, `findMaximumClique` returns, and
when the returned list is not empty it is a clique of the graph that no clique of the graph
exceeds in length. -/
theorem findMaximumClique_maximum (g : Graph) (hg : g.simpleUndirected) (k : Nat)
    (hk : 2 ≤ k) :
    ∃ r, findMaximumClique g k = .ok r ∧
      (r ≠ [] → g.isClique r ∧ ∀ K, g.isClique K → K.length ≤ r.length) := by
  obtain ⟨r, M, hE, _, hbest, hcomp⟩ := findMaximumClique_spec g hg k hk
  refine ⟨r, hE, fun hne => ?_⟩
  rcases hbest with ⟨h, _⟩ | ⟨h1, h2, _⟩
  · exact absurd h hne
  · refine ⟨h1, fun K hK => ?_⟩
    by_cases hKn : K = []
    · subst hKn; simp
    · rw [h2]; exact hcomp K hK hKn

/-- Two disjoint triangles with `k = 3` give a list of length 3, and C1 applies. -/
theorem findMaximumClique_maximum_witness :
    twoTriangles.simpleUndirected ∧ findMaximumClique twoTriangles 3 = .ok [1, 2, 0] ∧
    ∃ r, findMaximumClique twoTriangles 3 = .ok r ∧
      (r ≠ [] → twoTriangles.isClique r ∧
        ∀ K, twoTriangles.isClique K → K.length ≤ r.length) :=
  ⟨by decide, by decide!, findMaximumClique_maximum twoTriangles (by decide) 3 (by decide)⟩

/-- C2. On a simple undirected graph and for `k ≥ 2`, the list `findMaximumClique` returns
is a clique: its entries are pairwise distinct vertices of the graph and every two of them
are joined by an edge. -/
theorem findMaximumClique_isClique (g : Graph) (hg : g.simpleUndirected) (k : Nat)
    (hk : 2 ≤ k) :
    ∃ r, findMaximumClique g k = .ok r ∧ r.Nodup ∧ (∀ u ∈ r, u < g.numVertices) ∧
      ∀ u ∈ r, ∀ v ∈ r, u ≠ v → v ∈ g.neighbors u ∧ u ∈ g.neighbors v := by
  obtain ⟨r, M, hE, _, hbest, _⟩ := findMaximumClique_spec g hg k hk
  refine ⟨r, hE, ?_⟩
  rcases hbest with ⟨h, _⟩ | ⟨h1, _, _⟩
  · subst h; simp
  · exact ⟨h1.1, fun u hu => (h1.2 u hu).1,
      fun u hu v hv hne => ⟨(h1.2 u hu).2 v hv hne, (h1.2 v hv).2 u hu (fun e => hne e.symm)⟩⟩

/-- C2 at the graph of Scenario A with `k = 3`. -/
theorem findMaximumClique_isClique_witness :
    completeFour.simpleUndirected ∧ findMaximumClique completeFour 3 = .ok [1, 2, 3, 0] ∧
    ∃ r, findMaximumClique completeFour 3 = .ok r ∧ r.Nodup ∧
      (∀ u ∈ r, u < completeFour.numVertices) ∧
      ∀ u ∈ r, ∀ v ∈ r, u ≠ v → v ∈ completeFour.neighbors u ∧ u ∈ completeFour.neighbors v :=
  ⟨by decide, by decide!, findMaximumClique_isClique completeFour (by decide) 3 (by decide)⟩

/-- The search once the bin-sort has handed control back: on a simple undirected graph and
for `k ≥ 2` the list it ends with is empty exactly when no clique of the graph has `k` or
more vertices; in particular it is empty on `k - 1` mutually adjacent vertices. -/
theorem findMaximumClique_empty_iff (g : Graph) (hg : g.simpleUndirected) (k : Nat)
    (hk : 2 ≤ k) :
    ∃ r, findMaximumClique g k = .ok r ∧
      (r = [] ↔ ∀ K, g.isClique K → K.length < k) ∧
      (g.isComplete → g.numVertices = k - 1 → r = []) := by
  obtain ⟨r, M, hE, _, hbest, hcomp⟩ := findMaximumClique_spec g hg k hk
  have hiff : r = [] ↔ ∀ K, g.isClique K → K.length < k := by
    constructor
    · intro hr K hK
      rcases hbest with ⟨_, hM⟩ | ⟨_, h2, h3⟩
      · by_cases hKn : K = []
        · subst hKn; simp; omega
        · have := hcomp K hK hKn
          omega
      · subst hr
        simp at h2
        omega
    · intro hall
      rcases hbest with ⟨h, _⟩ | ⟨h1, h2, h3⟩
      · exact h
      · have := hall r h1
        omega
  refine ⟨r, hE, hiff, ?_⟩
  intro _ hn
  rw [hiff]
  intro K hK
  have hsub : K.Subperm (List.range g.numVertices) :=
    List.Nodup.subperm hK.1 (fun x hx => List.mem_range.2 (hK.2 x hx).1)
  have := hsub.length_le
  rw [List.length_range] at this
  omega

/-- Three mutually adjacent vertices with `k = 4` give the empty list (Scenario C). -/
theorem findMaximumClique_empty_iff_witness :
    triangle.simpleUndirected ∧ triangle.isComplete ∧ triangle.numVertices = 4 - 1 ∧
    findMaximumClique triangle 4 = .ok [] ∧
    ∃ r, findMaximumClique triangle 4 = .ok r ∧
      (r = [] ↔ ∀ K, triangle.isClique K → K.length < 4) ∧
      (triangle.isComplete → triangle.numVertices = 4 - 1 → r = []) :=
  ⟨by decide, by decide, by decide, by decide!,
    findMaximumClique_empty_iff triangle (by decide) 4 (by decide)⟩

/-- C4. On a simple undirected graph and for `k ≥ 2`, the list `findMaximumClique` returns
has length 0 or at least `k`. -/
theorem findMaximumClique_length (g : Graph) (hg : g.simpleUndirected) (k : Nat)
    (hk : 2 ≤ k) :
    ∃ r, findMaximumClique g k = .ok r ∧ (r.length = 0 ∨ k ≤ r.length) := by
  obtain ⟨r, M, hE, _, hbest, _⟩ := findMaximumClique_spec g hg k hk
  refine ⟨r, hE, ?_⟩
  rcases hbest with ⟨h, _⟩ | ⟨_, h2, h3⟩
  · exact Or.inl (by rw [h]; rfl)
  · exact Or.inr (by omega)

/-- C4 at two disjoint triangles, with `k = 3` (length 3) and `k = 4` (length 0). -/
theorem findMaximumClique_length_witness :
    twoTriangles.simpleUndirected ∧ findMaximumClique twoTriangles 4 = .ok [] ∧
    ∃ r, findMaximumClique twoTriangles 3 = .ok r ∧ (r.length = 0 ∨ 3 ≤ r.length) :=
  ⟨by decide, by decide!, findMaximumClique_length twoTriangles (by decide) 3 (by decide)⟩

/-- The initial check and the search behind it: `findMaximumClique` fails its initial check
for every graph when `min_clique_size < 2`, also for a graph on which the search itself
would fail; for `min_clique_size ≥ 2` on a simple undirected graph the search, once the
bin-sort has handed control back, ends with a list. -/
theorem findMaximumClique_check :
    (∀ (g : Graph) (k : Nat), k < 2 → findMaximumClique g k = .error .checkFailed) ∧
    (∀ (g : Graph) (k : Nat), g.simpleUndirected → 2 ≤ k →
      ∃ r, findMaximumClique g k = .ok r) := by
  constructor
  · intro g k hk
    unfold findMaximumClique
    rw [if_neg (by omega)]
  · intro g k hg hk
    obtain ⟨r, _, hE, _⟩ := findMaximumClique_spec g hg k hk
    exact ⟨r, hE⟩

/-- Concrete calls: sizes 0 and 1 are rejected before the search reaches the dangling edge
that stops it for size 2, and the search for size 2 on a triangle ends with a list. -/
theorem findMaximumClique_check_witness :
    findMaximumClique danglingEdge 0 = .error .checkFailed ∧
    findMaximumClique danglingEdge 1 = .error .checkFailed ∧
    findMaximumClique danglingEdge 2 = .error .outOfRange ∧
    findMaximumClique triangle 2 = .ok [1, 2, 0] ∧
    ∃ r, findMaximumClique triangle 2 = .ok r :=
  ⟨findMaximumClique_check.1 danglingEdge 0 (by decide),
    findMaximumClique_check.1 danglingEdge 1 (by decide), by decide!, by decide!,
    findMaximumClique_check.2 triangle 2 (by decide) (by decide)⟩

/-- What `recognize` does once the builder has returned a graph and the engine a non-empty
clique with every index in range. -/
theorem recognize_found {R D F U T C : Type} (env : Collaborators R D F U T C)
    (self : Recognizer R F T C) (ms : List (PairwiseMatch R F)) (g : Graph) (cache : C)
    (c : List Nat) (hms : ms ≠ [])
    (hb : env.buildConsistencyGraph self.cache ms = .ok (g, cache))
    (hc : findMaximumClique g self.params_.min_cluster_size = .ok c) (hne : c ≠ [])
    (hlt : ∀ i ∈ c, i < ms.length) :
    (recognize env self ms).2.candidate_matches_ = [c.filterMap (fun i => ms[i]?)] ∧
    (recognize env self ms).2.cache = cache ∧
    ((recognize env self ms).1 = .ok () →
      (recognize env self ms).2.candidate_transfomations_.length = 1) ∧
    ((recognize env self ms).1 ≠ .ok () →
      (recognize env self ms).2.candidate_transfomations_ = []) := by
  have h1 : ms.isEmpty = false := by
    cases ms with
    | nil => exact absurd rfl hms
    | cons a t => rfl
  have h2 : c.isEmpty = false := by
    cases c with
    | nil => exact absurd rfl hne
    | cons a t => rfl
  have hstore := storeClique_ok ms c [] [] hlt
  simp only [List.nil_append] at hstore
  unfold recognize
  simp only [h1, hb, hc, h2, Bool.false_eq_true, if_false, List.nil_append]
  rw [hstore]
  simp only [List.getLast?_singleton]
  cases estimateRigidTransformation env (c.filterMap (fun i => ms[i]?)) with
  | error e => simp
  | ok t => simp

/-- The vertices of a non-empty list returned by the engine are vertices of the graph. -/
theorem findMaximumClique_lt {g : Graph} (hg : g.simpleUndirected) {k : Nat} {c : List Nat}
    (hc : findMaximumClique g k = .ok c) : 2 ≤ k ∧ ∀ i ∈ c, i < g.numVertices := by
  have hk : 2 ≤ k := by
    by_contra hlt
    unfold findMaximumClique at hc
    rw [if_neg hlt] at hc
    exact absurd hc (by simp)
  obtain ⟨r, _, hE, _, hbest, _⟩ := findMaximumClique_spec g hg k hk
  have hr : r = c := by
    rw [hE] at hc
    exact Except.ok.inj hc
  subst hr
  refine ⟨hk, ?_⟩
  rcases hbest with ⟨h, _⟩ | ⟨h1, _, _⟩
  · subst h; simp
  · exact fun i hi => (h1.2 i hi).1

/-- C6. For a non-empty match list, a consistency graph (simple and undirected) on as many
vertices as there are matches, and a non-empty clique `c` returned by the engine,
`recognize` stores exactly one cluster, of the length of `c`, whose `i`-th element is
`predicted_matches[c[i]]`, whatever the solver does afterwards. -/
theorem recognize_materializes_clique {R D F U T C : Type}
    (env : Collaborators R D F U T C) (self : Recognizer R F T C)
    (ms : List (PairwiseMatch R F)) (g : Graph) (cache : C) (clique : List Nat) (hms : ms ≠ [])
    (hb : env.buildConsistencyGraph self.cache ms = .ok (g, cache))
    (hn : g.numVertices = ms.length) (hg : g.simpleUndirected)
    (hc : findMaximumClique g self.params_.min_cluster_size = .ok clique) (hne : clique ≠ []) :
    ∃ cluster, (recognize env self ms).2.candidate_matches_ = [cluster] ∧
      cluster.length = clique.length ∧
      ∀ i < clique.length, ∃ j m, clique[i]? = some j ∧ ms[j]? = some m ∧ cluster[i]? = some m := by
  have hlt : ∀ i ∈ clique, i < ms.length := by
    rw [← hn]; exact (findMaximumClique_lt hg hc).2
  obtain ⟨h1, _⟩ := recognize_found env self ms g cache clique hms hb hc hne hlt
  have hrel := filterMap_index_related ms clique hlt
  refine ⟨_, h1, hrel.length_eq.symm, ?_⟩
  intro i hi
  have hi2 : i < (clique.filterMap (fun i => ms[i]?)).length := by
    rw [← hrel.length_eq]; exact hi
  have := List.Forall₂.get hrel hi hi2
  simp only [List.get_eq_getElem] at this
  exact ⟨clique[i], (clique.filterMap (fun i => ms[i]?))[i], List.getElem?_eq_getElem hi, this,
    List.getElem?_eq_getElem hi2⟩

/-- Scenario A: the four matches, their complete consistency graph and
`min_cluster_size = 3`; the cluster is the clique `[1, 2, 3, 0]` materialised in order. -/
theorem recognize_materializes_clique_witness :
    (recognize (recordingEnv completeFour) (freshRecognizer 3) scenarioA).2.candidate_matches_
      = [[matchAt 2 1 0 0, matchAt 3 0 1 0, matchAt 4 0 0 1, matchAt 1 0 0 0]] ∧
    ∃ cluster,
      (recognize (recordingEnv completeFour) (freshRecognizer 3) scenarioA).2.candidate_matches_
        = [cluster] ∧
      cluster.length = [1, 2, 3, 0].length ∧
      ∀ i < [1, 2, 3, 0].length, ∃ j m,
        [1, 2, 3, 0][i]? = some j ∧ scenarioA[j]? = some m ∧ cluster[i]? = some m :=
  ⟨by decide!,
    recognize_materializes_clique (recordingEnv completeFour) (freshRecognizer 3) scenarioA
      completeFour 1 [1, 2, 3, 0] (by decide) rfl (by decide) (by decide) (by decide!)
      (by decide)⟩

/-- C8. Called with an empty match list, `recognize` returns normally and leaves both
candidate lists empty whatever they held, and leaves the cache as it was; this holds for
every builder and solver, also for ones that fail whenever they are called, and for every
`min_cluster_size`, also below 2 where the engine fails its check: neither is invoked. -/
theorem recognize_empty {R D F U T C : Type} (env : Collaborators R D F U T C)
    (self : Recognizer R F T C) :
    recognize env self [] =
      (.ok (), { self with candidate_transfomations_ := [], candidate_matches_ := [] }) := by
  unfold recognize
  simp

/-- C7. After a `recognize` call that returns normally (the solver, if it was called,
returned normally and nothing else stopped the call), the candidate clusters and the
candidate transformations have the same length, that length is 0 or 1, and it is 1 exactly
when the match list is not empty and the engine returned a non-empty clique. -/
theorem recognize_candidate_lengths {R D F U T C : Type}
    (env : Collaborators R D F U T C) (self : Recognizer R F T C)
    (ms : List (PairwiseMatch R F)) (h : (recognize env self ms).1 = .ok ()) :
    (recognize env self ms).2.candidate_matches_.length =
      (recognize env self ms).2.candidate_transfomations_.length ∧
    (recognize env self ms).2.candidate_matches_.length ≤ 1 ∧
    ((recognize env self ms).2.candidate_matches_.length = 1 ↔
      ms ≠ [] ∧ ∃ g cache clique, env.buildConsistencyGraph self.cache ms = .ok (g, cache) ∧
        findMaximumClique g self.params_.min_cluster_size = .ok clique ∧ clique ≠ []) := by
  cases ms with
  | nil =>
    unfold recognize
    simp
  | cons a t =>
    unfold recognize at h ⊢
    simp only [List.isEmpty_cons, Bool.false_eq_true, if_false] at h ⊢
    cases hb : env.buildConsistencyGraph self.cache (a :: t) with
    | error e => rw [hb] at h; simp at h
    | ok gc =>
      obtain ⟨g, cache⟩ := gc
      rw [hb] at h
      simp only [] at h ⊢
      cases hc : findMaximumClique g self.params_.min_cluster_size with
      | error e => rw [hc] at h; simp at h
      | ok clique =>
        rw [hc] at h
        simp only [] at h ⊢
        cases clique with
        | nil =>
          simp
          intro x hx
          rw [hc] at hx
          exact (Except.ok.inj hx).symm
        | cons v rest =>
          simp only [List.isEmpty_cons, Bool.false_eq_true, if_false, List.nil_append] at h ⊢
          have hlen := storeClique_length (a :: t) (v :: rest) [[]]
          cases hs : (storeClique (a :: t) (v :: rest) [[]]).1 with
          | error e => rw [hs] at h; simp at h
          | ok u =>
            rw [hs] at h
            simp only [] at h ⊢
            cases hl : (storeClique (a :: t) (v :: rest) [[]]).2.getLast? with
            | none => rw [hl] at h; simp at h
            | some back =>
              rw [hl] at h
              simp only [] at h ⊢
              cases he : estimateRigidTransformation env back with
              | error e => rw [he] at h; simp at h
              | ok tr =>
                simp only [hlen]
                simp
                exact ⟨v :: rest, hc, by simp⟩

/-- Scenario A returns normally with one cluster and one transformation. -/
theorem recognize_candidate_lengths_witness :
    (recognize (recordingEnv completeFour) (freshRecognizer 3) scenarioA).1 = .ok () ∧
    (recognize (recordingEnv completeFour) (freshRecognizer 3)
      scenarioA).2.candidate_matches_.length = 1 ∧
    (recognize (recordingEnv completeFour) (freshRecognizer 3)
      scenarioA).2.candidate_transfomations_.length = 1 ∧
    (recognize (recordingEnv completeFour) (freshRecognizer 3)
      scenarioA).2.candidate_matches_.length ≤ 1 :=
  ⟨by decide!, by decide!, by decide!,
    (recognize_candidate_lengths (recordingEnv completeFour) (freshRecognizer 3) scenarioA
      (by decide!)).2.1⟩

/-- An empty match list after a call that left one candidate in each list, with a builder
and a solver that fail whenever called and `min_cluster_size = 0`. -/
theorem recognize_empty_witness :
    (recognize failingEnv
      { freshRecognizer 0 with
        candidate_matches_ := [scenarioA], candidate_transfomations_ := [(⟨[], [], []⟩, ⟨[], [], []⟩)] }
      []) = (.ok (), freshRecognizer 0) :=
  recognize_empty failingEnv _

/-- The solver input in general. The size of the cluster is cast to `unsigned` before the
minimum with eight is taken, so the matrices hold the centroids of the first
`min (toUnsigned m) 8` matches of the cluster, in order. -/
theorem estimateRigidTransformation_unsigned {R D F U T C : Type}
    (env : Collaborators R D F U T C) (ms : List (PairwiseMatch R F)) :
    estimateRigidTransformation env ms =
      Except.map env.castFloat (env.umeyama
        (columnsOf env.toDouble
          ((ms.take (min (toUnsigned ms.length) 8)).map (fun m => m.centroids_.1)))
        (columnsOf env.toDouble
          ((ms.take (min (toUnsigned ms.length) 8)).map (fun m => m.centroids_.2)))
        false) := by
  unfold estimateRigidTransformation
  rw [solverInput_eq]
  simp only [bind, Except.bind, pure, Except.pure, Except.map]

/-- C9. For every cluster of `m` matches, `estimateRigidTransformation` hands the solver a
source and a target matrix of exactly `min m 8` columns each, never more than eight: column
`i` holds the model centroid of the `i`-th match of the cluster in `source` and its scene
centroid in `target`, so the columns are the first eight matches in the order of the
cluster. The size is read through `static_cast<unsigned>`, which leaves it as it is for
every cluster a run can hold (`m < 2 ^ 32`: the cluster is a clique of a graph in memory). -/
theorem estimateRigidTransformation_first_eight {R D F U T C : Type}
    (env : Collaborators R D F U T C) (ms : List (PairwiseMatch R F))
    (hm : ms.length < 2 ^ 32) :
    estimateRigidTransformation env ms =
      Except.map env.castFloat (env.umeyama
        (columnsOf env.toDouble ((ms.take (min ms.length 8)).map (fun m => m.centroids_.1)))
        (columnsOf env.toDouble ((ms.take (min ms.length 8)).map (fun m => m.centroids_.2)))
        false) ∧
    (columnsOf env.toDouble
      ((ms.take (min ms.length 8)).map (fun m => m.centroids_.1))).cols = min ms.length 8 ∧
    (columnsOf env.toDouble
      ((ms.take (min ms.length 8)).map (fun m => m.centroids_.2))).cols = min ms.length 8 ∧
    min ms.length 8 ≤ 8 ∧
    ∀ i, i < min ms.length 8 →
      (ms.take (min ms.length 8))[i]? = ms[i]? ∧ ∃ m, ms[i]? = some m ∧
      (columnsOf env.toDouble
          ((ms.take (min ms.length 8)).map (fun m => m.centroids_.1))).row0[i]? =
        some (env.toDouble m.centroids_.1.x) ∧
      (columnsOf env.toDouble
          ((ms.take (min ms.length 8)).map (fun m => m.centroids_.1))).row1[i]? =
        some (env.toDouble m.centroids_.1.y) ∧
      (columnsOf env.toDouble
          ((ms.take (min ms.length 8)).map (fun m => m.centroids_.1))).row2[i]? =
        some (env.toDouble m.centroids_.1.z) ∧
      (columnsOf env.toDouble
          ((ms.take (min ms.length 8)).map (fun m => m.centroids_.2))).row0[i]? =
        some (env.toDouble m.centroids_.2.x) ∧
      (columnsOf env.toDouble
          ((ms.take (min ms.length 8)).map (fun m => m.centroids_.2))).row1[i]? =
        some (env.toDouble m.centroids_.2.y) ∧
      (columnsOf env.toDouble
          ((ms.take (min ms.length 8)).map (fun m => m.centroids_.2))).row2[i]? =
        some (env.toDouble m.centroids_.2.z) := by
  have hu : toUnsigned ms.length = ms.length := by
    unfold toUnsigned
    exact Nat.mod_eq_of_lt hm
  have hgen := estimateRigidTransformation_unsigned env ms
  rw [hu] at hgen
  refine ⟨hgen, ?_, ?_, Nat.min_le_right _ _, ?_⟩
  · simp [columnsOf, Matrix3X.cols]
  · simp [columnsOf, Matrix3X.cols]
  · intro i hi
    have hil : i < ms.length := lt_of_lt_of_le hi (Nat.min_le_left _ _)
    have htake : (ms.take (min ms.length 8))[i]? = ms[i]? := by
      rw [List.getElem?_take]
      simp [hi]
    have key : ∀ {β : Type} (f : PairwiseMatch R F → β),
        ((ms.take (min ms.length 8)).map f)[i]? = some (f ms[i]) := by
      intro β f
      rw [List.getElem?_map, htake, List.getElem?_eq_getElem hil]
      rfl
    refine ⟨htake, ms[i], List.getElem?_eq_getElem hil, ?_⟩
    simp only [columnsOf, List.map_map]
    exact ⟨key _, key _, key _, key _, key _, key _⟩

/-- Nine matches: the solver is handed the first eight, in order. -/
theorem estimateRigidTransformation_first_eight_witness :
    nineMatches.length < 2 ^ 32 ∧
    estimateRigidTransformation (recordingEnv triangle) nineMatches =
      .ok (⟨[0, 1, 2, 3, 4, 5, 6, 7], [0, 0, 0, 0, 0, 0, 0, 0], [0, 0, 0, 0, 0, 0, 0, 0]⟩,
        ⟨[0, 1, 2, 3, 4, 5, 6, 7], [0, 0, 0, 0, 0, 0, 0, 0], [0, 0, 0, 0, 0, 0, 0, 0]⟩) ∧
    (columnsOf (recordingEnv triangle).toDouble
      ((nineMatches.take (min nineMatches.length 8)).map (fun m => m.centroids_.1))).cols =
        min nineMatches.length 8 ∧
    min nineMatches.length 8 = 8 :=
  ⟨by decide, by decide!,
    (estimateRigidTransformation_first_eight (recordingEnv triangle) nineMatches
      (by decide)).2.1, by decide⟩

/-- On a complete simple graph with at least `k ≥ 2` vertices the engine returns every
vertex exactly once. -/
theorem findMaximumClique_complete {g : Graph} (hg : g.simpleUndirected)
    (hcomp : g.isComplete) {k : Nat} (hk : 2 ≤ k) (hkn : k ≤ g.numVertices) :
    ∃ clique, findMaximumClique g k = .ok clique ∧ clique ≠ [] ∧
      clique.Perm (List.range g.numVertices) ∧ ∀ i ∈ clique, i < g.numVertices := by
  obtain ⟨r, M, hE, _, hbest, hcompl⟩ := findMaximumClique_spec g hg k hk
  have hall : g.isClique (List.range g.numVertices) := by
    refine ⟨List.nodup_range _, fun u hu => ⟨List.mem_range.1 hu, fun v hv hne => ?_⟩⟩
    exact hcomp u (List.mem_range.1 hu) v (List.mem_range.1 hv) hne
  have hne : List.range g.numVertices ≠ [] := by
    intro e
    have := congrArg List.length e
    simp at this
    omega
  have hM := hcompl _ hall hne
  rw [List.length_range] at hM
  rcases hbest with ⟨_, h⟩ | ⟨h1, h2, _⟩
  · omega
  · have hsub : r.Subperm (List.range g.numVertices) :=
      List.Nodup.subperm h1.1 (fun x hx => List.mem_range.2 (h1.2 x hx).1)
    refine ⟨r, hE, ?_, hsub.perm_of_length_le (by rw [List.length_range]; omega),
      fun i hi => (h1.2 i hi).1⟩
    intro e
    rw [e] at h2
    simp at h2
    omega

/-- The search once the bin-sort has handed control back, on mutually consistent matches:
when the consistency graph of `n` matches is complete and `2 ≤ min_cluster_size ≤ n`, it
ends with a list of length `n` holding every vertex of `[0, n)` exactly once, and
`recognize` leaves a single cluster that holds every match exactly once, of size `n`. -/
theorem recognize_all_consistent {R D F U T C : Type}
    (env : Collaborators R D F U T C) (self : Recognizer R F T C)
    (ms : List (PairwiseMatch R F)) (g : Graph) (cache : C)
    (hb : env.buildConsistencyGraph self.cache ms = .ok (g, cache))
    (hn : g.numVertices = ms.length) (hg : g.simpleUndirected) (hcomp : g.isComplete)
    (hk : 2 ≤ self.params_.min_cluster_size) (hkn : self.params_.min_cluster_size ≤ ms.length) :
    ∃ clique, findMaximumClique g self.params_.min_cluster_size = .ok clique ∧
      clique.length = ms.length ∧ clique.Perm (List.range ms.length) ∧
      ∃ cluster, (recognize env self ms).2.candidate_matches_ = [cluster] ∧
        cluster.Perm ms ∧ cluster.length = ms.length := by
  obtain ⟨clique, hE, hne, hperm, hlt⟩ :=
    findMaximumClique_complete hg hcomp hk (by rw [hn]; exact hkn)
  rw [hn] at hperm hlt
  have hms : ms ≠ [] := by
    intro e
    rw [e] at hkn
    simp at hkn
    omega
  obtain ⟨h1, _⟩ := recognize_found env self ms g cache clique hms hb hE hne hlt
  have hcl : (clique.filterMap (fun i => ms[i]?)).Perm ms := by
    have := hperm.filterMap (fun i => ms[i]?)
    rw [filterMap_index_range] at this
    exact this
  refine ⟨clique, hE, ?_, hperm, _, h1, hcl, hcl.length_eq⟩
  rw [hperm.length_eq, List.length_range]

/-- Scenario A: four mutually consistent matches with `min_cluster_size = 3` give the
clique `[1, 2, 3, 0]` and one cluster of the four matches. -/
theorem recognize_all_consistent_witness :
    findMaximumClique completeFour 3 = .ok [1, 2, 3, 0] ∧
    (recognize (recordingEnv completeFour) (freshRecognizer 3) scenarioA).2.candidate_matches_
      = [[matchAt 2 1 0 0, matchAt 3 0 1 0, matchAt 4 0 0 1, matchAt 1 0 0 0]] ∧
    ∃ clique, findMaximumClique completeFour (freshRecognizer 3).params_.min_cluster_size
        = .ok clique ∧
      clique.length = scenarioA.length ∧ clique.Perm (List.range scenarioA.length) ∧
      ∃ cluster,
        (recognize (recordingEnv completeFour) (freshRecognizer 3)
          scenarioA).2.candidate_matches_ = [cluster] ∧
        cluster.Perm scenarioA ∧ cluster.length = scenarioA.length :=
  ⟨by decide!, by decide!,
    recognize_all_consistent (recordingEnv completeFour) (freshRecognizer 3) scenarioA
      completeFour 1 rfl (by decide) (by decide) (by decide) (by decide) (by decide)⟩

theorem foldl_max_ge (l : List Nat) (a : Nat) : a ≤ l.foldl max a := by
  induction l generalizing a with
  | nil => simp
  | cons x t ih =>
    rw [List.foldl_cons]
    exact le_trans (le_max_left a x) (ih _)

theorem foldl_max_mem_le (l : List Nat) (a : Nat) : ∀ x ∈ l, x ≤ l.foldl max a := by
  induction l generalizing a with
  | nil => simp
  | cons y t ih =>
    intro x hx
    rw [List.foldl_cons]
    rcases List.mem_cons.1 hx with h | h
    · subst h
      exact le_trans (le_max_right a x) (foldl_max_ge t _)
    · exact ih _ x h

theorem foldl_max_attained (l : List Nat) (a : Nat) : l.foldl max a = a ∨ l.foldl max a ∈ l := by
  induction l generalizing a with
  | nil => simp
  | cons y t ih =>
    rw [List.foldl_cons]
    rcases ih (max a y) with h | h
    · rw [h]
      rcases le_total a y with h1 | h1
      · rw [max_eq_right h1]; exact Or.inr (by simp)
      · rw [max_eq_left h1]; exact Or.inl rfl
    · exact Or.inr (List.mem_cons_of_mem _ h)

theorem neighbors_length {g : Graph} {v : Nat} (hv : v < g.numVertices) :
    valueAt (g.adj.map List.length) v = (g.neighbors v).length := by
  have hv' : v < g.adj.length := hv
  simp [valueAt, Graph.neighbors, List.getD_eq_getElem?_getD, hv']

theorem list_eq_of_valueAt {xs ys : List Nat} (hl : xs.length = ys.length)
    (h : ∀ i < xs.length, valueAt xs i = valueAt ys i) : xs = ys := by
  apply List.ext_getElem hl
  intro i h1 h2
  have := h i h1
  rw [valueAt_eq_getElem h1, valueAt_eq_getElem h2] at this
  exact this

/-- The maximum degree bounds every degree and is the degree of some vertex, or 0. -/
theorem maxDegree_spec (g : Graph) :
    (∀ v < g.numVertices, (g.neighbors v).length ≤ g.maxDegree) ∧
    (g.maxDegree = 0 ∨ ∃ v < g.numVertices, (g.neighbors v).length = g.maxDegree) := by
  constructor
  · intro v hv
    rw [← neighbors_length hv]
    have hv' : v < (g.adj.map List.length).length := by simpa using hv
    rw [valueAt_eq_getElem hv']
    exact foldl_max_mem_le _ 0 _ (List.getElem_mem _)
  · rcases foldl_max_attained (g.adj.map List.length) 0 with h | h
    · exact Or.inl h
    · right
      obtain ⟨i, hi, e⟩ := List.mem_iff_getElem.1 h
      have hi' : i < g.numVertices := by simpa using hi
      refine ⟨i, hi', ?_⟩
      rw [← neighbors_length hi', valueAt_eq_getElem hi, e]
      rfl

/-- The maximum degree is determined by its two properties. -/
theorem maxDegree_unique (g : Graph) {d : Nat}
    (h1 : ∀ v < g.numVertices, (g.neighbors v).length ≤ d)
    (h2 : d = 0 ∨ ∃ v < g.numVertices, (g.neighbors v).length = d) : d = g.maxDegree := by
  obtain ⟨m1, m2⟩ := maxDegree_spec g
  rcases h2 with h2 | ⟨v, hv, h2⟩
  · rcases m2 with m2 | ⟨w, hw, m2⟩
    · rw [h2, m2]
    · have := h1 w hw
      omega
  · have a := m1 v hv
    rcases m2 with m2 | ⟨w, hw, m2⟩
    · omega
    · have := h1 w hw
      omega

/-- The result of `getVertexDegreesAndGraphMaxDegree` in closed form. -/
theorem getVertexDegrees_eq (g : Graph) (old : List Nat) :
    getVertexDegreesAndGraphMaxDegree g old = .ok (g.adj.map List.length, g.maxDegree) := by
  obtain ⟨degs, dmax, hE, hlen, hdeg, hle, hmax⟩ := getVertexDegrees_spec g old
  have e1 : degs = g.adj.map List.length := by
    apply list_eq_of_valueAt
    · rw [hlen]; simp [Graph.numVertices]
    · intro i hi
      rw [hlen] at hi
      rw [hdeg i hi, neighbors_length hi]
  have e2 : dmax = g.maxDegree := by
    apply maxDegree_unique
    · intro v hv; rw [← hdeg v hv]; exact hle v hv
    · rcases hmax with h | ⟨v, hv, h⟩
      · exact Or.inl h
      · exact Or.inr ⟨v, hv, by rw [← hdeg v hv]; exact h⟩
  rw [hE, e1, e2]

/-- C11. Whatever `vertex_degrees` held before, `getVertexDegreesAndGraphMaxDegree` leaves
it with one entry per vertex, entry `v` being the number of out-edges of `v`, and returns
the maximum of these entries, which is 0 for a graph without vertices. -/
theorem getVertexDegreesAndGraphMaxDegree_spec (g : Graph) (old : List Nat) :
    ∃ degrees maximum_degree,
      getVertexDegreesAndGraphMaxDegree g old = .ok (degrees, maximum_degree) ∧
      degrees.length = g.numVertices ∧
      (∀ v < g.numVertices, valueAt degrees v = (g.neighbors v).length) ∧
      (∀ v < g.numVertices, valueAt degrees v ≤ maximum_degree) ∧
      (0 < g.numVertices → ∃ v < g.numVertices, valueAt degrees v = maximum_degree) ∧
      (g.numVertices = 0 → maximum_degree = 0) := by
  obtain ⟨degs, dmax, hE, hlen, hdeg, hle, hmax⟩ := getVertexDegrees_spec g old
  refine ⟨degs, dmax, hE, hlen, hdeg, hle, ?_, ?_⟩
  · intro hpos
    rcases hmax with h | h
    · refine ⟨0, hpos, ?_⟩
      have := hle 0 hpos
      omega
    · exact h
  · intro h0
    rcases hmax with h | ⟨v, hv, _⟩
    · exact h
    · omega

/-- The degrees of two disjoint triangles and of a graph without vertices, from vectors
that held other values. -/
theorem getVertexDegreesAndGraphMaxDegree_spec_witness :
    getVertexDegreesAndGraphMaxDegree twoTriangles [7, 7] = .ok ([2, 2, 2, 2, 2, 2], 2) ∧
    getVertexDegreesAndGraphMaxDegree ⟨[]⟩ [7, 7] = .ok ([], 0) ∧
    ∃ degrees maximum_degree,
      getVertexDegreesAndGraphMaxDegree twoTriangles [7, 7] = .ok (degrees, maximum_degree) ∧
      degrees.length = twoTriangles.numVertices :=
  ⟨by decide!, by decide!,
    (getVertexDegreesAndGraphMaxDegree_spec twoTriangles [7, 7]).imp fun _ h =>
      h.imp fun _ h => ⟨h.1, h.2.1⟩⟩

/-- The sorted vertices are a permutation of the vertices. -/
theorem ArraysOk.perm {n dmax : Nat} {s : SortState} (h : ArraysOk n dmax s) :
    s.sorted_vertices.Perm (List.range n) := by
  have hnd : s.sorted_vertices.Nodup := by
    rw [List.nodup_iff_injective_get]
    intro a b hab
    apply Fin.ext
    have ha : a.1 < n := by rw [← h.len_sv]; exact a.2
    have hb : b.1 < n := by rw [← h.len_sv]; exact b.2
    have e1 := h.pos_sv a.1 ha
    have e2 := h.pos_sv b.1 hb
    rw [valueAt_eq_getElem a.2] at e1
    rw [valueAt_eq_getElem b.2] at e2
    simp only [List.get_eq_getElem] at hab
    rw [hab] at e1
    omega
  have hsub : s.sorted_vertices.Subperm (List.range n) := by
    apply List.Nodup.subperm hnd
    intro x hx
    obtain ⟨i, hi, e⟩ := List.mem_iff_getElem.1 hx
    have := h.sv_lt i (by rw [← h.len_sv]; exact hi)
    rw [valueAt_eq_getElem hi, e] at this
    exact List.mem_range.2 this
  exact hsub.perm_of_length_le (by rw [List.length_range, h.len_sv])

theorem binSortPosition_lt_of_eq {degs : List Nat} {v w : Nat} (hvw : v < w)
    (hw : w < degs.length) (h : valueAt degs v = valueAt degs w) :
    binSortPosition degs v < binSortPosition degs w := by
  have := count_take_lt hvw (le_of_lt hw)
  unfold binSortPosition
  rw [← h]
  omega

/-- The bin-sort in terms of the graph: the degree entries are the degrees and the bound of
the arrays is the maximum degree. -/
theorem binSort_closed (g : Graph) (s : SortState) :
    ∃ arrays, binSortVerticesByDegree g s = .ok arrays ∧
      ArraysOk g.numVertices g.maxDegree arrays ∧
      arrays.vertex_degrees = g.adj.map List.length ∧
      (∀ d ≤ g.maxDegree, valueAt arrays.bin_starts d = countBelow arrays.vertex_degrees d) ∧
      (∀ v < g.numVertices,
        valueAt arrays.vertex_positions v = binSortPosition arrays.vertex_degrees v) := by
  obtain ⟨arrays, dmax, hE, hok, hdeg, hmax, hbs, hpos⟩ := binSort_spec g s
  have e2 : dmax = g.maxDegree := by
    apply maxDegree_unique
    · intro v hv; rw [← hdeg v hv]; exact hok.deg_le v hv
    · rcases hmax with h | ⟨v, hv, h⟩
      · exact Or.inl h
      · exact Or.inr ⟨v, hv, by rw [← hdeg v hv]; exact h⟩
  subst e2
  refine ⟨arrays, hE, hok, ?_, hbs, hpos⟩
  apply list_eq_of_valueAt
  · rw [hok.len_deg]; simp [Graph.numVertices]
  · intro i hi
    rw [hok.len_deg] at hi
    rw [hdeg i hi, neighbors_length hi]

/-- The vectors at the closing brace of `binSortVerticesByDegree`. For every graph and
whatever the four vectors held, the body runs to its end and has then filled `bin_starts`
with `d_max + 1` entries, entry `d` the number of vertices of degree below `d`,
`sorted_vertices` with a permutation of the vertices in non-decreasing degree order,
vertices of equal degree in increasing index order, and `vertex_positions` with its
inverse. -/
theorem binSortVerticesByDegree_spec (g : Graph) (s : SortState) :
    ∃ arrays, binSortVerticesByDegree g s = .ok arrays ∧
      arrays.bin_starts.length = g.maxDegree + 1 ∧
      (∀ d ≤ g.maxDegree,
        valueAt arrays.bin_starts d = countBelow (g.adj.map List.length) d) ∧
      arrays.sorted_vertices.Perm (List.range g.numVertices) ∧
      (∀ p q, p < q → q < g.numVertices →
        (g.neighbors (valueAt arrays.sorted_vertices p)).length ≤
          (g.neighbors (valueAt arrays.sorted_vertices q)).length ∧
        ((g.neighbors (valueAt arrays.sorted_vertices p)).length =
            (g.neighbors (valueAt arrays.sorted_vertices q)).length →
          valueAt arrays.sorted_vertices p < valueAt arrays.sorted_vertices q)) ∧
      arrays.vertex_positions.length = g.numVertices ∧
      (∀ v < g.numVertices,
        valueAt arrays.sorted_vertices (valueAt arrays.vertex_positions v) = v) ∧
      (∀ p < g.numVertices,
        valueAt arrays.vertex_positions (valueAt arrays.sorted_vertices p) = p) := by
  obtain ⟨arrays, hE, hok, hdeg, hbs, hpos⟩ := binSort_closed g s
  refine ⟨arrays, hE, hok.len_bs, ?_, hok.perm, ?_, hok.len_pos, hok.sv_pos, hok.pos_sv⟩
  · intro d hd
    rw [hbs d hd, hdeg]
  · intro p q hpq hq
    have hp : p < g.numVertices := by omega
    have ha := hok.sv_lt p hp
    have hb := hok.sv_lt q hq
    have hsorted := hok.sorted (le_of_lt hpq) hq
    rw [hdeg, neighbors_length ha, neighbors_length hb] at hsorted
    refine ⟨hsorted, fun heq => ?_⟩
    have heq' : valueAt arrays.vertex_degrees (valueAt arrays.sorted_vertices p) =
        valueAt arrays.vertex_degrees (valueAt arrays.sorted_vertices q) := by
      rw [hdeg, neighbors_length ha, neighbors_length hb]; exact heq
    have hlen : arrays.vertex_degrees.length = g.numVertices := hok.len_deg
    rcases Nat.lt_trichotomy (valueAt arrays.sorted_vertices p)
        (valueAt arrays.sorted_vertices q) with h | h | h
    · exact h
    · have e1 := hok.pos_sv p hp
      have e2 := hok.pos_sv q hq
      rw [h] at e1
      omega
    · have := binSortPosition_lt_of_eq h (by rw [hlen]; exact ha) heq'.symm
      rw [← hpos _ hb, ← hpos _ ha, hok.pos_sv p hp, hok.pos_sv q hq] at this
      omega

/-- The bin-sort of the kite, started from vectors that hold other values. -/
theorem binSortVerticesByDegree_kite :
    binSortVerticesByDegree kite ⟨[7], [7], [7], [7]⟩ =
      .ok ⟨[0, 0, 2, 2, 4], [0, 5, 2, 4, 1, 3], [0, 4, 2, 5, 3, 1], [1, 4, 3, 4, 3, 1]⟩ := by
  decide!

/-- What the subset search promises without any assumption on the degree entries: it
returns, never less than `m`, leaves the accumulator alone when it returns `m`, and
otherwise leaves in it a clique taken from `S` of the size found less `c`. -/
theorem subset_sound (g : Graph) (hg : g.simpleUndirected) (deg : List Nat)
    (hdeg : deg.length = g.numVertices) :
    ∀ fuel,
      (∀ S c m tmp, 2 * S.length + 2 ≤ fuel → S.Nodup → (∀ x ∈ S, x < g.numVertices) →
        ∃ r tmp', findMaximumCliqueSubset g deg fuel S c m tmp = .ok (r, tmp') ∧
          subsetPost g S c m tmp r tmp') ∧
      (∀ S c m tmp, 2 * S.length + 1 ≤ fuel → S.Nodup → (∀ x ∈ S, x < g.numVertices) →
        ∃ r tmp', subsetLoop g deg fuel S c m tmp = .ok (r, tmp') ∧
          subsetPost g S c m tmp r tmp') := by
  intro fuel
  induction fuel with
  | zero =>
    constructor <;> intro S c m tmp h <;> omega
  | succ fuel ih =>
    obtain ⟨ihE, ihL⟩ := ih
    constructor
    · intro S c m tmp hfuel hnd hlt
      rw [findMaximumCliqueSubset_succ]
      by_cases hS : S = []
      · subst hS
        by_cases hc : c > m
        · exact ⟨c, [], by simp [hc],
            ⟨by omega, by omega, fun _ => ⟨cliqueIn_nil g [], by simp⟩⟩⟩
        · exact ⟨m, tmp, by simp [hc], ⟨le_refl _, fun _ => rfl, by omega⟩⟩
      · obtain ⟨r, tmp', h1, h2⟩ := ihL S c m tmp (by omega) hnd hlt
        exact ⟨r, tmp', by simp [hS, h1], h2⟩
    · intro S c m tmp hfuel hnd hlt
      rcases List.eq_nil_or_concat S with hS | ⟨rest, v, hS⟩
      · subst hS
        exact ⟨m, tmp, subsetLoop_nil g deg fuel c m tmp,
          ⟨le_refl _, fun _ => rfl, by omega⟩⟩
      · rw [List.concat_eq_append] at hS
        subst hS
        rw [subsetLoop_snoc]
        by_cases hbreak : c + (rest.length + 1) ≤ m
        · exact ⟨m, tmp, by simp [hbreak], ⟨le_refl _, fun _ => rfl, by omega⟩⟩
        · have hv : v < g.numVertices := hlt v (by simp)
          have hrest_lt : ∀ x ∈ rest, x < g.numVertices := fun x hx => hlt x (by simp [hx])
          have hnd' : rest.Nodup ∧ v ∉ rest := by
            rw [List.nodup_append] at hnd
            refine ⟨hnd.1, fun hmem => hnd.2.2 hmem (by simp)⟩
          have hfilter := @subset_neighbors_ok g deg v m hv rest
            (fun x hx => hdeg ▸ hrest_lt x hx)
          set nbrs := rest.filter
            (fun u => decide (m ≤ valueAt deg u) && decide (u ∈ g.neighbors v)) with hnbrs
          have hn_mem : ∀ x ∈ nbrs, x ∈ rest ∧ m ≤ valueAt deg x ∧ x ∈ g.neighbors v := by
            intro x hx
            rw [hnbrs, List.mem_filter] at hx
            simpa using hx
          have hn_len : nbrs.length ≤ rest.length := List.length_filter_le _ _
          have hvn : v ∉ nbrs := fun h => hnd'.2 (hn_mem v h).1
          obtain ⟨r1, t1, hE, hpost1⟩ := ihE nbrs (c + 1) m tmp
            (by simp at hfuel; omega) (hnd'.1.filter _)
            (fun x hx => hrest_lt x (hn_mem x hx).1)
          rw [if_neg hbreak, hfilter]
          simp only [bind, Except.bind]
          rw [hE]
          simp only []
          by_cases himp : r1 > m
          · rw [if_pos himp]
            obtain ⟨hc1, hl1⟩ := hpost1.2.2 himp
            obtain ⟨r, tmp', hL, hpost⟩ := ihL rest c r1 (t1 ++ [v])
              (by simp at hfuel; omega) hnd'.1 hrest_lt
            refine ⟨r, tmp', hL, ?_⟩
            have hnew : cliqueIn g (rest ++ [v]) (t1 ++ [v]) :=
              cliqueIn_snoc hg hv (fun x hx => (hn_mem x hx).2.2) hvn
                (fun x hx => by simp [(hn_mem x hx).1]) (by simp) hc1
            refine ⟨by have := hpost.1; omega, fun h => by have := hpost.1; omega, fun _ => ?_⟩
            by_cases hr : r = r1
            · have := hpost.2.1 hr
              subst this
              exact ⟨hnew, by simp; omega⟩
            · have hlt' : r1 < r := by have := hpost.1; omega
              obtain ⟨a, b⟩ := hpost.2.2 hlt'
              exact ⟨cliqueIn_mono (fun x hx => by simp [hx]) a, b⟩
          · rw [if_neg himp]
            have hr1 : r1 = m := by have := hpost1.1; omega
            have ht1 : t1 = tmp := hpost1.2.1 hr1
            subst ht1
            obtain ⟨r, tmp', hL, hpost⟩ := ihL rest c m t1
              (by simp at hfuel; omega) hnd'.1 hrest_lt
            refine ⟨r, tmp', hL, hpost.1, hpost.2.1, fun h => ?_⟩
            obtain ⟨a, b⟩ := hpost.2.2 h
            exact ⟨cliqueIn_mono (fun x hx => by simp [hx]) a, b⟩

/-- The degree hypothesis in terms of neighbour counts gives the one in terms of cliques. -/
theorem degreesAllow_of_count {g : Graph} {deg S : List Nat} {c : Nat}
    (h : ∀ u ∈ S, c + S.countP (fun x => decide (x ∈ g.neighbors u)) ≤ valueAt deg u) :
    degreesAllow g deg S c := by
  intro K hK u hu
  obtain ⟨e1, e2, e3, _⟩ := cliqueIn_erase hK hu
  have hle : (K.erase u).length ≤ S.countP (fun x => decide (x ∈ g.neighbors u)) := by
    apply length_le_countP _ e1
    intro x hx
    obtain ⟨xK, _, xadj⟩ := e3 x hx
    exact ⟨hK.2.1 x xK, by simpa using xadj⟩
  have := h u (hK.2.1 u hu)
  omega

/-- C16. On a simple undirected graph, for a duplicate-free candidate list `S` of vertices,
if `vertex_degrees[u] ≥ c + |N(u) ∩ S|` for every `u` in `S`, then
`findMaximumCliqueSubset` returns `max m (c + w)`, where `w` is the size of a largest clique
contained in `S`; in particular it never returns less than `m`. -/
theorem findMaximumCliqueSubset_size (g : Graph) (hg : g.simpleUndirected)
    (vertex_degrees : List Nat) (hdeg : vertex_degrees.length = g.numVertices)
    (S : List Nat) (c m w fuel : Nat) (tmp : List Nat) (hfuel : 2 * S.length + 2 ≤ fuel)
    (hnd : S.Nodup) (hlt : ∀ x ∈ S, x < g.numVertices)
    (hcount : ∀ u ∈ S,
      c + S.countP (fun x => decide (x ∈ g.neighbors u)) ≤ valueAt vertex_degrees u)
    (hw : largestCliqueSize g S w) :
    ∃ tmp', findMaximumCliqueSubset g vertex_degrees fuel S c m tmp =
        .ok (max m (c + w), tmp') ∧ m ≤ max m (c + w) := by
  obtain ⟨r, tmp', hE, hpost, hcomp⟩ :=
    (subset_correct g hg vertex_degrees hdeg fuel).1 S c m tmp hfuel hnd hlt
      (degreesAllow_of_count hcount)
  obtain ⟨⟨K, hK, hKw⟩, hmax⟩ := hw
  have h1 := hcomp K hK
  have hr : r = max m (c + w) := by
    by_cases himp : m < r
    · obtain ⟨a, b⟩ := hpost.2.2 himp
      have := hmax tmp' a
      rw [max_eq_right (by omega)]
      omega
    · have := hpost.1
      rw [max_eq_left (by omega)]
      omega
  rw [hr] at hE
  exact ⟨tmp', hE, le_max_left _ _⟩

/-- The candidates `[1, 2]` of vertex 0 in a triangle: the largest clique among them has two
vertices and the call returns `max 1 (1 + 2)`. -/
theorem findMaximumCliqueSubset_size_witness :
    findMaximumCliqueSubset triangle [2, 2, 2] 6 [1, 2] 1 1 [] = .ok (3, [1, 2]) ∧
    ∃ tmp', findMaximumCliqueSubset triangle [2, 2, 2] 6 [1, 2] 1 1 [] =
        .ok (max 1 (1 + 2), tmp') ∧ 1 ≤ max 1 (1 + 2) :=
  ⟨by decide!,
    findMaximumCliqueSubset_size triangle (by decide) [2, 2, 2] (by decide) [1, 2] 1 1 2 6 []
      (by decide) (by decide) (by decide) (by decide)
      ⟨⟨[1, 2], by decide, rfl⟩, fun K hK => cliqueIn_length_le hK⟩⟩

/-- C17. On a simple undirected graph, for a duplicate-free candidate list `S` of vertices
and whatever the accumulator held: the call returns some `r ≥ m`; if `r = m` the
accumulator is as it was; if `r > m` it holds exactly `r - c` pairwise distinct vertices,
all taken from `S` and pairwise adjacent. -/
theorem findMaximumCliqueSubset_accumulator (g : Graph) (hg : g.simpleUndirected)
    (vertex_degrees : List Nat) (hdeg : vertex_degrees.length = g.numVertices)
    (S : List Nat) (c m fuel : Nat) (tmp : List Nat) (hfuel : 2 * S.length + 2 ≤ fuel)
    (hnd : S.Nodup) (hlt : ∀ x ∈ S, x < g.numVertices) :
    ∃ r tmp', findMaximumCliqueSubset g vertex_degrees fuel S c m tmp = .ok (r, tmp') ∧
      m ≤ r ∧ (r = m → tmp' = tmp) ∧
      (m < r → tmp'.length = r - c ∧ tmp'.Nodup ∧ (∀ x ∈ tmp', x ∈ S) ∧
        ∀ x ∈ tmp', ∀ y ∈ tmp', x ≠ y → y ∈ g.neighbors x ∧ x ∈ g.neighbors y) := by
  obtain ⟨r, tmp', hE, h1, h2, h3⟩ :=
    (subset_sound g hg vertex_degrees hdeg fuel).1 S c m tmp hfuel hnd hlt
  refine ⟨r, tmp', hE, h1, h2, fun hlt' => ?_⟩
  obtain ⟨⟨a1, a2, a3⟩, b⟩ := h3 hlt'
  exact ⟨by omega, a1, a2,
    fun x hx y hy hne => ⟨a3 x hx y hy hne, a3 y hy x hx (fun e => hne e.symm)⟩⟩

/-- The candidates `[1, 2]` of vertex 0 in a triangle with an accumulator that holds
`[7, 7, 7]`: it is replaced by the two vertices found when the bound is 1 and left alone
when the bound is 3. -/
theorem findMaximumCliqueSubset_accumulator_witness :
    findMaximumCliqueSubset triangle [2, 2, 2] 6 [1, 2] 1 1 [7, 7, 7] = .ok (3, [1, 2]) ∧
    findMaximumCliqueSubset triangle [2, 2, 2] 6 [1, 2] 1 3 [7, 7, 7] = .ok (3, [7, 7, 7]) ∧
    ∃ r tmp', findMaximumCliqueSubset triangle [2, 2, 2] 6 [1, 2] 1 1 [7, 7, 7] =
        .ok (r, tmp') ∧ 1 ≤ r :=
  ⟨by decide!, by decide!,
    (findMaximumCliqueSubset_accumulator triangle (by decide) [2, 2, 2] (by decide) [1, 2] 1 1
      6 [7, 7, 7] (by decide) (by decide) (by decide)).imp fun _ h =>
      h.imp fun _ h => ⟨h.1, h.2.1⟩⟩

/-- A run of peel turns over any duplicate-free list of vertices: it succeeds, keeps the
arrays consistent, touches nothing at or behind position `i`, and lowers by one exactly the
degree entries of the listed vertices that exceed the degree entry of the vertex at `i`. -/
theorem peelFold_spec {n dmax i : Nat} {s0 : SortState} (h0 : ArraysOk n dmax s0)
    (hi : i < n) (l : List Nat) (hnd : l.Nodup) (hlt : ∀ u ∈ l, u < n) :
    ∃ s', l.foldlM
        (peelNeighbor (valueAt s0.vertex_degrees (valueAt s0.sorted_vertices i))) s0 = .ok s' ∧
      ArraysOk n dmax s' ∧ PeelFrame n i s0 s' ∧
      ∀ x < n, valueAt s'.vertex_degrees x =
        if x ∈ l ∧ valueAt s0.vertex_degrees (valueAt s0.sorted_vertices i) <
            valueAt s0.vertex_degrees x
        then valueAt s0.vertex_degrees x - 1 else valueAt s0.vertex_degrees x := by
  have key := foldlM_inv
    (peelNeighbor (valueAt s0.vertex_degrees (valueAt s0.sorted_vertices i)))
    (fun pre s => ArraysOk n dmax s ∧ PeelFrame n i s0 s ∧
      ∀ x < n, valueAt s.vertex_degrees x =
        if x ∈ pre ∧ valueAt s0.vertex_degrees (valueAt s0.sorted_vertices i) <
            valueAt s0.vertex_degrees x
        then valueAt s0.vertex_degrees x - 1 else valueAt s0.vertex_degrees x)
    l s0 ⟨h0, PeelFrame.refl n i s0, fun x _ => by simp⟩ (by
      intro p u t s heq ⟨hs, hf, hd⟩
      have hu : u < n := hlt u (by rw [heq]; simp)
      have hup : u ∉ p := by
        rw [heq] at hnd
        have := (List.nodup_append.1 hnd).2.2
        intro hmem
        exact this hmem (by simp)
      have hdu := hd u hu
      rw [if_neg (fun h => hup h.1)] at hdu
      refine ⟨_, peelNeighbor_eq hs hu _, ?_⟩
      by_cases hgt : valueAt s.vertex_degrees u >
          valueAt s0.vertex_degrees (valueAt s0.sorted_vertices i)
      · rw [if_pos hgt]
        refine ⟨moveDown_ok hs hu (by omega), moveDown_frame h0 hs hf hi hu hgt, ?_⟩
        intro x hx
        rw [moveDown_deg hs hu]
        by_cases hxu : x = u
        · subst hxu
          rw [if_pos rfl, if_pos ⟨by simp, by omega⟩, hdu]
        · rw [if_neg hxu, hd x hx]
          have e : (x ∈ p ++ [u]) ↔ x ∈ p := by simp [hxu]
          simp only [e]
      · rw [if_neg hgt]
        refine ⟨hs, hf, ?_⟩
        intro x hx
        rw [hd x hx]
        by_cases hxu : x = u
        · subst hxu
          rw [if_neg (fun h => hup h.1), if_neg (fun h => hgt (by omega))]
        · have e : (x ∈ p ++ [u]) ↔ x ∈ p := by simp [hxu]
          simp only [e])
  exact key

/-- The loop prefix one iteration further. -/
theorem outerLoop_succ (g : Graph) (k i : Nat) :
    outerLoop g k (i + 1) = (outerLoop g k i).bind (fun st => outerIteration g st i) := by
  unfold outerLoop
  cases binSortVerticesByDegree g ⟨[], [], [], []⟩ with
  | error e => rfl
  | ok arrays =>
    simp only [bind, Except.bind, List.range_succ, List.foldlM_append]
    cases List.foldlM (outerIteration g) (initialSearchState arrays k) (List.range i) with
    | error e => rfl
    | ok st =>
      simp only [List.foldlM_cons, List.foldlM_nil, bind, Except.bind, pure, Except.pure]
      cases outerIteration g st i <;> rfl

/-- The engine is its check followed by the whole loop. -/
theorem findMaximumClique_eq_outerLoop (g : Graph) (k : Nat) (hk : 2 ≤ k) :
    findMaximumClique g k =
      Except.map (fun st => st.maximum_clique) (outerLoop g k g.numVertices) := by
  obtain ⟨arrays, hE, hok, _⟩ := binSort_closed g ⟨[], [], [], []⟩
  unfold findMaximumClique outerLoop
  rw [if_pos hk, hE]
  simp only [bind, Except.bind, hok.len_sv]
  cases List.foldlM (outerIteration g) (initialSearchState arrays k)
    (List.range g.numVertices) <;> rfl

/-- One outer iteration in full: the search half leaves the arrays alone, the peel half is
the run of peel turns over the out-edges of the visited vertex, the invariant is
re-established, and the degree entries change exactly as the peel prescribes. -/
theorem outerIteration_full {g : Graph} (hg : g.simpleUndirected) {k dmax i : Nat}
    {st : SearchState} (hinv : OuterInv g k dmax i st) (hi : i < g.numVertices) :
    ∃ st1 st', searchFrom g st (valueAt st.arrays.sorted_vertices i)
        (valueAt st.arrays.vertex_degrees (valueAt st.arrays.sorted_vertices i)) = .ok st1 ∧
      st1.arrays = st.arrays ∧
      outerIteration g st i = .ok st' ∧ OuterInv g k dmax (i + 1) st' ∧
      (g.neighbors (valueAt st.arrays.sorted_vertices i)).foldlM
        (peelNeighbor (valueAt st.arrays.vertex_degrees
          (valueAt st.arrays.sorted_vertices i))) st.arrays = .ok st'.arrays ∧
      PeelFrame g.numVertices i st.arrays st'.arrays ∧
      ∀ x < g.numVertices, valueAt st'.arrays.vertex_degrees x =
        if x ∈ g.neighbors (valueAt st.arrays.sorted_vertices i) ∧
            valueAt st.arrays.vertex_degrees (valueAt st.arrays.sorted_vertices i) <
              valueAt st.arrays.vertex_degrees x
        then valueAt st.arrays.vertex_degrees x - 1 else valueAt st.arrays.vertex_degrees x := by
  obtain ⟨st1, hsearch, harr1, hb1, hbest1, hcomp1⟩ := searchFrom_spec hg hinv hi
  have hv := hinv.arrays.sv_lt i hi
  obtain ⟨s', hpeel, hok, hframe, hdeg⟩ := peelFold_spec hinv.arrays hi
    (g.neighbors (valueAt st.arrays.sorted_vertices i)) (neighbors_nodup hg hv)
    (fun u hu => (neighbors_symm hg hv hu).2.1)
  refine ⟨st1, { st1 with arrays := s' }, hsearch, harr1, ?_, ⟨hok, ?_, hb1, hbest1, ?_⟩,
    hpeel, hframe, hdeg⟩
  · unfold outerIteration
    rw [readAt_ok (by rw [hinv.arrays.len_sv]; exact hi)]
    simp only [bind, Except.bind]
    rw [readAt_ok (by rw [hinv.arrays.len_deg]; exact hv)]
    simp only []
    rw [hsearch]
    simp only []
    unfold peel
    rw [harr1, readAt_ok (by rw [hinv.arrays.len_sv]; exact hi)]
    simp only [bind, Except.bind]
    rw [outEdges_ok hv]
    simp only []
    rw [hpeel]
    rfl
  · apply residual_step hg hinv.arrays hinv.residual hi hframe
    intro x hx
    rw [hdeg x hx]
    split_ifs with h1 h2 h3 <;> first | omega | (exact absurd h1.1 h2)
  · intro K hK ⟨w, hw, hwi⟩
    apply hcomp1 K hK
    refine ⟨w, hw, ?_⟩
    by_contra hc
    have := hframe.ahead w (hK.2 w hw).1 (by omega)
    simp only [] at hwi
    omega

/-- Every prefix of the outer loop succeeds and ends in a state that satisfies the
invariant. -/
theorem outerLoop_inv {g : Graph} (hg : g.simpleUndirected) (k : Nat) :
    ∀ i ≤ g.numVertices, ∃ st, outerLoop g k i = .ok st ∧ OuterInv g k g.maxDegree i st := by
  intro i
  induction i with
  | zero =>
    intro _
    obtain ⟨arrays, hE, hok, hdeg, _⟩ := binSort_closed g ⟨[], [], [], []⟩
    refine ⟨initialSearchState arrays k, ?_, ⟨hok, ?_, le_refl _, Or.inl ⟨rfl, rfl⟩, ?_⟩⟩
    · unfold outerLoop
      rw [hE]
      rfl
    · intro u hu
      have e : valueAt arrays.vertex_degrees u = (g.neighbors u).length := by
        show valueAt (initialSearchState arrays k).arrays.vertex_degrees u = _
        simp only [initialSearchState, hdeg]
        rw [neighbors_length hu]
      show _ ≤ valueAt arrays.vertex_degrees u
      rw [e]
      exact List.countP_le_length _
    · intro K _ ⟨w, _, hw⟩
      exact absurd hw (Nat.not_lt_zero _)
  | succ i ih =>
    intro hi
    obtain ⟨st, hE, hinv⟩ := ih (by omega)
    obtain ⟨st', hE', hinv'⟩ := outerIteration_spec hg hinv (by omega)
    refine ⟨st', ?_, hinv'⟩
    rw [outerLoop_succ, hE]
    exact hE'

theorem countP_lt_range (n b : Nat) :
    (List.range n).countP (fun p => decide (p < b)) = min b n := by
  induction n with
  | zero => simp
  | succ n ih =>
    rw [List.range_succ, List.countP_append, ih]
    by_cases h : n < b
    · simp [h]; omega
    · simp [h]; omega

theorem map_valueAt_range (xs : List Nat) :
    (List.range xs.length).map (valueAt xs) = xs := by
  apply List.ext_getElem
  · simp
  · intro i h1 h2
    simp [valueAt, List.getD_eq_getElem?_getD, h2]

/-- The positional form of the bin invariant gives the counting form. -/
theorem ArraysOk.binStarts_count {n dmax : Nat} {s : SortState} (h : ArraysOk n dmax s)
    {d : Nat} (hd : d ≤ dmax) : valueAt s.bin_starts d = countBelow s.vertex_degrees d := by
  have e1 : countBelow s.vertex_degrees d =
      (List.range n).countP (fun v => decide (valueAt s.vertex_degrees v < d)) := by
    unfold countBelow
    conv_lhs => rw [← map_valueAt_range s.vertex_degrees, h.len_deg]
    rw [List.countP_map]
    rfl
  have e2 : (List.range n).countP (fun v => decide (valueAt s.vertex_degrees v < d)) =
      s.sorted_vertices.countP (fun v => decide (valueAt s.vertex_degrees v < d)) :=
    (h.perm.countP_eq _).symm
  have e3 : s.sorted_vertices.countP (fun v => decide (valueAt s.vertex_degrees v < d)) =
      (List.range n).countP (fun p => decide (p < valueAt s.bin_starts d)) := by
    conv_lhs => rw [← map_valueAt_range s.sorted_vertices, h.len_sv]
    rw [List.countP_map]
    apply List.countP_congr
    intro p hp
    rw [List.mem_range] at hp
    simp only [Function.comp, decide_eq_true_eq]
    exact (h.bin d hd p hp).symm
  rw [e1, e2, e3, countP_lt_range]
  have := h.bin_le d hd
  omega

/-- Consistent arrays in the positional sense are consistent in the sense of
`arraysConsistent`. -/
theorem ArraysOk.consistent {n dmax : Nat} {s : SortState} (h : ArraysOk n dmax s) :
    arraysConsistent n dmax s :=
  ⟨h.perm, h.len_pos, h.sv_pos, h.pos_sv, h.len_deg, fun _ _ hpq hq => h.sorted hpq hq,
    h.len_bs, fun _ hd => h.binStarts_count hd⟩

/-- Membership in a slice of a vector. -/
theorem mem_take_drop {xs : List Nat} {a b x : Nat} (hb : b ≤ xs.length) :
    x ∈ (xs.take b).drop a ↔ ∃ p, a ≤ p ∧ p < b ∧ valueAt xs p = x := by
  constructor
  · intro hx
    obtain ⟨j, hj, e⟩ := List.mem_iff_getElem.1 hx
    rw [List.length_drop, List.length_take] at hj
    rw [List.getElem_drop, List.getElem_take] at e
    refine ⟨a + j, by omega, by omega, ?_⟩
    rw [← e]
    simp [valueAt, List.getD_eq_getElem?_getD, (by omega : a + j < xs.length)]
  · rintro ⟨p, hap, hpb, e⟩
    rw [List.mem_iff_getElem]
    refine ⟨p - a, by rw [List.length_drop, List.length_take]; omega, ?_⟩
    rw [List.getElem_drop, List.getElem_take]
    rw [← e]
    simp [valueAt, List.getD_eq_getElem?_getD, (by omega : p < xs.length),
      (by omega : a + (p - a) = p)]

/-- With consistent arrays the slice of bin `d` holds exactly the vertices whose degree
entry is `d`. -/
theorem ArraysOk.mem_binSlice {n dmax : Nat} {s : SortState} (h : ArraysOk n dmax s)
    {d : Nat} (hd : d ≤ dmax) {v : Nat} (hv : v < n) :
    v ∈ binSlice s n dmax d ↔ valueAt s.vertex_degrees v = d := by
  have hstop : (if d < dmax then valueAt s.bin_starts (d + 1) else n) ≤
      s.sorted_vertices.length := by
    rw [h.len_sv]
    split_ifs with h1
    · exact h.bin_le (d + 1) (by omega)
    · exact le_refl _
  unfold binSlice
  rw [mem_take_drop hstop]
  have hp := h.pos_lt v hv
  have hsp := h.sv_pos v hv
  have hb1 := h.bin d hd _ hp
  rw [hsp] at hb1
  have hdv := h.deg_le v hv
  constructor
  · rintro ⟨p, hap, hpb, e⟩
    have hpn : p < n := by
      split_ifs at hpb with h1
      · have := h.bin_le (d + 1) (by omega); omega
      · exact hpb
    have hpv : valueAt s.vertex_positions v = p := by
      rw [← e]; exact h.pos_sv p hpn
    rw [hpv] at hb1
    have hge : d ≤ valueAt s.vertex_degrees v := by
      by_contra hc
      have := hb1.2 (by omega)
      omega
    split_ifs at hpb with h1
    · have hb2 := h.bin (d + 1) (by omega) _ hp
      rw [hsp, hpv] at hb2
      have := hb2.1 hpb
      omega
    · omega
  · intro e
    refine ⟨valueAt s.vertex_positions v, ?_, ?_, hsp⟩
    · by_contra hc
      have := hb1.1 (by omega)
      omega
    · split_ifs with h1
      · have hb2 := h.bin (d + 1) (by omega) _ hp
        rw [hsp] at hb2
        exact hb2.2 (by omega)
      · exact hp

/-- C18: throughout the outer loop of `findMaximumClique` on a simple undirected graph the
four arrays stay consistent. At the start of every iteration `i` (for `i = 0` this is the
state the bin-sort leaves) and after every single neighbour update of the peel of that
iteration (after any prefix `pre` of the out-edges of the visited vertex has been
processed), `sorted_vertices` is a permutation of `[0, n)`, `vertex_positions` is its
inverse, the degree entries are non-decreasing along `sorted_vertices`, and `bin_starts[d]`
is the number of vertices whose degree entry is below `d`, for every `d ≤ d_max`. -/
theorem findMaximumClique_arrays_consistent (g : Graph) (hg : g.simpleUndirected) (k i : Nat)
    (hi : i < g.numVertices) :
    ∃ st, outerLoop g k i = .ok st ∧
      arraysConsistent g.numVertices g.maxDegree st.arrays ∧
      ∀ pre suf, g.outEdges (valueAt st.arrays.sorted_vertices i) = .ok (pre ++ suf) →
        ∃ st1 s, searchFrom g st (valueAt st.arrays.sorted_vertices i)
            (valueAt st.arrays.vertex_degrees (valueAt st.arrays.sorted_vertices i)) = .ok st1 ∧
          pre.foldlM (peelNeighbor (valueAt st.arrays.vertex_degrees
            (valueAt st.arrays.sorted_vertices i))) st1.arrays = .ok s ∧
          arraysConsistent g.numVertices g.maxDegree s := by
  obtain ⟨st, hE, hinv⟩ := outerLoop_inv hg k i (by omega)
  refine ⟨st, hE, hinv.arrays.consistent, ?_⟩
  intro pre suf hsplit
  have hv := hinv.arrays.sv_lt i hi
  rw [outEdges_ok hv] at hsplit
  have hsplit' : g.neighbors (valueAt st.arrays.sorted_vertices i) = pre ++ suf := by
    injection hsplit
  obtain ⟨st1, hsearch, harr1, _⟩ := searchFrom_spec hg hinv hi
  have hnd : pre.Nodup := by
    have := neighbors_nodup hg hv
    rw [hsplit'] at this
    exact (List.nodup_append.1 this).1
  have hlt : ∀ u ∈ pre, u < g.numVertices := by
    intro u hu
    exact (neighbors_symm hg hv (by rw [hsplit']; simp [hu])).2.1
  obtain ⟨s, hfold, hok, _⟩ := peelFold_spec hinv.arrays hi pre hnd hlt
  exact ⟨st1, s, hsearch, by rw [harr1]; exact hfold, hok.consistent⟩

theorem findMaximumClique_arrays_consistent_witness :
    ∃ st, outerLoop kite 3 1 = .ok st ∧
      arraysConsistent kite.numVertices kite.maxDegree st.arrays ∧
      ∀ pre suf, kite.outEdges (valueAt st.arrays.sorted_vertices 1) = .ok (pre ++ suf) →
        ∃ st1 s, searchFrom kite st (valueAt st.arrays.sorted_vertices 1)
            (valueAt st.arrays.vertex_degrees (valueAt st.arrays.sorted_vertices 1)) = .ok st1 ∧
          pre.foldlM (peelNeighbor (valueAt st.arrays.vertex_degrees
            (valueAt st.arrays.sorted_vertices 1))) st1.arrays = .ok s ∧
          arraysConsistent kite.numVertices kite.maxDegree s :=
  findMaximumClique_arrays_consistent kite (by decide) 3 1 (by decide)

/-- C19, as the code has it: after the peel step of every outer iteration `i`, for every
degree `d ≤ d_max` the slice `sorted_vertices[bin_starts[d] : bin_starts[d + 1])` (ending
at `n` for `d = d_max`) contains exactly the vertices, removed or not, whose degree entry
equals `d`; a vertex of the slice is not yet removed exactly when its position is greater
than `i`, and the vertices visited so far keep their place in the slices. -/
theorem peel_binSlice (g : Graph) (hg : g.simpleUndirected) (k i : Nat)
    (hi : i < g.numVertices) :
    ∃ st, outerLoop g k (i + 1) = .ok st ∧
      ∀ d ≤ g.maxDegree,
        (∀ v ∈ binSlice st.arrays g.numVertices g.maxDegree d, v < g.numVertices) ∧
        (∀ v < g.numVertices, (v ∈ binSlice st.arrays g.numVertices g.maxDegree d ↔
          valueAt st.arrays.vertex_degrees v = d)) ∧
        (valueAt st.arrays.vertex_degrees (valueAt st.arrays.sorted_vertices 0) = d →
          valueAt st.arrays.sorted_vertices 0 ∈
            binSlice st.arrays g.numVertices g.maxDegree d ∧
          valueAt st.arrays.vertex_positions (valueAt st.arrays.sorted_vertices 0) ≤ i) := by
  obtain ⟨st, hE, hinv⟩ := outerLoop_inv hg k (i + 1) (by omega)
  refine ⟨st, hE, ?_⟩
  intro d hd
  have h := hinv.arrays
  have h0 : 0 < g.numVertices := by omega
  refine ⟨?_, fun v hv => h.mem_binSlice hd hv, ?_⟩
  · intro v hv
    unfold binSlice at hv
    have hmem : v ∈ st.arrays.sorted_vertices :=
      List.mem_of_mem_take (List.mem_of_mem_drop hv)
    have := (h.perm.mem_iff).1 hmem
    exact List.mem_range.1 this
  · intro e
    refine ⟨(h.mem_binSlice hd (h.sv_lt 0 h0)).2 e, ?_⟩
    rw [h.pos_sv 0 h0]
    omega

theorem peel_binSlice_witness :
    ∃ st, outerLoop singleEdge 2 (0 + 1) = .ok st ∧
      ∀ d ≤ singleEdge.maxDegree,
        (∀ v ∈ binSlice st.arrays singleEdge.numVertices singleEdge.maxDegree d,
          v < singleEdge.numVertices) ∧
        (∀ v < singleEdge.numVertices,
          (v ∈ binSlice st.arrays singleEdge.numVertices singleEdge.maxDegree d ↔
            valueAt st.arrays.vertex_degrees v = d)) ∧
        (valueAt st.arrays.vertex_degrees (valueAt st.arrays.sorted_vertices 0) = d →
          valueAt st.arrays.sorted_vertices 0 ∈
            binSlice st.arrays singleEdge.numVertices singleEdge.maxDegree d ∧
          valueAt st.arrays.vertex_positions (valueAt st.arrays.sorted_vertices 0) ≤ 0) :=
  peel_binSlice singleEdge (by decide) 2 0 (by decide)

/-- C19 as stated fails on two vertices joined by an edge: after the peel step of
iteration 0 vertex 0 has been visited and removed (it sits at position 0), its degree
entry is still 1, and the slice of degree 1 is `[0, 1]`: it contains the removed vertex. -/
theorem peel_binSlice_counterexample :
    Except.map (fun st => (st.arrays, binSlice st.arrays 2 1 1)) (outerLoop singleEdge 2 1) =
      .ok (⟨[0, 0], [0, 1], [0, 1], [1, 1]⟩, [0, 1]) := by
  decide!

theorem countP_le_add_count (L : List Nat) (p q : Nat → Bool) (v : Nat)
    (h : ∀ w ∈ L, p w = true → q w = true ∨ w = v) :
    L.countP p ≤ L.countP q + L.count v := by
  induction L with
  | nil => simp
  | cons a L ih =>
    have ih' := ih (fun w hw => h w (List.mem_cons_of_mem _ hw))
    have ha := h a (List.mem_cons_self _ _)
    rw [List.countP_cons, List.countP_cons, List.count_cons]
    by_cases hp : p a = true
    · rcases ha hp with hq | hav
      · rw [if_pos hp, if_pos hq]
        split_ifs <;> omega
      · have hb : (a == v) = true := by rw [hav]; exact beq_self_eq_true v
        rw [if_pos hp, if_pos hb]
        split_ifs <;> omega
    · rw [if_neg hp]
      split_ifs <;> omega

/-- The level never exceeds the degree entry read at the current position. -/
theorem level_le {n dmax i : Nat} {s : SortState} (h : ArraysOk n dmax s) (hi : i < n) :
    level i s ≤ valueAt s.vertex_degrees (valueAt s.sorted_vertices i) := by
  unfold level
  split_ifs with h0
  · exact Nat.zero_le _
  · exact h.sorted (by omega) hi

/-- The unvisited neighbours of an unvisited vertex are its neighbours among the unvisited
vertices. -/
theorem inducedDegree_unvisited {g : Graph} (hg : g.simpleUndirected) (i : Nat)
    (s : SortState) {x : Nat} (hx : x < g.numVertices) :
    inducedDegree g ((List.range g.numVertices).filter
        (fun y => decide (i ≤ valueAt s.vertex_positions y))) x =
      (g.neighbors x).countP (fun w => decide (i ≤ valueAt s.vertex_positions w)) := by
  unfold inducedDegree
  apply List.countP_congr
  intro w hw
  have hwn := (neighbors_symm hg hx hw).2.1
  simp [List.mem_filter, List.mem_range, hwn]

/-- At the start of iteration `i` every unvisited vertex lies in a subgraph of minimum
degree at least the degree entry `dv` of the vertex at position `i`, and no subgraph with
a vertex at position `i` or before has a larger minimum degree. -/
theorem core_visit {g : Graph} (hg : g.simpleUndirected) {dmax i : Nat} {s : SortState}
    (h : ArraysOk g.numVertices dmax s) (hr : residualOk g i s) (hc : CoreInv g i s)
    (hi : i < g.numVertices) :
    (∀ u < g.numVertices, i ≤ valueAt s.vertex_positions u →
      coreAtLeast g u (valueAt s.vertex_degrees (valueAt s.sorted_vertices i))) ∧
    (∀ H k, hasMinDegree g H k → (∃ x ∈ H, valueAt s.vertex_positions x ≤ i) →
      k ≤ valueAt s.vertex_degrees (valueAt s.sorted_vertices i)) := by
  have hlev := level_le h hi
  have hv := h.sv_lt i hi
  constructor
  · intro u hu hpu
    by_cases hcase : valueAt s.vertex_degrees (valueAt s.sorted_vertices i) ≤ level i s
    · have e : valueAt s.vertex_degrees (valueAt s.sorted_vertices i) = level i s := by omega
      rw [e]
      exact hc.low u hu hpu
    · refine ⟨(List.range g.numVertices).filter
        (fun y => decide (i ≤ valueAt s.vertex_positions y)), ?_, ?_⟩
      · simp [List.mem_filter, List.mem_range, hu, hpu]
      · intro x hx
        rw [List.mem_filter, List.mem_range] at hx
        obtain ⟨hxn, hxp⟩ := hx
        simp only [decide_eq_true_eq] at hxp
        refine ⟨hxn, ?_⟩
        rw [inducedDegree_unvisited hg i s hxn]
        have h1 := hc.up x hxn hxp
        have h2 := h.sorted hxp (h.pos_lt x hxn)
        rw [h.sv_pos x hxn] at h2
        omega
  · intro H k hmin ⟨x, hx, hxi⟩
    by_cases hb : ∃ y ∈ H, valueAt s.vertex_positions y < i
    · have := hc.cap H k hmin hb
      omega
    · push_neg at hb
      have hxn := (hmin x hx).1
      have hpx : valueAt s.vertex_positions x = i := by
        have := hb x hx
        omega
      have hxv : x = valueAt s.sorted_vertices i := by
        rw [← hpx]; exact (h.sv_pos x hxn).symm
      have h1 := (hmin x hx).2
      have h2 : inducedDegree g H x ≤
          (g.neighbors x).countP (fun w => decide (i ≤ valueAt s.vertex_positions w)) := by
        unfold inducedDegree
        apply List.countP_mono_left
        intro w _ hw
        simp only [decide_eq_true_eq] at hw ⊢
        exact hb w hw
      have h3 := hr x hxn
      rw [← hxv]
      omega

/-- The peel at position `i` carries the core invariant to position `i + 1`, with the
degree entry read at `i` as the new level. -/
theorem core_step {g : Graph} (hg : g.simpleUndirected) {dmax i : Nat} {s0 s' : SortState}
    (h0 : ArraysOk g.numVertices dmax s0) (hr : residualOk g i s0) (hc : CoreInv g i s0)
    (hi : i < g.numVertices) (hf : PeelFrame g.numVertices i s0 s')
    (hd : ∀ x < g.numVertices, valueAt s'.vertex_degrees x =
        if x ∈ g.neighbors (valueAt s0.sorted_vertices i) ∧
            valueAt s0.vertex_degrees (valueAt s0.sorted_vertices i) <
              valueAt s0.vertex_degrees x
        then valueAt s0.vertex_degrees x - 1 else valueAt s0.vertex_degrees x) :
    level (i + 1) s' = valueAt s0.vertex_degrees (valueAt s0.sorted_vertices i) ∧
      CoreInv g (i + 1) s' := by
  have hv := h0.sv_lt i hi
  have hposv := h0.pos_sv i hi
  have hlev0 := level_le h0 hi
  obtain ⟨hA, hB⟩ := core_visit hg h0 hr hc hi
  have hlev : level (i + 1) s' = valueAt s0.vertex_degrees (valueAt s0.sorted_vertices i) := by
    unfold level
    rw [if_neg (by omega), Nat.add_sub_cancel, hf.sv_eq i (le_refl _)]
    exact (hf.behind _ hv (le_of_eq hposv)).2
  have hback : ∀ u < g.numVertices, i + 1 ≤ valueAt s'.vertex_positions u →
      i < valueAt s0.vertex_positions u := by
    intro u hu hpu
    by_contra hcon
    have := (hf.behind u hu (by omega)).1
    omega
  refine ⟨hlev, ⟨?_, ?_, ?_⟩⟩
  · intro u hu hpu
    rw [hlev]
    have hpu0 := hback u hu hpu
    have hcongr : (g.neighbors u).countP
        (fun w => decide (i + 1 ≤ valueAt s'.vertex_positions w)) =
        (g.neighbors u).countP (fun w => decide (i + 1 ≤ valueAt s0.vertex_positions w)) := by
      apply List.countP_congr
      intro w hw
      have hwn := (neighbors_symm hg hu hw).2.1
      simp only [decide_eq_true_eq]
      constructor
      · intro h
        exact hback w hwn h
      · intro h
        have := hf.ahead w hwn (by omega)
        omega
    rw [hcongr, hd u hu]
    have hup := hc.up u hu (by omega)
    have hcount : (g.neighbors u).countP
        (fun w => decide (i ≤ valueAt s0.vertex_positions w)) ≤
        (g.neighbors u).countP (fun w => decide (i + 1 ≤ valueAt s0.vertex_positions w)) +
          (g.neighbors u).count (valueAt s0.sorted_vertices i) := by
      apply countP_le_add_count
      intro w hw hpw
      have hwn := (neighbors_symm hg hu hw).2.1
      simp only [decide_eq_true_eq] at hpw ⊢
      by_cases e : valueAt s0.vertex_positions w = i
      · right
        rw [← e]
        exact (h0.sv_pos w hwn).symm
      · left
        omega
    by_cases hadj : u ∈ g.neighbors (valueAt s0.sorted_vertices i)
    · have hone : (g.neighbors u).count (valueAt s0.sorted_vertices i) ≤ 1 :=
        List.nodup_iff_count_le_one.1 (neighbors_nodup hg hu) _
      split_ifs with hcond
      · omega
      · have : ¬ valueAt s0.vertex_degrees (valueAt s0.sorted_vertices i) <
            valueAt s0.vertex_degrees u := fun hlt => hcond ⟨hadj, hlt⟩
        omega
    · have hzero : (g.neighbors u).count (valueAt s0.sorted_vertices i) = 0 := by
        apply List.count_eq_zero_of_not_mem
        intro hmem
        exact hadj (neighbors_symm hg hu hmem).1
      rw [if_neg (fun hcond => hadj hcond.1)]
      omega
  · intro u hu hpu
    rw [hlev]
    exact hA u hu (by have := hback u hu hpu; omega)
  · intro H k hmin ⟨x, hx, hxi⟩
    rw [hlev]
    apply hB H k hmin
    refine ⟨x, hx, ?_⟩
    by_contra hcon
    have := hf.ahead x (hmin x hx).1 (by omega)
    omega

theorem visitDegree_eq {g : Graph} {k i : Nat} {st : SearchState}
    (h : outerLoop g k i = .ok st) :
    visitDegree g k i = valueAt st.arrays.vertex_degrees (valueAt st.arrays.sorted_vertices i) := by
  unfold visitDegree
  rw [h]

/-- Every prefix of the outer loop ends in a state that satisfies the loop invariant and
the core invariant, the level being the degree entry read by the previous iteration. -/
theorem outerLoop_core {g : Graph} (hg : g.simpleUndirected) (k : Nat) :
    ∀ i ≤ g.numVertices, ∃ st, outerLoop g k i = .ok st ∧
      OuterInv g k g.maxDegree i st ∧ CoreInv g i st.arrays ∧
      ∀ j, j + 1 = i → level i st.arrays = visitDegree g k j := by
  intro i
  induction i with
  | zero =>
    intro hi
    obtain ⟨st, hE, hinv⟩ := outerLoop_inv hg k 0 hi
    obtain ⟨arrays, hB, _, hdeg, _⟩ := binSort_closed g ⟨[], [], [], []⟩
    have hst : st.arrays.vertex_degrees = g.adj.map List.length := by
      unfold outerLoop at hE
      rw [hB] at hE
      have e : st = initialSearchState arrays k := by
        injection hE with e
        exact e.symm
      rw [e]
      exact hdeg
    refine ⟨st, hE, hinv, ⟨?_, ?_, ?_⟩, ?_⟩
    · intro u hu _
      rw [hst, neighbors_length hu]
      have : (g.neighbors u).countP (fun w => decide (0 ≤ valueAt st.arrays.vertex_positions w))
          = (g.neighbors u).length := by
        rw [List.countP_eq_length]
        intro w _
        simp
      omega
    · intro u hu _
      refine ⟨[u], by simp, ?_⟩
      intro x hx
      rw [List.mem_singleton] at hx
      subst hx
      exact ⟨hu, by simp [level]⟩
    · intro H k' _ ⟨x, _, hx⟩
      exact absurd hx (Nat.not_lt_zero _)
    · intro j hj
      omega
  | succ i ih =>
    intro hi
    obtain ⟨st, hE, hinv, hcore, _⟩ := ih (by omega)
    obtain ⟨st1, st', _, _, hE', hinv', _, hframe, hdeg⟩ :=
      outerIteration_full hg hinv (by omega)
    obtain ⟨hlev, hcore'⟩ :=
      core_step hg hinv.arrays hinv.residual hcore (by omega) hframe hdeg
    refine ⟨st', ?_, hinv', hcore', ?_⟩
    · rw [outerLoop_succ, hE]
      exact hE'
    · intro j hj
      have e : j = i := by omega
      subst e
      rw [hlev, visitDegree_eq hE]

/-- The degree entries the outer loop reads never decrease from one iteration to a later
one. -/
theorem visitDegree_mono {g : Graph} (hg : g.simpleUndirected) (k : Nat) {j i : Nat}
    (hji : j ≤ i) (hi : i < g.numVertices) : visitDegree g k j ≤ visitDegree g k i := by
  induction i with
  | zero =>
    have e : j = 0 := by omega
    rw [e]
  | succ i ih =>
    by_cases hj : j = i + 1
    · rw [hj]
    · have h1 := ih (by omega) (by omega)
      obtain ⟨st, hE, hinv, _, hl⟩ := outerLoop_core hg k (i + 1) (by omega)
      have h2 := level_le hinv.arrays hi
      rw [hl i rfl, ← visitDegree_eq hE] at h2
      omega

/-- C14: on a simple undirected graph the outer loop of `findMaximumClique` visits the
vertices in increasing degeneracy order. Iteration `i` is reached, its two reads succeed,
the degree entry `d` it reads for the vertex `v` it visits is the core number of `v` in
the graph (the largest `k` such that `v` lies in a subgraph of minimum degree at least
`k`), and the entry read by any earlier iteration `j` is at most `d`. -/
theorem findMaximumClique_visits_cores (g : Graph) (hg : g.simpleUndirected) (k i : Nat)
    (hi : i < g.numVertices) :
    ∃ st v d, outerLoop g k i = .ok st ∧
      readAt st.arrays.sorted_vertices i = .ok v ∧
      readAt st.arrays.vertex_degrees v = .ok d ∧
      isCoreNumber g v d ∧
      ∀ j ≤ i, ∃ stj vj dj, outerLoop g k j = .ok stj ∧
        readAt stj.arrays.sorted_vertices j = .ok vj ∧
        readAt stj.arrays.vertex_degrees vj = .ok dj ∧ dj ≤ d := by
  obtain ⟨st, hE, hinv, hcore, _⟩ := outerLoop_core hg k i (by omega)
  have h := hinv.arrays
  have hv := h.sv_lt i hi
  obtain ⟨hA, hB⟩ := core_visit hg h hinv.residual hcore hi
  refine ⟨st, valueAt st.arrays.sorted_vertices i,
    valueAt st.arrays.vertex_degrees (valueAt st.arrays.sorted_vertices i), hE,
    readAt_ok (by rw [h.len_sv]; exact hi), readAt_ok (by rw [h.len_deg]; exact hv), ⟨?_, ?_⟩, ?_⟩
  · exact hA _ hv (by rw [h.pos_sv i hi])
  · rintro k' ⟨H, hvH, hmin⟩
    exact hB H k' hmin ⟨_, hvH, by rw [h.pos_sv i hi]⟩
  · intro j hj
    obtain ⟨stj, hEj, hinvj, _⟩ := outerLoop_core hg k j (by omega)
    have hjn : j < g.numVertices := by omega
    refine ⟨stj, valueAt stj.arrays.sorted_vertices j,
      valueAt stj.arrays.vertex_degrees (valueAt stj.arrays.sorted_vertices j), hEj,
      readAt_ok (by rw [hinvj.arrays.len_sv]; exact hjn),
      readAt_ok (by rw [hinvj.arrays.len_deg]; exact hinvj.arrays.sv_lt j hjn), ?_⟩
    have := visitDegree_mono hg k hj hi
    rw [visitDegree_eq hE, visitDegree_eq hEj] at this
    exact this

theorem findMaximumClique_visits_cores_witness :
    ∃ st v d, outerLoop kite 3 2 = .ok st ∧
      readAt st.arrays.sorted_vertices 2 = .ok v ∧
      readAt st.arrays.vertex_degrees v = .ok d ∧
      isCoreNumber kite v d ∧
      ∀ j ≤ 2, ∃ stj vj dj, outerLoop kite 3 j = .ok stj ∧
        readAt stj.arrays.sorted_vertices j = .ok vj ∧
        readAt stj.arrays.vertex_degrees vj = .ok dj ∧ dj ≤ d :=
  findMaximumClique_visits_cores kite (by decide) 3 2 (by decide)

/-- On the kite the degree entries read by the six iterations are the core numbers 1, 1,
3, 3, 3, 3. -/
theorem visitDegree_kite : (List.range 6).map (visitDegree kite 3) = [1, 1, 3, 3, 3, 3] := by
  decide!

theorem findMaximumCliqueSubsetTraced_succ (g : Graph) (deg : List Nat) (fuel : Nat)
    (S : List Nat) (c m : Nat) (tmp : List Nat) :
    findMaximumCliqueSubsetTraced g deg (fuel + 1) S c m tmp =
      (if S.isEmpty then
        if c > m then .ok ((c, []), ⟨1, []⟩) else .ok ((m, tmp), ⟨1, []⟩)
      else do
        let (r, t) ← subsetLoopTraced g deg fuel S c m tmp
        pure (r, ⟨t.depth + 1, t.calls⟩)) := by
  rw [findMaximumCliqueSubsetTraced]

theorem subsetLoopTraced_nil (g : Graph) (deg : List Nat) (fuel : Nat)
    (c m : Nat) (tmp : List Nat) :
    subsetLoopTraced g deg (fuel + 1) [] c m tmp = .ok ((m, tmp), ⟨0, []⟩) := by
  rw [subsetLoopTraced]; simp

theorem subsetLoopTraced_snoc (g : Graph) (deg : List Nat) (fuel : Nat) (rest : List Nat)
    (v : Nat) (c m : Nat) (tmp : List Nat) :
    subsetLoopTraced g deg (fuel + 1) (rest ++ [v]) c m tmp =
      (if c + (rest.length + 1) ≤ m then .ok ((m, tmp), ⟨0, []⟩) else do
        let neighbors ← rest.foldlM (fun (nb : List Nat) candidate => do
          let d ← readAt deg candidate
          if d ≥ m then
            let e ← g.edge v candidate
            if e then pure (nb ++ [candidate]) else pure nb
          else pure nb) []
        let ((new_found_size, t), t1) ←
          findMaximumCliqueSubsetTraced g deg fuel neighbors (c + 1) m tmp
        let (r, t2) ←
          if new_found_size > m then
            subsetLoopTraced g deg fuel rest c new_found_size (t ++ [v])
          else
            subsetLoopTraced g deg fuel rest c m t
        pure (r, ⟨max t1.depth t2.depth,
          (rest.length + 1, neighbors.length) :: (t1.calls ++ t2.calls)⟩)) := by
  rw [subsetLoopTraced]; simp

/-- The traced search computes what the search computes: dropping the trace gives the
result of `findMaximumCliqueSubset` (respectively of its loop), failures included. -/
theorem traced_erase (g : Graph) (deg : List Nat) :
    ∀ fuel,
      (∀ S c m tmp, Except.map Prod.fst (findMaximumCliqueSubsetTraced g deg fuel S c m tmp) =
        findMaximumCliqueSubset g deg fuel S c m tmp) ∧
      (∀ S c m tmp, Except.map Prod.fst (subsetLoopTraced g deg fuel S c m tmp) =
        subsetLoop g deg fuel S c m tmp) := by
  intro fuel
  induction fuel with
  | zero =>
    constructor <;> intro S c m tmp
    · rw [findMaximumCliqueSubsetTraced, findMaximumCliqueSubset]; rfl
    · rw [subsetLoopTraced, subsetLoop]; rfl
  | succ fuel ih =>
    obtain ⟨ihE, ihL⟩ := ih
    constructor
    · intro S c m tmp
      rw [findMaximumCliqueSubsetTraced_succ, findMaximumCliqueSubset_succ]
      split_ifs with h1 h2
      · rfl
      · rfl
      · rw [← ihL S c m tmp]
        cases subsetLoopTraced g deg fuel S c m tmp with
        | error e => rfl
        | ok a => rfl
    · intro S c m tmp
      rcases List.eq_nil_or_concat S with hS | ⟨rest, v, hS⟩
      · subst hS
        rw [subsetLoopTraced_nil, subsetLoop_nil]; rfl
      · rw [List.concat_eq_append] at hS
        subst hS
        rw [subsetLoopTraced_snoc, subsetLoop_snoc]
        split_ifs with h1
        · rfl
        · simp only [bind, Except.bind]
          generalize (List.foldlM _ ([] : List Nat) rest : Except Failure (List Nat)) = F
          cases F with
          | error e => rfl
          | ok nbrs =>
            simp only []
            rw [← ihE nbrs (c + 1) m tmp]
            cases findMaximumCliqueSubsetTraced g deg fuel nbrs (c + 1) m tmp with
            | error e => rfl
            | ok a =>
              obtain ⟨⟨nf, t⟩, t1⟩ := a
              simp only [Except.map]
              split_ifs with h2
              · rw [← ihL rest c nf (t ++ [v])]
                cases subsetLoopTraced g deg fuel rest c nf (t ++ [v]) with
                | error e => rfl
                | ok b => rfl
              · rw [← ihL rest c m t]
                cases subsetLoopTraced g deg fuel rest c m t with
                | error e => rfl
                | ok b => rfl

/-- The nesting of the traced search: a call on `S` nests at most `|S| + 1` calls deep
(its loop at most `|S|`), and every nested call is handed a list strictly shorter than the
list its caller holds at that turn, which is never longer than `S`. -/
theorem traced_bound (g : Graph) (deg : List Nat) (hdeg : deg.length = g.numVertices) :
    ∀ fuel,
      (∀ S c m tmp r tr, (∀ x ∈ S, x < g.numVertices) →
        findMaximumCliqueSubsetTraced g deg fuel S c m tmp = .ok (r, tr) →
        tr.depth ≤ S.length + 1 ∧ ∀ p ∈ tr.calls, p.2 < p.1 ∧ p.1 ≤ S.length) ∧
      (∀ S c m tmp r tr, (∀ x ∈ S, x < g.numVertices) →
        subsetLoopTraced g deg fuel S c m tmp = .ok (r, tr) →
        tr.depth ≤ S.length ∧ ∀ p ∈ tr.calls, p.2 < p.1 ∧ p.1 ≤ S.length) := by
  intro fuel
  induction fuel with
  | zero =>
    constructor <;> intro S c m tmp r tr _ h
    · rw [findMaximumCliqueSubsetTraced] at h; exact absurd h (by simp)
    · rw [subsetLoopTraced] at h; exact absurd h (by simp)
  | succ fuel ih =>
    obtain ⟨ihE, ihL⟩ := ih
    constructor
    · intro S c m tmp r tr hlt h
      rw [findMaximumCliqueSubsetTraced_succ] at h
      split_ifs at h with h1 h2
      · injection h with h; injection h with _ h; subst h
        exact ⟨by simp, by simp⟩
      · injection h with h; injection h with _ h; subst h
        exact ⟨by simp, by simp⟩
      · simp only [bind, Except.bind] at h
        cases hL : subsetLoopTraced g deg fuel S c m tmp with
        | error e => rw [hL] at h; exact absurd h (by simp)
        | ok a =>
          obtain ⟨r', t⟩ := a
          rw [hL] at h
          obtain ⟨b1, b2⟩ := ihL S c m tmp r' t hlt hL
          injection h with h; injection h with _ h; subst h
          exact ⟨by simpa using b1, b2⟩
    · intro S c m tmp r tr hlt h
      rcases List.eq_nil_or_concat S with hS | ⟨rest, v, hS⟩
      · subst hS
        rw [subsetLoopTraced_nil] at h
        injection h with h; injection h with _ h; subst h
        exact ⟨by simp, by simp⟩
      · rw [List.concat_eq_append] at hS
        subst hS
        rw [subsetLoopTraced_snoc] at h
        split_ifs at h with h1
        · injection h with h; injection h with _ h; subst h
          exact ⟨by simp, by simp⟩
        · have hv : v < g.numVertices := hlt v (by simp)
          have hrest : ∀ x ∈ rest, x < g.numVertices := fun x hx => hlt x (by simp [hx])
          rw [@subset_neighbors_ok g deg v m hv rest (by rw [hdeg]; exact hrest)] at h
          simp only [bind, Except.bind] at h
          have hlen : (rest.filter (fun u => decide (m ≤ valueAt deg u) &&
              decide (u ∈ g.neighbors v))).length ≤ rest.length := List.length_filter_le _ _
          have hsub : ∀ x ∈ rest.filter (fun u => decide (m ≤ valueAt deg u) &&
              decide (u ∈ g.neighbors v)), x < g.numVertices :=
            fun x hx => hrest x (List.mem_of_mem_filter hx)
          cases hN : findMaximumCliqueSubsetTraced g deg fuel
              (rest.filter (fun u => decide (m ≤ valueAt deg u) && decide (u ∈ g.neighbors v)))
              (c + 1) m tmp with
          | error e => rw [hN] at h; exact absurd h (by simp)
          | ok a =>
            obtain ⟨⟨nf, t⟩, t1⟩ := a
            rw [hN] at h
            simp only [] at h
            obtain ⟨n1, n2⟩ := ihE _ _ _ _ _ _ hsub hN
            have hfin : ∀ (_r2 : Nat × List Nat) (t2 : CallTrace), tr = ⟨max t1.depth t2.depth,
                (rest.length + 1, (rest.filter (fun u => decide (m ≤ valueAt deg u) &&
                  decide (u ∈ g.neighbors v))).length) :: (t1.calls ++ t2.calls)⟩ →
                (t2.depth ≤ rest.length ∧ ∀ p ∈ t2.calls, p.2 < p.1 ∧ p.1 ≤ rest.length) →
                tr.depth ≤ (rest ++ [v]).length ∧
                  ∀ p ∈ tr.calls, p.2 < p.1 ∧ p.1 ≤ (rest ++ [v]).length := by
              intro _ t2 e ⟨l1, l2⟩
              subst e
              rw [List.length_append, List.length_singleton]
              refine ⟨?_, ?_⟩
              · simp only [max_le_iff]
                omega
              · intro p hp
                rw [List.mem_cons, List.mem_append] at hp
                rcases hp with hp | hp | hp
                · subst hp
                  simp only []
                  omega
                · have := n2 p hp
                  omega
                · have := l2 p hp
                  omega
            split_ifs at h with h2
            · cases hR : subsetLoopTraced g deg fuel rest c nf (t ++ [v]) with
              | error e => rw [hR] at h; exact absurd h (by simp)
              | ok b =>
                obtain ⟨r2, t2⟩ := b
                rw [hR] at h
                injection h with h; injection h with _ h
                exact hfin r2 t2 h.symm (ihL _ _ _ _ _ _ hrest hR)
            · cases hR : subsetLoopTraced g deg fuel rest c m t with
              | error e => rw [hR] at h; exact absurd h (by simp)
              | ok b =>
                obtain ⟨r2, t2⟩ := b
                rw [hR] at h
                injection h with h; injection h with _ h
                exact hfin r2 t2 h.symm (ihL _ _ _ _ _ _ hrest hR)

/-- When the search returns, the traced search returns the same result with some
trace. -/
theorem traced_of_ok {g : Graph} {deg : List Nat} {fuel : Nat} {S : List Nat} {c m : Nat}
    {tmp : List Nat} {r : Nat × List Nat}
    (h : findMaximumCliqueSubset g deg fuel S c m tmp = .ok r) :
    ∃ tr, findMaximumCliqueSubsetTraced g deg fuel S c m tmp = .ok (r, tr) := by
  have e := (traced_erase g deg fuel).1 S c m tmp
  rw [h] at e
  cases hT : findMaximumCliqueSubsetTraced g deg fuel S c m tmp with
  | error err => rw [hT] at e; exact absurd e (by simp [Except.map])
  | ok a =>
    obtain ⟨r', tr⟩ := a
    rw [hT] at e
    simp only [Except.map] at e
    injection e with e
    subst e
    exact ⟨tr, rfl⟩

/-- The degree entry read for a visited vertex is at most any `D` for which the graph is
`D`-degenerate. -/
theorem coreAtLeast_le_degenerate {g : Graph} {D v k : Nat} (hD : isDegenerate g D)
    (h : coreAtLeast g v k) : k ≤ D := by
  obtain ⟨H, hv, hmin⟩ := h
  obtain ⟨x, hx, hle⟩ := hD H (List.ne_nil_of_mem hv) (fun x hx => (hmin x hx).1)
  have := (hmin x hx).2
  omega

/-- Every graph is degenerate for its maximum degree. -/
theorem isDegenerate_maxDegree (g : Graph) : isDegenerate g g.maxDegree := by
  intro H hne hlt
  obtain ⟨x, hx⟩ := List.exists_mem_of_ne_nil H hne
  refine ⟨x, hx, ?_⟩
  have h1 : inducedDegree g H x ≤ (g.neighbors x).length := List.countP_le_length _
  have h2 := (maxDegree_spec g).1 x (hlt x hx)
  omega

/-- The triangle has degeneracy 2. -/
theorem triangle_degeneracy : isDegeneracy triangle 2 := by
  refine ⟨isDegenerate_maxDegree triangle, ?_⟩
  intro D hD
  obtain ⟨x, hx, hle⟩ := hD [0, 1, 2] (by simp) (by decide)
  have h2 : ∀ y ∈ [0, 1, 2], inducedDegree triangle [0, 1, 2] y = 2 := by decide
  rw [h2 x hx] at hle
  exact hle

/-- C15: the search depth is bounded by the degeneracy `D` of the graph. On a simple
undirected graph, at every outer iteration `i` the candidate list `S` collected for
`findMaximumCliqueSubset` (the neighbours with a larger position whose degree entry
reaches `max_found_size`) has at most `D` vertices; the call on `S` with the fuel
`findMaximumClique` passes returns, and its trace shows that every nested call was handed
a list strictly shorter than the list its caller held, and that no chain of nested calls
is longer than `D + 1`. -/
theorem findMaximumClique_depth (g : Graph) (hg : g.simpleUndirected) (k D : Nat)
    (hD : isDegeneracy g D) (i : Nat) (hi : i < g.numVertices) :
    ∃ st v d S r tr, outerLoop g k i = .ok st ∧
      readAt st.arrays.sorted_vertices i = .ok v ∧
      readAt st.arrays.vertex_degrees v = .ok d ∧
      collectNeighbors g st.arrays st.max_found_size v = .ok S ∧
      S.length ≤ D ∧
      findMaximumCliqueSubset g st.arrays.vertex_degrees (2 * S.length + 2) S 1
        st.max_found_size st.maximum_clique_tmp = .ok r ∧
      findMaximumCliqueSubsetTraced g st.arrays.vertex_degrees (2 * S.length + 2) S 1
        st.max_found_size st.maximum_clique_tmp = .ok (r, tr) ∧
      tr.depth ≤ D + 1 ∧ ∀ p ∈ tr.calls, p.2 < p.1 ∧ p.1 ≤ S.length := by
  obtain ⟨st, hE, hinv, hcore, _⟩ := outerLoop_core hg k i (by omega)
  have h := hinv.arrays
  have hv := h.sv_lt i hi
  have hpv := h.pos_sv i hi
  obtain ⟨hA, _⟩ := core_visit hg h hinv.residual hcore hi
  have hdD := coreAtLeast_le_degenerate hD.1 (hA _ hv (by rw [hpv]))
  have hS := collectNeighbors_ok hg h st.max_found_size hv
  have hlen : ((g.neighbors (valueAt st.arrays.sorted_vertices i)).filter (fun w =>
      decide (valueAt st.arrays.vertex_positions w >
        valueAt st.arrays.vertex_positions (valueAt st.arrays.sorted_vertices i)) &&
        decide (valueAt st.arrays.vertex_degrees w ≥ st.max_found_size))).length ≤ D := by
    rw [← List.countP_eq_length_filter]
    have h1 : (g.neighbors (valueAt st.arrays.sorted_vertices i)).countP (fun w =>
        decide (valueAt st.arrays.vertex_positions w >
          valueAt st.arrays.vertex_positions (valueAt st.arrays.sorted_vertices i)) &&
          decide (valueAt st.arrays.vertex_degrees w ≥ st.max_found_size)) ≤
        (g.neighbors (valueAt st.arrays.sorted_vertices i)).countP
          (fun w => decide (i ≤ valueAt st.arrays.vertex_positions w)) := by
      apply List.countP_mono_left
      intro w _ hw
      simp only [Bool.and_eq_true, decide_eq_true_eq, hpv] at hw ⊢
      omega
    have h2 := hinv.residual _ hv
    omega
  have hnd : ((g.neighbors (valueAt st.arrays.sorted_vertices i)).filter (fun w =>
      decide (valueAt st.arrays.vertex_positions w >
        valueAt st.arrays.vertex_positions (valueAt st.arrays.sorted_vertices i)) &&
        decide (valueAt st.arrays.vertex_degrees w ≥ st.max_found_size))).Nodup :=
    (neighbors_nodup hg hv).filter _
  have hlt : ∀ x ∈ (g.neighbors (valueAt st.arrays.sorted_vertices i)).filter (fun w =>
      decide (valueAt st.arrays.vertex_positions w >
        valueAt st.arrays.vertex_positions (valueAt st.arrays.sorted_vertices i)) &&
        decide (valueAt st.arrays.vertex_degrees w ≥ st.max_found_size)),
      x < g.numVertices :=
    fun x hx => (neighbors_symm hg hv (List.mem_of_mem_filter hx)).2.1
  obtain ⟨r, tmp', hR, _⟩ := (subset_sound g hg st.arrays.vertex_degrees h.len_deg _).1
    _ 1 st.max_found_size st.maximum_clique_tmp (le_refl _) hnd hlt
  obtain ⟨tr, hT⟩ := traced_of_ok hR
  obtain ⟨b1, b2⟩ := (traced_bound g st.arrays.vertex_degrees h.len_deg _).1
    _ _ _ _ _ _ hlt hT
  exact ⟨st, _, _, _, (r, tmp'), tr, hE, readAt_ok (by rw [h.len_sv]; exact hi),
    readAt_ok (by rw [h.len_deg]; exact hv), hS, hlen, hR, hT, by omega, b2⟩

theorem findMaximumClique_depth_witness :
    ∃ st v d S r tr, outerLoop triangle 3 0 = .ok st ∧
      readAt st.arrays.sorted_vertices 0 = .ok v ∧
      readAt st.arrays.vertex_degrees v = .ok d ∧
      collectNeighbors triangle st.arrays st.max_found_size v = .ok S ∧
      S.length ≤ 2 ∧
      findMaximumCliqueSubset triangle st.arrays.vertex_degrees (2 * S.length + 2) S 1
        st.max_found_size st.maximum_clique_tmp = .ok r ∧
      findMaximumCliqueSubsetTraced triangle st.arrays.vertex_degrees (2 * S.length + 2) S 1
        st.max_found_size st.maximum_clique_tmp = .ok (r, tr) ∧
      tr.depth ≤ 2 + 1 ∧ ∀ p ∈ tr.calls, p.2 < p.1 ∧ p.1 ≤ S.length :=
  findMaximumClique_depth triangle (by decide) 3 2 triangle_degeneracy 0 (by decide)

/-- On the triangle the bound is attained: the call on the two forward neighbours of the
first vertex nests three calls, on lists of lengths 2, 1 and 0. -/
theorem findMaximumCliqueSubsetTraced_triangle :
    findMaximumCliqueSubsetTraced triangle [2, 2, 2] 6 [1, 2] 1 2 [] =
      .ok ((3, [1, 2]), ⟨3, [(2, 1), (1, 0)]⟩) := by
  decide!

/-- C21: vertices already behind are not touched by a peel. On a simple undirected graph,
for every outer iteration `i` the states before and after the iteration exist, and the
peel of the vertex at position `i` changes neither `sorted_vertices` at any position
`≤ i` nor the position or the degree entry of the visited vertex or of a vertex visited
earlier; a vertex whose position or degree entry changes, and a position whose vertex
changes, lie behind `i` before and after. The same holds after every single neighbour
update of the peel. -/
theorem peel_frame (g : Graph) (hg : g.simpleUndirected) (k i : Nat)
    (hi : i < g.numVertices) :
    ∃ st st', outerLoop g k i = .ok st ∧ outerLoop g k (i + 1) = .ok st' ∧
      (∀ p ≤ i, valueAt st'.arrays.sorted_vertices p = valueAt st.arrays.sorted_vertices p) ∧
      (∀ x < g.numVertices, valueAt st.arrays.vertex_positions x ≤ i →
        valueAt st'.arrays.vertex_positions x = valueAt st.arrays.vertex_positions x ∧
        valueAt st'.arrays.vertex_degrees x = valueAt st.arrays.vertex_degrees x) ∧
      (∀ x < g.numVertices,
        (valueAt st'.arrays.vertex_positions x ≠ valueAt st.arrays.vertex_positions x ∨
          valueAt st'.arrays.vertex_degrees x ≠ valueAt st.arrays.vertex_degrees x) →
        i < valueAt st.arrays.vertex_positions x ∧ i < valueAt st'.arrays.vertex_positions x) ∧
      (∀ p, valueAt st'.arrays.sorted_vertices p ≠ valueAt st.arrays.sorted_vertices p →
        i < p) ∧
      ∀ pre suf, g.outEdges (valueAt st.arrays.sorted_vertices i) = .ok (pre ++ suf) →
        ∃ s, pre.foldlM (peelNeighbor (valueAt st.arrays.vertex_degrees
            (valueAt st.arrays.sorted_vertices i))) st.arrays = .ok s ∧
          (∀ p ≤ i, valueAt s.sorted_vertices p = valueAt st.arrays.sorted_vertices p) ∧
          ∀ x < g.numVertices, valueAt st.arrays.vertex_positions x ≤ i →
            valueAt s.vertex_positions x = valueAt st.arrays.vertex_positions x ∧
            valueAt s.vertex_degrees x = valueAt st.arrays.vertex_degrees x := by
  obtain ⟨st, hE, hinv⟩ := outerLoop_inv hg k i (by omega)
  obtain ⟨st1, st', _, _, hE', _, _, hframe, _⟩ := outerIteration_full hg hinv hi
  have hv := hinv.arrays.sv_lt i hi
  refine ⟨st, st', hE, by rw [outerLoop_succ, hE]; exact hE', hframe.sv_eq, hframe.behind,
    ?_, ?_, ?_⟩
  · intro x hx hchange
    have h1 : i < valueAt st.arrays.vertex_positions x := by
      by_contra hc
      obtain ⟨e1, e2⟩ := hframe.behind x hx (by omega)
      rcases hchange with h | h
      · exact h e1
      · exact h e2
    exact ⟨h1, hframe.ahead x hx h1⟩
  · intro p hp
    by_contra hc
    exact hp (hframe.sv_eq p (by omega))
  · intro pre suf hsplit
    rw [outEdges_ok hv] at hsplit
    have hsplit' : g.neighbors (valueAt st.arrays.sorted_vertices i) = pre ++ suf := by
      injection hsplit
    have hnd : pre.Nodup := by
      have := neighbors_nodup hg hv
      rw [hsplit'] at this
      exact (List.nodup_append.1 this).1
    have hlt : ∀ u ∈ pre, u < g.numVertices := by
      intro u hu
      exact (neighbors_symm hg hv (by rw [hsplit']; simp [hu])).2.1
    obtain ⟨s, hfold, _, hf, _⟩ := peelFold_spec hinv.arrays hi pre hnd hlt
    exact ⟨s, hfold, hf.sv_eq, hf.behind⟩

theorem peel_frame_witness :
    ∃ st st', outerLoop tailedTriangle 3 0 = .ok st ∧ outerLoop tailedTriangle 3 (0 + 1) = .ok st' ∧
      (∀ p ≤ 0, valueAt st'.arrays.sorted_vertices p = valueAt st.arrays.sorted_vertices p) ∧
      (∀ x < tailedTriangle.numVertices, valueAt st.arrays.vertex_positions x ≤ 0 →
        valueAt st'.arrays.vertex_positions x = valueAt st.arrays.vertex_positions x ∧
        valueAt st'.arrays.vertex_degrees x = valueAt st.arrays.vertex_degrees x) ∧
      (∀ x < tailedTriangle.numVertices,
        (valueAt st'.arrays.vertex_positions x ≠ valueAt st.arrays.vertex_positions x ∨
          valueAt st'.arrays.vertex_degrees x ≠ valueAt st.arrays.vertex_degrees x) →
        0 < valueAt st.arrays.vertex_positions x ∧ 0 < valueAt st'.arrays.vertex_positions x) ∧
      (∀ p, valueAt st'.arrays.sorted_vertices p ≠ valueAt st.arrays.sorted_vertices p →
        0 < p) ∧
      ∀ pre suf, tailedTriangle.outEdges (valueAt st.arrays.sorted_vertices 0) = .ok (pre ++ suf) →
        ∃ s, pre.foldlM (peelNeighbor (valueAt st.arrays.vertex_degrees
            (valueAt st.arrays.sorted_vertices 0))) st.arrays = .ok s ∧
          (∀ p ≤ 0, valueAt s.sorted_vertices p = valueAt st.arrays.sorted_vertices p) ∧
          ∀ x < tailedTriangle.numVertices, valueAt st.arrays.vertex_positions x ≤ 0 →
            valueAt s.vertex_positions x = valueAt st.arrays.vertex_positions x ∧
            valueAt s.vertex_degrees x = valueAt st.arrays.vertex_degrees x :=
  peel_frame tailedTriangle (by decide) 3 0 (by decide)

/-- The arrays of the triangle with a tail before and after the peel of iteration 0,
which lowers the degree entry of vertex 2 and swaps it with vertex 1; position 0 keeps
its vertex. -/
theorem tailedTriangle_first_peel :
    Except.map (fun st => st.arrays) (outerLoop tailedTriangle 3 0) =
      .ok ⟨[0, 0, 1, 4], [0, 1, 2, 4, 3], [0, 1, 2, 4, 3], [1, 2, 2, 3, 2]⟩ ∧
    Except.map (fun st => st.arrays) (outerLoop tailedTriangle 3 1) =
      .ok ⟨[0, 0, 2, 4], [0, 2, 1, 4, 3], [0, 2, 1, 4, 3], [1, 2, 1, 3, 2]⟩ := by
  decide!

/-- Indexing once the bin-sort has handed control back. On a simple undirected graph over
the vertices `[0, n)` and for `k ≥ 2`, the body of the bin-sort and every prefix of the
outer loop, in which every access to the four arrays is checked, end in a state and never
in a failure, and so does the search; every vertex of the list it ends with is below `n`,
so for a match vector of `n` entries every lookup of the loop of `recognize` that stores
the clique is in range and the loop stores the whole clique. -/
theorem findMaximumClique_in_range (g : Graph) (hg : g.simpleUndirected) (k : Nat)
    (hk : 2 ≤ k) :
    (∃ arrays, binSortVerticesByDegree g ⟨[], [], [], []⟩ = .ok arrays) ∧
    (∀ i ≤ g.numVertices, ∃ st, outerLoop g k i = .ok st) ∧
    ∃ r, findMaximumClique g k = .ok r ∧
      Except.map (fun st => st.maximum_clique) (outerLoop g k g.numVertices) = .ok r ∧
      (∀ v ∈ r, v < g.numVertices) ∧
      ∀ (M : Type) (predicted_matches : List M), predicted_matches.length = g.numVertices →
        (∀ v ∈ r, ∃ m, readAt predicted_matches v = .ok m) ∧
        storeClique predicted_matches r [[]] =
          (.ok (), [r.filterMap (fun i => predicted_matches[i]?)]) ∧
        (r.filterMap (fun i => predicted_matches[i]?)).length = r.length := by
  obtain ⟨r, M, hE, _, hbest, _⟩ := findMaximumClique_spec g hg k hk
  have hlt : ∀ v ∈ r, v < g.numVertices := by
    intro v hv
    rcases hbest with ⟨h, _⟩ | ⟨h, _⟩
    · rw [h] at hv
      exact absurd hv (List.not_mem_nil _)
    · exact (h.2 v hv).1
  refine ⟨?_, ?_, r, hE, ?_, hlt, ?_⟩
  · obtain ⟨arrays, h, _⟩ := binSort_closed g ⟨[], [], [], []⟩
    exact ⟨arrays, h⟩
  · intro i hi
    obtain ⟨st, h, _⟩ := outerLoop_inv hg k i hi
    exact ⟨st, h⟩
  · rw [← findMaximumClique_eq_outerLoop g k hk]
    exact hE
  · intro M ms hlen
    have hlt' : ∀ i ∈ r, i < ms.length := fun i hi => by rw [hlen]; exact hlt i hi
    refine ⟨?_, ?_, ?_⟩
    · intro v hv
      have hv' := hlt' v hv
      exact ⟨ms[v], by simp [readAt, List.getElem?_eq_getElem hv']⟩
    · have := storeClique_ok ms r [] [] hlt'
      simpa using this
    · exact (filterMap_index_related ms r hlt').length_eq.symm

theorem findMaximumClique_in_range_witness :
    findMaximumClique tailedTriangle 3 = .ok [3, 4, 1] ∧
    (∃ arrays, binSortVerticesByDegree tailedTriangle ⟨[], [], [], []⟩ = .ok arrays) ∧
    (∀ i ≤ tailedTriangle.numVertices, ∃ st, outerLoop tailedTriangle 3 i = .ok st) ∧
    ∃ r, findMaximumClique tailedTriangle 3 = .ok r ∧
      Except.map (fun st => st.maximum_clique)
        (outerLoop tailedTriangle 3 tailedTriangle.numVertices) = .ok r ∧
      (∀ v ∈ r, v < tailedTriangle.numVertices) ∧
      ∀ (M : Type) (predicted_matches : List M),
        predicted_matches.length = tailedTriangle.numVertices →
        (∀ v ∈ r, ∃ m, readAt predicted_matches v = .ok m) ∧
        storeClique predicted_matches r [[]] =
          (.ok (), [r.filterMap (fun i => predicted_matches[i]?)]) ∧
        (r.filterMap (fun i => predicted_matches[i]?)).length = r.length :=
  ⟨by decide!, findMaximumClique_in_range tailedTriangle (by decide) 3 (by decide)⟩

/-- C23: if the transform estimator raises during a `recognize` call that found a
non-empty clique, `recognize` ends with that failure and appends no transformation: the
recognizer is left with one candidate cluster, the cluster just materialised, and with no
candidate transformation. -/
theorem recognize_solver_raises {R D F U T C : Type} (env : Collaborators R D F U T C)
    (self : Recognizer R F T C) (ms : List (PairwiseMatch R F)) (g : Graph) (cache : C)
    (clique : List Nat) (e : Failure) (hms : ms ≠ [])
    (hb : env.buildConsistencyGraph self.cache ms = .ok (g, cache))
    (hc : findMaximumClique g self.params_.min_cluster_size = .ok clique) (hne : clique ≠ [])
    (hlt : ∀ i ∈ clique, i < ms.length)
    (hraise : ∀ source target,
      solverInput env.toDouble env.uninit (clique.filterMap (fun i => ms[i]?)) =
        .ok (source, target) → env.umeyama source target false = .error e) :
    (recognize env self ms).1 = .error e ∧
    (recognize env self ms).2.candidate_matches_ = [clique.filterMap (fun i => ms[i]?)] ∧
    (recognize env self ms).2.candidate_matches_.length = 1 ∧
    (clique.filterMap (fun i => ms[i]?)).length = clique.length ∧
    (recognize env self ms).2.candidate_transfomations_ = [] ∧
    (recognize env self ms).2.candidate_transfomations_.length = 0 := by
  have h1 : ms.isEmpty = false := by
    cases ms with
    | nil => exact absurd rfl hms
    | cons a t => rfl
  have h2 : clique.isEmpty = false := by
    cases clique with
    | nil => exact absurd rfl hne
    | cons a t => rfl
  have hstore := storeClique_ok ms clique [] [] hlt
  simp only [List.nil_append] at hstore
  have hest : estimateRigidTransformation env (clique.filterMap (fun i => ms[i]?)) =
      .error e := by
    unfold estimateRigidTransformation
    have hin := solverInput_eq env.toDouble env.uninit (clique.filterMap (fun i => ms[i]?))
    have hr := hraise _ _ hin
    rw [hin]
    simp only [bind, Except.bind]
    rw [hr]
  have hlen := (filterMap_index_related ms clique hlt).length_eq.symm
  unfold recognize
  simp only [h1, hb, hc, h2, Bool.false_eq_true, if_false, List.nil_append]
  rw [hstore]
  simp only [List.getLast?_singleton, hest]
  simp [hlen]

theorem recognize_solver_raises_witness :
    (recognize (raisingEnv completeFour) (freshRecognizer 3) scenarioA).1 =
      .error .solverRaised ∧
    (recognize (raisingEnv completeFour) (freshRecognizer 3) scenarioA).2.candidate_matches_ =
      [[1, 2, 3, 0].filterMap (fun i => scenarioA[i]?)] ∧
    (recognize (raisingEnv completeFour) (freshRecognizer 3)
      scenarioA).2.candidate_matches_.length = 1 ∧
    ([1, 2, 3, 0].filterMap (fun i => scenarioA[i]?)).length = [1, 2, 3, 0].length ∧
    (recognize (raisingEnv completeFour) (freshRecognizer 3)
      scenarioA).2.candidate_transfomations_ = [] ∧
    (recognize (raisingEnv completeFour) (freshRecognizer 3)
      scenarioA).2.candidate_transfomations_.length = 0 :=
  recognize_solver_raises (raisingEnv completeFour) (freshRecognizer 3) scenarioA completeFour 1
    [1, 2, 3, 0] .solverRaised (by decide) rfl (by decide!) (by decide) (by decide)
    (fun _ _ _ => rfl)

theorem toUInt64_ofNat (n : Nat) (h : n < 2 ^ 64) : toUInt64 (n : Int) = n := by
  unfold toUInt64
  have : ((n : Int) % 2 ^ 64) = (n : Int) := Int.emod_eq_of_lt (by omega) (by exact_mod_cast h)
  rw [this]
  exact Int.toNat_ofNat n

/-- C24: for every id pair `(a, b)` with `0 ≤ b ≤ 62` the value `IdPairHash` passes to the
64-bit integer hash is `uint64(a)` shifted left by `1 + b` bits, that is
`uint64(a) * 2^(1+b) mod 2^64`, and not `(uint64(a) << 1) + uint64(b)`: the pair `(1, 1)`
gives 4 where the latter is 3, and the pairs `(2, 1)` and `(1, 2)` both give 8. -/
theorem idPairHashArgument_shift (a b : Int) (hb0 : 0 ≤ b) (hb : b ≤ 62) :
    idPairHashArgument (a, b) = some (toUInt64 a * 2 ^ (1 + b.toNat) % 2 ^ 64) ∧
    idPairHashArgument (1, 1) = some 4 ∧ shiftThenAdd (1, 1) = 3 ∧
    idPairHashArgument (2, 1) = some 8 ∧ idPairHashArgument (1, 2) = some 8 := by
  refine ⟨?_, by decide!, by decide!, by decide!, by decide!⟩
  obtain ⟨n, rfl⟩ := Int.eq_ofNat_of_zero_le hb0
  have hn : n ≤ 62 := by exact_mod_cast hb
  unfold idPairHashArgument
  simp only [toUInt64_ofNat n (by omega), Int.toNat_ofNat]
  have e : (1 + n) % 2 ^ 64 = 1 + n := Nat.mod_eq_of_lt (by omega)
  rw [e, if_pos (by omega)]

theorem idPairHashArgument_shift_witness :
    idPairHashArgument (3, 5) = some 192 ∧
    idPairHashArgument (3, 5) = some (toUInt64 3 * 2 ^ (1 + (5 : Int).toNat) % 2 ^ 64) ∧
    idPairHashArgument (1, 1) = some 4 ∧ shiftThenAdd (1, 1) = 3 ∧
    idPairHashArgument (2, 1) = some 8 ∧ idPairHashArgument (1, 2) = some 8 :=
  ⟨by decide!, idPairHashArgument_shift 3 5 (by decide) (by decide)⟩

/-- Beside the claim: a second id of 63 or more shifts by at least 64 bits, for which C++
defines no value; a negative first id is taken modulo `2^64`; and for a second id of 0 the
shift is by one bit, which is also what `(uint64(a) << 1) + uint64(b)` gives. -/
theorem idPairHashArgument_edges :
    idPairHashArgument (1, 63) = none ∧ idPairHashArgument (1, 64) = none ∧
    idPairHashArgument (-1, 0) = some (2 ^ 64 - 2) ∧ idPairHashArgument (3, -1) = some 3 ∧
    idPairHashArgument (5, 0) = some 10 ∧ shiftThenAdd (5, 0) = 10 := by
  decide!

/-! ### The missing `return` of `binSortVerticesByDegree`

The search of `findMaximumClique` is behind a call of `binSortVerticesByDegree`, which is
declared `size_t` and has no `return` statement. As the C++ language defines it, no call
with `min_clique_size ≥ 2` gets past that point. -/

/-- For every graph and whatever the vectors held, the body of `binSortVerticesByDegree`
runs to the closing brace, where the call flows off the end of the function. -/
theorem binSortVerticesByDegreeCall_eq (g : Graph) (s : SortState) :
    binSortVerticesByDegreeCall g s = .error .flowedOffEnd := by
  obtain ⟨arrays, h, _⟩ := binSort_closed g s
  unfold binSortVerticesByDegreeCall
  rw [h]
  rfl

/-- For every graph, `findMaximumClique` as the C++ language defines it stops at the initial
check when `min_clique_size < 2` and in the call of the bin-sort otherwise. -/
theorem findMaximumCliqueCall_eq (g : Graph) (k : Nat) :
    findMaximumCliqueCall g k = .error (if k < 2 then .checkFailed else .flowedOffEnd) := by
  unfold findMaximumCliqueCall
  by_cases hk : k ≥ 2
  · rw [if_pos hk, binSortVerticesByDegreeCall_eq, if_neg (by omega)]
    rfl
  · rw [if_neg hk, if_pos (by omega)]

/-- C3, at three mutually adjacent vertices and nothing else with `k = 4`. The graph has no
clique of four vertices and the search, once the bin-sort has handed control back, ends
with the empty list; the call as C++ defines it returns no list: it flows off the end of
`binSortVerticesByDegree`. -/
theorem flowedOffEnd_below_threshold :
    triangle.simpleUndirected ∧ triangle.isComplete ∧ triangle.numVertices = 4 - 1 ∧
    (∀ K, triangle.isClique K → K.length < 4) ∧
    findMaximumClique triangle 4 = .ok [] ∧
    findMaximumCliqueCall triangle 4 = .error .flowedOffEnd := by
  refine ⟨by decide, by decide, by decide, ?_, by decide!, ?_⟩
  · obtain ⟨r, hr, hiff, _⟩ := findMaximumClique_empty_iff triangle (by decide) 4 (by decide)
    have h0 : findMaximumClique triangle 4 = .ok [] := by decide!
    rw [h0] at hr
    cases hr
    exact hiff.1 rfl
  · rw [findMaximumCliqueCall_eq]
    rfl

/-- C5, at the triangle. With `min_clique_size = 1` the call stops at the initial check,
as the claim says; with `min_clique_size = 2` on this simple undirected graph the call as
C++ defines it fails: it flows off the end of `binSortVerticesByDegree`, where the search
behind it would have ended with `[1, 2, 0]`. -/
theorem flowedOffEnd_legal_size :
    triangle.simpleUndirected ∧
    findMaximumCliqueCall triangle 0 = .error .checkFailed ∧
    findMaximumCliqueCall triangle 1 = .error .checkFailed ∧
    findMaximumClique triangle 2 = .ok [1, 2, 0] ∧
    findMaximumCliqueCall triangle 2 = .error .flowedOffEnd := by
  refine ⟨by decide, ?_, ?_, by decide!, ?_⟩
  · rw [findMaximumCliqueCall_eq]
    rfl
  · rw [findMaximumCliqueCall_eq]
    rfl
  · rw [findMaximumCliqueCall_eq]
    rfl

/-- C10, at Scenario A: four mutually consistent matches, `min_cluster_size = 3`. The
consistency graph is complete on four vertices, and the search, once the bin-sort has
handed control back, ends with all four; as C++ defines it the call of `findMaximumClique`
returns no list, and `recognize` ends there with both candidate lists empty. -/
theorem flowedOffEnd_all_consistent :
    completeFour.simpleUndirected ∧ completeFour.isComplete ∧
    completeFour.numVertices = scenarioA.length ∧
    findMaximumClique completeFour 3 = .ok [1, 2, 3, 0] ∧
    findMaximumCliqueCall completeFour 3 = .error .flowedOffEnd ∧
    (recognizeCall (recordingEnv completeFour) (freshRecognizer 3) scenarioA).1 =
      .error .flowedOffEnd ∧
    (recognizeCall (recordingEnv completeFour) (freshRecognizer 3)
      scenarioA).2.candidate_matches_ = [] ∧
    (recognizeCall (recordingEnv completeFour) (freshRecognizer 3)
      scenarioA).2.candidate_transfomations_ = [] := by
  have hc : findMaximumCliqueCall completeFour 3 = .error .flowedOffEnd := by
    rw [findMaximumCliqueCall_eq]
    rfl
  have hr : recognizeCall (recordingEnv completeFour) (freshRecognizer 3) scenarioA =
      (.error .flowedOffEnd,
        { freshRecognizer 3 with
          candidate_transfomations_ := [], candidate_matches_ := [], cache := 1 }) := by
    unfold recognizeCall
    simp only [scenarioA, List.isEmpty_cons, Bool.false_eq_true, if_false, recordingEnv,
      freshRecognizer]
    rw [hc]
  refine ⟨by decide, by decide, by decide, by decide!, hc, ?_, ?_, ?_⟩
  · rw [hr]
  · rw [hr]
  · rw [hr]

end BronKerbosch
